import Mathlib

/-!
Verification of the tic-tac-toe engine in `tictactoe_ai.py`.

The board is a list of nine cells, each `Empty`, `X` or `O` (the Python code
uses the strings `" "`, `"X"`, `"O"`).  The Python functions mutate the board
in place and restore it before returning; the embedding passes the board
explicitly and returns the final board alongside the result, so that the
"no mutation leakage" property becomes a provable statement.  Scores use an
extended-integer type `XInt` mirroring the Python use of `math.inf` for the
initial alpha/beta window.  The recursive search is defined with a fuel
parameter (10 is enough for a nine-cell board: the recursion consumes one
unit of fuel per placed mark and a full board is terminal); `minimax` and
`get_best_move` fix the fuel at 10.
-/

inductive Cell where
  | E : Cell
  | X : Cell
  | O : Cell
deriving DecidableEq, Repr

abbrev Board := List Cell

def new_board : Board := [.E, .E, .E, .E, .E, .E, .E, .E, .E]

/-- Reading a cell: Python `b[i]` (always in bounds in the source). -/
def cell (b : Board) (i : Nat) : Cell := b.getD i .E

/-- Helper for `available_moves`: indices (counting from `i`) of empty cells,
the direct recursion behind the comprehension `enumerate(b)` + filter. -/
def availFrom (i : Nat) : Board → List Nat
  | [] => []
  | v :: rest =>
      if v = Cell.E then i :: availFrom (i + 1) rest else availFrom (i + 1) rest

/-- Python `available_moves`: `[i for i, v in enumerate(b) if v == " "]`. -/
def available_moves (b : Board) : List Nat := availFrom 0 b

/-- The eight winning lines, in the order the Python source lists them. -/
def lines : List (Nat × Nat × Nat) :=
  [(0, 1, 2), (3, 4, 5), (6, 7, 8),
   (0, 3, 6), (1, 4, 7), (2, 5, 8),
   (0, 4, 8), (2, 4, 6)]

def winnerAux (b : Board) : List (Nat × Nat × Nat) → Option Cell
  | [] => none
  | (a, c, d) :: rest =>
      if cell b a ≠ Cell.E ∧ cell b a = cell b c ∧ cell b a = cell b d then
        some (cell b a)
      else
        winnerAux b rest

/-- Python `check_winner`: first line wholly owned by one mark, else `None`. -/
def check_winner (b : Board) : Option Cell := winnerAux b lines

/-- Python `is_draw`: no winner and no empty cell. -/
def is_draw (b : Board) : Bool :=
  (check_winner b).isNone && b.all (fun v => v ≠ Cell.E)

/-- Extended integers: the Python code initialises alpha/beta and the running
best scores with `-math.inf` / `math.inf`. -/
inductive XInt where
  | negInf : XInt
  | num (n : Int) : XInt
  | posInf : XInt
deriving DecidableEq, Repr

def XInt.ble : XInt → XInt → Bool
  | .negInf, _ => true
  | _, .posInf => true
  | .num m, .num n => m ≤ n
  | .posInf, .num _ => false
  | .posInf, .negInf => false
  | .num _, .negInf => false

def XInt.blt (a b : XInt) : Bool := !(XInt.ble b a)

/-- Python `max` on scores. -/
def XInt.maxi (a b : XInt) : XInt := if XInt.ble b a then a else b

/-- Python `min` on scores. -/
def XInt.mini (a b : XInt) : XInt := if XInt.ble a b then a else b

/-- The maximizing loop body of `minimax`: place the computer's mark, recurse
(`recur` is the recursive `minimax` call at depth + 1), restore the cell, keep
strictly better scores, raise alpha, and break when `beta <= alpha`. -/
def maxLoop (recur : Board → XInt → XInt → XInt × Option Nat × Board)
    (computer : Cell) (moves : List Nat) (b : Board) (alpha beta : XInt)
    (best_score : XInt) (best_move : Option Nat) : XInt × Option Nat × Board :=
  match moves with
  | [] => (best_score, best_move, b)
  | move :: rest =>
      let b1 := b.set move computer
      let r := recur b1 alpha beta
      let b2 := r.2.2.set move Cell.E
      let best' := if XInt.blt best_score r.1 then (r.1, some move)
                   else (best_score, best_move)
      let alpha' := XInt.maxi alpha best'.1
      if XInt.ble beta alpha' then
        (best'.1, best'.2, b2)
      else
        maxLoop recur computer rest b2 alpha' beta best'.1 best'.2

/-- The minimizing loop body of `minimax`: place the opponent's mark, recurse,
restore the cell, keep strictly smaller scores, lower beta, and break when
`beta <= alpha`. -/
def minLoop (recur : Board → XInt → XInt → XInt × Option Nat × Board)
    (player : Cell) (moves : List Nat) (b : Board) (alpha beta : XInt)
    (best_score : XInt) (best_move : Option Nat) : XInt × Option Nat × Board :=
  match moves with
  | [] => (best_score, best_move, b)
  | move :: rest =>
      let b1 := b.set move player
      let r := recur b1 alpha beta
      let b2 := r.2.2.set move Cell.E
      let best' := if XInt.blt r.1 best_score then (r.1, some move)
                   else (best_score, best_move)
      let beta' := XInt.mini beta best'.1
      if XInt.ble beta' alpha then
        (best'.1, best'.2, b2)
      else
        minLoop recur player rest b2 alpha beta' best'.1 best'.2

/-- Python `minimax`, with the board passed and returned explicitly (the
Python mutates `b` in place and restores it).  The first argument is fuel;
`minimax` below instantiates it with 10, which a nine-cell board never
exhausts. -/
def minimaxF : Nat → Board → Nat → Bool → Cell → Cell → XInt → XInt →
    XInt × Option Nat × Board
  | 0, b, _, _, _, _, _, _ => (.num 0, none, b)
  | fuel + 1, b, depth, is_max, computer, player, alpha, beta =>
      let winner := check_winner b
      if winner = some computer then
        (.num (10 - (depth : Int)), none, b)
      else if winner = some player then
        (.num ((depth : Int) - 10), none, b)
      else if is_draw b then
        (.num 0, none, b)
      else if is_max then
        maxLoop (fun b1 a bt => minimaxF fuel b1 (depth + 1) false computer player a bt)
          computer (available_moves b) b alpha beta .negInf none
      else
        minLoop (fun b1 a bt => minimaxF fuel b1 (depth + 1) true computer player a bt)
          player (available_moves b) b alpha beta .posInf none

/-- Python `minimax` as called by the program: fuel 10 never runs out on a
nine-cell board. -/
def minimax (b : Board) (depth : Nat) (is_max : Bool) (computer player : Cell)
    (alpha beta : XInt) : XInt × Option Nat × Board :=
  minimaxF 10 b depth is_max computer player alpha beta

/-- The Tier-1 scan of `get_best_move`: for each available move, place `mark`,
return the move if it completes a line for `mark`, and restore the cell. -/
def winScan (mark : Cell) (b : Board) : List Nat → Option Nat × Board
  | [] => (none, b)
  | move :: rest =>
      let b1 := b.set move mark
      if check_winner b1 = some mark then
        (some move, b1.set move Cell.E)
      else
        winScan mark (b1.set move Cell.E) rest

/-- Python `get_best_move`.  The returned `Option Nat` is `none` exactly when
the final `assert move is not None` fails; the returned board is the state of
the caller's board after the call. -/
def get_best_move (b : Board) (computer player : Cell) : Option Nat × Board :=
  -- center fast path: play 4 if it immediately wins
  let s0 :=
    if cell b 4 = Cell.E then
      let b1 := b.set 4 computer
      if check_winner b1 = some computer then (some 4, b1.set 4 Cell.E)
      else (none, b1.set 4 Cell.E)
    else (none, b)
  match s0 with
  | (some m, b') => (some m, b')
  | (none, b') =>
    -- win in one move, then block in one move
    match winScan computer b' (available_moves b') with
    | (some m, b'') => (some m, b'')
    | (none, b'') =>
      match winScan player b'' (available_moves b'') with
      | (some m, b3) => (some m, b3)
      | (none, b3) =>
        let r := minimaxF 10 b3 0 true computer player .negInf .posInf
        (r.2.1, r.2.2)

/-!
### Exhaustive minimax (the pruning break removed)

`minimaxNB` is `minimax` with the single `if beta <= alpha: break` line (in
both loops) deleted; alpha and beta are still computed and passed, but are
never consulted.  This is the reference point of the spec's claim that
pruning does not change the root result.
-/

/-- The maximizing loop with the pruning break removed. -/
def maxLoopNB (recur : Board → XInt → XInt → XInt × Option Nat × Board)
    (computer : Cell) (moves : List Nat) (b : Board) (alpha beta : XInt)
    (best_score : XInt) (best_move : Option Nat) : XInt × Option Nat × Board :=
  match moves with
  | [] => (best_score, best_move, b)
  | move :: rest =>
      let b1 := b.set move computer
      let r := recur b1 alpha beta
      let b2 := r.2.2.set move Cell.E
      let best' := if XInt.blt best_score r.1 then (r.1, some move)
                   else (best_score, best_move)
      let alpha' := XInt.maxi alpha best'.1
      maxLoopNB recur computer rest b2 alpha' beta best'.1 best'.2

/-- The minimizing loop with the pruning break removed. -/
def minLoopNB (recur : Board → XInt → XInt → XInt × Option Nat × Board)
    (player : Cell) (moves : List Nat) (b : Board) (alpha beta : XInt)
    (best_score : XInt) (best_move : Option Nat) : XInt × Option Nat × Board :=
  match moves with
  | [] => (best_score, best_move, b)
  | move :: rest =>
      let b1 := b.set move player
      let r := recur b1 alpha beta
      let b2 := r.2.2.set move Cell.E
      let best' := if XInt.blt r.1 best_score then (r.1, some move)
                   else (best_score, best_move)
      let beta' := XInt.mini beta best'.1
      minLoopNB recur player rest b2 alpha beta' best'.1 best'.2

/-- `minimax` with the pruning break removed (exhaustive search). -/
def minimaxNB : Nat → Board → Nat → Bool → Cell → Cell → XInt → XInt →
    XInt × Option Nat × Board
  | 0, b, _, _, _, _, _, _ => (.num 0, none, b)
  | fuel + 1, b, depth, is_max, computer, player, alpha, beta =>
      let winner := check_winner b
      if winner = some computer then
        (.num (10 - (depth : Int)), none, b)
      else if winner = some player then
        (.num ((depth : Int) - 10), none, b)
      else if is_draw b then
        (.num 0, none, b)
      else if is_max then
        maxLoopNB (fun b1 a bt => minimaxNB fuel b1 (depth + 1) false computer player a bt)
          computer (available_moves b) b alpha beta .negInf none
      else
        minLoopNB (fun b1 a bt => minimaxNB fuel b1 (depth + 1) true computer player a bt)
          player (available_moves b) b alpha beta .posInf none

/-!
### The surrounding game loop

`runGame` models one game played by `game_loop`: the computer's moves come
from `get_best_move`, the human's moves are consumed from a list (already
validated the way `ask_move` validates them: an index 0-8 whose cell is
empty; anything else stops the game unfinished, as `ask_move` would simply
re-prompt forever).  After every move the loop checks the winner and then
the draw condition, exactly as `game_loop` does.
-/

inductive GOutcome where
  | cWin : GOutcome
  | pWin : GOutcome
  | draw : GOutcome
  | unfinished : GOutcome
deriving DecidableEq, Repr

def runGame : Nat → List Nat → Bool → Board → Cell → Cell → GOutcome
  | 0, _, _, _, _, _ => .unfinished
  | fuel + 1, moves, compTurn, b, computer, player =>
      if compTurn then
        match get_best_move b computer player with
        | (none, _) => .unfinished
        | (some m, b') =>
            let b2 := b'.set m computer
            match check_winner b2 with
            | some w => if w = player then .pWin else .cWin
            | none =>
                if is_draw b2 then .draw
                else runGame fuel moves false b2 computer player
      else
        match moves with
        | [] => .unfinished
        | m :: rest =>
            if m < 9 ∧ cell b m = Cell.E then
              let b2 := b.set m player
              match check_winner b2 with
              | some w => if w = player then .pWin else .cWin
              | none =>
                  if is_draw b2 then .draw
                  else runGame fuel rest true b2 computer player
            else .unfinished

/-!
### Fast evaluation harness

The kernel evaluates the functions below on concrete boards; they are proved
equal to (or correctly related to) the faithful definitions above.  `fwin`
computes `check_winner` by direct case analysis, `fset` computes `List.set`,
and `noLose me other` decides whether the side playing `me` can force a game
in which `other` never completes a line (a win or a draw for `me`).
-/

def lineCheck (x y z : Cell) (next : Option Cell) : Option Cell :=
  match x, y, z with
  | .X, .X, .X => some .X
  | .O, .O, .O => some .O
  | _, _, _ => next

def fwin (b : Board) : Option Cell :=
  match b with
  | [c0, c1, c2, c3, c4, c5, c6, c7, c8] =>
      lineCheck c0 c1 c2 (lineCheck c3 c4 c5 (lineCheck c6 c7 c8
        (lineCheck c0 c3 c6 (lineCheck c1 c4 c7 (lineCheck c2 c5 c8
        (lineCheck c0 c4 c8 (lineCheck c2 c4 c6 none)))))))
  | _ => check_winner b

def fset (b : Board) (i : Nat) (v : Cell) : Board :=
  match b with
  | [c0, c1, c2, c3, c4, c5, c6, c7, c8] =>
      match i with
      | 0 => [v, c1, c2, c3, c4, c5, c6, c7, c8]
      | 1 => [c0, v, c2, c3, c4, c5, c6, c7, c8]
      | 2 => [c0, c1, v, c3, c4, c5, c6, c7, c8]
      | 3 => [c0, c1, c2, v, c4, c5, c6, c7, c8]
      | 4 => [c0, c1, c2, c3, v, c5, c6, c7, c8]
      | 5 => [c0, c1, c2, c3, c4, v, c6, c7, c8]
      | 6 => [c0, c1, c2, c3, c4, c5, v, c7, c8]
      | 7 => [c0, c1, c2, c3, c4, c5, c6, v, c8]
      | 8 => [c0, c1, c2, c3, c4, c5, c6, c7, v]
      | _ => b
  | _ => b.set i v

/-- The legal moves in a search-friendly order (center, corners, edges).
Only the set of members matters: `noLose` quantifies over them. -/
def ordM (b : Board) : List Nat :=
  match b with
  | [c0, c1, c2, c3, c4, c5, c6, c7, c8] =>
      let t8 := match c7 with | .E => [7] | _ => []
      let t7 := match c5 with | .E => 5 :: t8 | _ => t8
      let t6 := match c3 with | .E => 3 :: t7 | _ => t7
      let t5 := match c1 with | .E => 1 :: t6 | _ => t6
      let t4 := match c8 with | .E => 8 :: t5 | _ => t5
      let t3 := match c6 with | .E => 6 :: t4 | _ => t4
      let t2 := match c2 with | .E => 2 :: t3 | _ => t3
      let t1 := match c0 with | .E => 0 :: t2 | _ => t2
      match c4 with | .E => 4 :: t1 | _ => t1
  | _ => available_moves b

/-- Does some move in `moves`, played by `mark`, lead to a position where
`recur` holds? -/
def nlAny (recur : Board → Bool) (mark : Cell) (b : Board) : List Nat → Bool
  | [] => false
  | m :: rest => recur (fset b m mark) || nlAny recur mark b rest

/-- Does every move in `moves`, played by `mark`, lead to a position where
`recur` holds? -/
def nlAll (recur : Board → Bool) (mark : Cell) (b : Board) : List Nat → Bool
  | [] => true
  | m :: rest => recur (fset b m mark) && nlAll recur mark b rest

/-- `noLose fuel b meMv me other`: the side playing `me` (to move iff `meMv`)
can force the game so that `other` never wins: every final position is a win
for `me` or a draw. -/
def noLose : Nat → Board → Bool → Cell → Cell → Bool
  | 0, _, _, _, _ => false
  | fuel + 1, b, meMv, me, other =>
      match fwin b with
      | some w => w = me
      | none =>
          match ordM b with
          | [] => true
          | ms =>
              if meMv then
                nlAny (fun b1 => noLose fuel b1 false me other) me b ms
              else
                nlAll (fun b1 => noLose fuel b1 true me other) other b ms

/-!
### Order facts about `XInt`
-/

theorem ble_refl (a : XInt) : XInt.ble a a = true := by
  cases a <;> simp [XInt.ble]

theorem ble_trans {a b c : XInt} (h1 : XInt.ble a b = true)
    (h2 : XInt.ble b c = true) : XInt.ble a c = true := by
  cases a <;> cases b <;> cases c <;> simp_all [XInt.ble] <;> omega

theorem ble_of_not_ble {a b : XInt} (h : XInt.ble a b = false) :
    XInt.ble b a = true := by
  cases a <;> cases b <;> simp_all [XInt.ble] <;> omega

theorem blt_spec (a b : XInt) : XInt.blt a b = !(XInt.ble b a) := rfl

theorem ble_antisymm {a b : XInt} (h1 : XInt.ble a b = true)
    (h2 : XInt.ble b a = true) : a = b := by
  cases a <;> cases b <;> simp_all [XInt.ble] <;> omega

theorem maxi_cases (a b : XInt) : XInt.maxi a b = a ∨ XInt.maxi a b = b := by
  unfold XInt.maxi
  by_cases h : XInt.ble b a = true <;> simp [h]

theorem ble_left_maxi (a b : XInt) : XInt.ble a (XInt.maxi a b) = true := by
  unfold XInt.maxi
  by_cases h : XInt.ble b a = true
  · simp [h, ble_refl]
  · simp only [h, if_false, Bool.false_eq_true]
    exact ble_of_not_ble (by simpa using h)

theorem ble_right_maxi (a b : XInt) : XInt.ble b (XInt.maxi a b) = true := by
  unfold XInt.maxi
  by_cases h : XInt.ble b a = true <;> simp [h, ble_refl]

theorem maxi_ble {a b c : XInt} (h1 : XInt.ble a c = true)
    (h2 : XInt.ble b c = true) : XInt.ble (XInt.maxi a b) c = true := by
  rcases maxi_cases a b with h | h <;> rw [h] <;> assumption

theorem maxi_negInf (a : XInt) : XInt.maxi XInt.negInf a = a := by
  cases a <;> rfl

theorem mini_cases (a b : XInt) : XInt.mini a b = a ∨ XInt.mini a b = b := by
  unfold XInt.mini
  by_cases h : XInt.ble a b = true <;> simp [h]

theorem mini_ble_left (a b : XInt) : XInt.ble (XInt.mini a b) a = true := by
  unfold XInt.mini
  by_cases h : XInt.ble a b = true
  · simp [h, ble_refl]
  · simp only [h, if_false, Bool.false_eq_true]
    exact ble_of_not_ble (by simpa using h)

theorem mini_ble_right (a b : XInt) : XInt.ble (XInt.mini a b) b = true := by
  unfold XInt.mini
  by_cases h : XInt.ble a b = true <;> simp [h, ble_refl]

theorem ble_mini {a b c : XInt} (h1 : XInt.ble c a = true)
    (h2 : XInt.ble c b = true) : XInt.ble c (XInt.mini a b) = true := by
  rcases mini_cases a b with h | h <;> rw [h] <;> assumption

theorem mini_posInf (a : XInt) : XInt.mini XInt.posInf a = a := by
  cases a <;> rfl

theorem ble_negInf_left (a : XInt) : XInt.ble XInt.negInf a = true := by
  cases a <;> rfl

theorem ble_posInf_right (a : XInt) : XInt.ble a XInt.posInf = true := by
  cases a <;> rfl

theorem ble_posInf_elim {a : XInt} (h : XInt.ble XInt.posInf a = true) :
    a = XInt.posInf := by
  cases a <;> simp_all [XInt.ble]

theorem ble_negInf_elim {a : XInt} (h : XInt.ble a XInt.negInf = true) :
    a = XInt.negInf := by
  cases a <;> simp_all [XInt.ble]

/-!
### Basic board lemmas
-/

theorem cell_set_self {b : Board} {i : Nat} (h : i < b.length) (v : Cell) :
    cell (b.set i v) i = v := by
  unfold cell
  induction b generalizing i with
  | nil => simp at h
  | cons x xs ih =>
      cases i with
      | zero => rfl
      | succ j => simpa using ih (by simpa using h)

theorem cell_set_ne {i j : Nat} (h : i ≠ j) (b : Board) (v : Cell) :
    cell (b.set i v) j = cell b j := by
  unfold cell
  induction b generalizing i j with
  | nil => rfl
  | cons x xs ih =>
      cases i with
      | zero =>
          cases j with
          | zero => exact absurd rfl h
          | succ k => rfl
      | succ i' =>
          cases j with
          | zero => rfl
          | succ k =>
              have hne : i' ≠ k := by omega
              simpa using ih hne

theorem set_cell_eq_self {b : Board} {i : Nat} {v : Cell}
    (h : cell b i = v) (hv : v ≠ Cell.E ∨ i < b.length) : b.set i v = b := by
  unfold cell at h
  induction b generalizing i with
  | nil =>
      cases i with
      | zero =>
          simp only [List.getD, List.get?] at h
          rcases hv with hv | hv
          · exact absurd h.symm (by simpa using hv)
          · simp at hv
      | succ j => rfl
  | cons x xs ih =>
      cases i with
      | zero => simp_all
      | succ j =>
          simp only [List.set]
          rw [ih (by simpa using h)]
          rcases hv with hv | hv
          · exact Or.inl hv
          · exact Or.inr (by simpa using hv)

theorem set_restore {b : Board} {i : Nat} (h : cell b i = Cell.E) (v : Cell) :
    (b.set i v).set i Cell.E = b := by
  rw [List.set_set]
  by_cases hlen : i < b.length
  · exact set_cell_eq_self h (Or.inr hlen)
  · rw [List.set_eq_of_length_le (by omega)]

def emptyCount : Board → Nat
  | [] => 0
  | v :: rest => (if v = Cell.E then 1 else 0) + emptyCount rest

theorem emptyCount_set {b : Board} {i : Nat} (hi : i < b.length)
    (he : cell b i = Cell.E) {v : Cell} (hv : v ≠ Cell.E) :
    emptyCount (b.set i v) + 1 = emptyCount b := by
  unfold cell at he
  induction b generalizing i with
  | nil => simp at hi
  | cons x xs ih =>
      cases i with
      | zero =>
          simp only [List.getD, List.get?, Option.getD] at he
          simp [List.set, emptyCount, he, hv]
          omega
      | succ j =>
          simp only [List.set, emptyCount]
          have := ih (by simpa using hi) (by simpa using he)
          omega

theorem cell_cons_succ (x : Cell) (xs : Board) (j : Nat) :
    cell (x :: xs) (j + 1) = cell xs j := rfl

theorem cell_cons_zero (x : Cell) (xs : Board) : cell (x :: xs) 0 = x := rfl

theorem mem_availFrom {b : Board} {i m : Nat} :
    m ∈ availFrom i b ↔ ∃ j, j < b.length ∧ m = i + j ∧ cell b j = Cell.E := by
  induction b generalizing i with
  | nil => simp [availFrom]
  | cons x xs ih =>
      unfold availFrom
      by_cases hx : x = Cell.E
      · rw [if_pos hx]
        constructor
        · intro hmem
          rcases List.mem_cons.mp hmem with rfl | hmem
          · exact ⟨0, by simp, by omega, by simp [cell_cons_zero, hx]⟩
          · obtain ⟨j, hj, hm, hc⟩ := ih.mp hmem
            refine ⟨j + 1, by simpa using Nat.succ_lt_succ hj, by omega, ?_⟩
            simpa [cell_cons_succ] using hc
        · rintro ⟨j, hj, hm, hc⟩
          cases j with
          | zero => exact List.mem_cons.mpr (Or.inl (by omega))
          | succ k =>
              refine List.mem_cons.mpr (Or.inr (ih.mpr ⟨k, ?_, by omega, ?_⟩))
              · exact Nat.lt_of_succ_lt_succ (by simpa using hj)
              · simpa [cell_cons_succ] using hc
      · rw [if_neg hx]
        constructor
        · intro hmem
          obtain ⟨j, hj, hm, hc⟩ := ih.mp hmem
          refine ⟨j + 1, by simpa using Nat.succ_lt_succ hj, by omega, ?_⟩
          simpa [cell_cons_succ] using hc
        · rintro ⟨j, hj, hm, hc⟩
          cases j with
          | zero =>
              rw [cell_cons_zero] at hc
              exact absurd hc hx
          | succ k =>
              refine ih.mpr ⟨k, ?_, by omega, ?_⟩
              · exact Nat.lt_of_succ_lt_succ (by simpa using hj)
              · simpa [cell_cons_succ] using hc

theorem mem_available {b : Board} {m : Nat} :
    m ∈ available_moves b ↔ m < b.length ∧ cell b m = Cell.E := by
  unfold available_moves
  rw [mem_availFrom]
  constructor
  · rintro ⟨j, hj, rfl, hc⟩
    exact ⟨by omega, by simpa using hc⟩
  · rintro ⟨hm, hc⟩
    exact ⟨m, hm, by omega, hc⟩

theorem length_availFrom (i : Nat) (b : Board) :
    (availFrom i b).length = emptyCount b := by
  induction b generalizing i with
  | nil => rfl
  | cons x xs ih =>
      unfold availFrom emptyCount
      by_cases hx : x = Cell.E
      · simp only [if_pos hx, List.length_cons, ih]
        omega
      · simp only [if_neg hx, ih]
        omega

theorem available_eq_nil_iff {b : Board} :
    available_moves b = [] ↔ emptyCount b = 0 := by
  rw [← List.length_eq_zero, available_moves, length_availFrom]

theorem all_nonE_iff {b : Board} :
    (b.all fun v => v ≠ Cell.E) = true ↔ emptyCount b = 0 := by
  induction b with
  | nil => simp [emptyCount]
  | cons x xs ih =>
      rw [List.all_cons, Bool.and_eq_true, ih]
      by_cases hx : x = Cell.E
      · simp only [emptyCount, hx]
        simp
      · simp only [emptyCount, hx]
        simp [hx]

theorem is_draw_iff {b : Board} :
    is_draw b = true ↔ check_winner b = none ∧ emptyCount b = 0 := by
  unfold is_draw
  rw [Bool.and_eq_true, Option.isNone_iff_eq_none, all_nonE_iff]

/-!
### Lines and winner detection
-/

/-- The condition `winnerAux` tests for one line. -/
def lineFull (b : Board) (a c d : Nat) : Prop :=
  cell b a ≠ Cell.E ∧ cell b a = cell b c ∧ cell b a = cell b d

theorem winnerAux_eq_none_iff {b : Board} {ls : List (Nat × Nat × Nat)} :
    winnerAux b ls = none ↔ ∀ l ∈ ls, ¬ lineFull b l.1 l.2.1 l.2.2 := by
  induction ls with
  | nil => simp [winnerAux]
  | cons l rest ih =>
      rcases l with ⟨a, c, d⟩
      unfold winnerAux
      by_cases h : cell b a ≠ Cell.E ∧ cell b a = cell b c ∧ cell b a = cell b d
      · rw [if_pos h]
        refine iff_of_false (by simp) ?_
        intro hall
        exact hall (a, c, d) (List.mem_cons_self _ _) h
      · rw [if_neg h, ih]
        constructor
        · intro hall l hl
          rcases List.mem_cons.mp hl with rfl | hl
          · exact h
          · exact hall l hl
        · intro hall l hl
          exact hall l (List.mem_cons_of_mem _ hl)

theorem winnerAux_eq_some {b : Board} {ls : List (Nat × Nat × Nat)} {w : Cell}
    (h : winnerAux b ls = some w) :
    w ≠ Cell.E ∧ ∃ l ∈ ls, lineFull b l.1 l.2.1 l.2.2 ∧ cell b l.1 = w := by
  induction ls with
  | nil => simp [winnerAux] at h
  | cons l rest ih =>
      rcases l with ⟨a, c, d⟩
      unfold winnerAux at h
      by_cases hf : cell b a ≠ Cell.E ∧ cell b a = cell b c ∧ cell b a = cell b d
      · rw [if_pos hf] at h
        refine ⟨?_, ⟨(a, c, d), by simp, hf, by injection h⟩⟩
        injection h with h
        rw [← h]; exact hf.1
      · rw [if_neg hf] at h
        obtain ⟨hw, l, hl, hfull, hcell⟩ := ih h
        exact ⟨hw, l, List.mem_cons_of_mem _ hl, hfull, hcell⟩

theorem winnerAux_some_of {b : Board} {ls : List (Nat × Nat × Nat)} {m : Cell}
    (hex : ∃ l ∈ ls, lineFull b l.1 l.2.1 l.2.2)
    (hall : ∀ l ∈ ls, lineFull b l.1 l.2.1 l.2.2 → cell b l.1 = m) :
    winnerAux b ls = some m := by
  induction ls with
  | nil => simp at hex
  | cons l rest ih =>
      rcases l with ⟨a, c, d⟩
      unfold winnerAux
      by_cases hf : cell b a ≠ Cell.E ∧ cell b a = cell b c ∧ cell b a = cell b d
      · rw [if_pos hf]
        exact congrArg some (hall (a, c, d) (by simp) hf)
      · rw [if_neg hf]
        refine ih ?_ (fun l hl => hall l (List.mem_cons_of_mem _ hl))
        obtain ⟨l, hl, hfull⟩ := hex
        rcases List.mem_cons.mp hl with rfl | hl
        · exact absurd hfull hf
        · exact ⟨l, hl, hfull⟩

/-- Membership of an index in a line. -/
def onLine (m a c d : Nat) : Prop := m = a ∨ m = c ∨ m = d

theorem lineFull_set_cases {b : Board} {m : Nat} {v : Cell} {a c d : Nat}
    (h : lineFull (b.set m v) a c d) :
    lineFull b a c d ∨ (onLine m a c d ∧ cell (b.set m v) a = v) := by
  by_cases hmem : onLine m a c d
  · by_cases hlen : m < b.length
    · refine Or.inr ⟨hmem, ?_⟩
      have hv : cell (b.set m v) m = v := cell_set_self hlen v
      rcases hmem with rfl | rfl | rfl
      · exact hv
      · rw [h.2.1]; exact hv
      · rw [h.2.2]; exact hv
    · left
      rwa [List.set_eq_of_length_le (by omega)] at h
  · left
    simp only [onLine, not_or] at hmem
    obtain ⟨h1, h2, h3⟩ := hmem
    obtain ⟨ha, hac, had⟩ := h
    rw [cell_set_ne h1] at ha hac had
    rw [cell_set_ne h2] at hac
    rw [cell_set_ne h3] at had
    exact ⟨ha, hac, had⟩

theorem check_winner_set_of_none {b : Board} (h : check_winner b = none)
    {m : Nat} {v : Cell} :
    check_winner (b.set m v) = none ∨ check_winner (b.set m v) = some v := by
  rcases hw : check_winner (b.set m v) with _ | w
  · exact Or.inl rfl
  · right
    obtain ⟨hwE, l, hl, hfull, hcell⟩ := winnerAux_eq_some hw
    rcases lineFull_set_cases hfull with hfb | ⟨_, hv⟩
    · exact absurd hfb (winnerAux_eq_none_iff.mp h l hl)
    · rw [← hcell, hv]

theorem winnerAux_set_same {b : Board} {w : Cell} {m : Nat}
    (hm : cell b m = Cell.E) :
    ∀ {ls : List (Nat × Nat × Nat)}, winnerAux b ls = some w →
      winnerAux (b.set m w) ls = some w := by
  intro ls h
  induction ls with
  | nil => simp [winnerAux] at h
  | cons l rest ih =>
      rcases l with ⟨a, c, d⟩
      unfold winnerAux at h ⊢
      by_cases hf : cell b a ≠ Cell.E ∧ cell b a = cell b c ∧ cell b a = cell b d
      · rw [if_pos hf] at h
        have hma : m ≠ a := fun he => hf.1 (by rw [← he, hm])
        have hmc : m ≠ c := fun he => hf.1 (by rw [hf.2.1, ← he, hm])
        have hmd : m ≠ d := fun he => hf.1 (by rw [hf.2.2, ← he, hm])
        have ea := cell_set_ne hma b w
        have ec := cell_set_ne hmc b w
        have ed := cell_set_ne hmd b w
        rw [if_pos (by rw [ea, ec, ed]; exact hf), ea]
        exact h
      · rw [if_neg hf] at h
        by_cases hf' : cell (b.set m w) a ≠ Cell.E ∧
            cell (b.set m w) a = cell (b.set m w) c ∧
            cell (b.set m w) a = cell (b.set m w) d
        · rw [if_pos hf']
          rcases lineFull_set_cases hf' with hfb | ⟨_, hv⟩
          · exact absurd hfb hf
          · rw [hv]
        · rw [if_neg hf']
          exact ih h

theorem check_winner_set_same {b : Board} {w : Cell} {m : Nat}
    (hm : cell b m = Cell.E) (h : check_winner b = some w) :
    check_winner (b.set m w) = some w :=
  winnerAux_set_same hm h

/-!
### The fast harness computes the faithful functions
-/

theorem fset_eq (b : Board) (i : Nat) (v : Cell) : fset b i v = b.set i v := by
  unfold fset
  split
  · split
    · rfl
    · rfl
    · rfl
    · rfl
    · rfl
    · rfl
    · rfl
    · rfl
    · rfl
    · rename_i h0 h1 h2 h3 h4 h5 h6 h7 h8
      have n0 : i ≠ 0 := h0
      have n1 : i ≠ 1 := h1
      have n2 : i ≠ 2 := h2
      have n3 : i ≠ 3 := h3
      have n4 : i ≠ 4 := h4
      have n5 : i ≠ 5 := h5
      have n6 : i ≠ 6 := h6
      have n7 : i ≠ 7 := h7
      have n8 : i ≠ 8 := h8
      refine (List.set_eq_of_length_le ?_).symm
      simp only [List.length_cons, List.length_nil]
      omega
  · rfl

theorem lineCheck_eq (x y z : Cell) (next : Option Cell) :
    lineCheck x y z next =
      if x ≠ Cell.E ∧ x = y ∧ x = z then some x else next := by
  cases x <;> cases y <;> cases z <;> rfl

theorem fwin_eq (b : Board) : fwin b = check_winner b := by
  unfold fwin
  split
  · rw [lineCheck_eq, lineCheck_eq, lineCheck_eq, lineCheck_eq, lineCheck_eq,
      lineCheck_eq, lineCheck_eq, lineCheck_eq]
    rfl
  · rfl

theorem mem_condCons {c : Cell} {k m : Nat} {t : List Nat} :
    (m ∈ (match c with | Cell.E => k :: t | _ => t)) ↔
      ((c = Cell.E ∧ m = k) ∨ m ∈ t) := by
  cases c <;> simp

theorem ordM_mem {b : Board} {m : Nat} :
    m ∈ ordM b ↔ m ∈ available_moves b := by
  unfold ordM
  split
  · rename_i c0 c1 c2 c3 c4 c5 c6 c7 c8
    simp only [mem_condCons]
    rw [mem_available]
    constructor
    · rintro (⟨he, rfl⟩ | ⟨he, rfl⟩ | ⟨he, rfl⟩ | ⟨he, rfl⟩ | ⟨he, rfl⟩ |
        ⟨he, rfl⟩ | ⟨he, rfl⟩ | ⟨he, rfl⟩ | ⟨he, rfl⟩ | hnil)
      all_goals first
        | exact ⟨by simp, by simpa [cell] using he⟩
        | simp at hnil
    · rintro ⟨hm, hc⟩
      simp only [List.length_cons, List.length_nil] at hm
      interval_cases m <;> simp_all [cell]
  · rfl

/-!
### Unfolding equations and board restoration
-/

theorem minimaxF_succ (fuel : Nat) (b : Board) (depth : Nat) (is_max : Bool)
    (computer player : Cell) (alpha beta : XInt) :
    minimaxF (fuel + 1) b depth is_max computer player alpha beta =
      if check_winner b = some computer then (.num (10 - (depth : Int)), none, b)
      else if check_winner b = some player then (.num ((depth : Int) - 10), none, b)
      else if is_draw b then (.num 0, none, b)
      else if is_max then
        maxLoop (fun b1 a bt => minimaxF fuel b1 (depth + 1) false computer player a bt)
          computer (available_moves b) b alpha beta .negInf none
      else
        minLoop (fun b1 a bt => minimaxF fuel b1 (depth + 1) true computer player a bt)
          player (available_moves b) b alpha beta .posInf none := rfl

theorem minimaxNB_succ (fuel : Nat) (b : Board) (depth : Nat) (is_max : Bool)
    (computer player : Cell) (alpha beta : XInt) :
    minimaxNB (fuel + 1) b depth is_max computer player alpha beta =
      if check_winner b = some computer then (.num (10 - (depth : Int)), none, b)
      else if check_winner b = some player then (.num ((depth : Int) - 10), none, b)
      else if is_draw b then (.num 0, none, b)
      else if is_max then
        maxLoopNB (fun b1 a bt => minimaxNB fuel b1 (depth + 1) false computer player a bt)
          computer (available_moves b) b alpha beta .negInf none
      else
        minLoopNB (fun b1 a bt => minimaxNB fuel b1 (depth + 1) true computer player a bt)
          player (available_moves b) b alpha beta .posInf none := rfl

theorem maxLoop_board {recur : Board → XInt → XInt → XInt × Option Nat × Board}
    {computer : Cell} (hrec : ∀ b1 a bt, (recur b1 a bt).2.2 = b1) :
    ∀ (ms : List Nat) (b : Board) (alpha beta bs : XInt) (bm : Option Nat),
      (∀ m ∈ ms, cell b m = Cell.E) →
      (maxLoop recur computer ms b alpha beta bs bm).2.2 = b := by
  intro ms
  induction ms with
  | nil => intro b alpha beta bs bm _; rfl
  | cons mv rest ih =>
      intro b alpha beta bs bm h
      have hb2 : ((recur (b.set mv computer) alpha beta).2.2).set mv Cell.E = b := by
        rw [hrec]
        exact set_restore (h mv (by simp)) computer
      show (maxLoop recur computer (mv :: rest) b alpha beta bs bm).2.2 = b
      unfold maxLoop
      simp only [hb2]
      split
      all_goals split
      all_goals first
        | rfl
        | exact ih b _ _ _ _ (fun m hm => h m (List.mem_cons_of_mem _ hm))

theorem minLoop_board {recur : Board → XInt → XInt → XInt × Option Nat × Board}
    {player : Cell} (hrec : ∀ b1 a bt, (recur b1 a bt).2.2 = b1) :
    ∀ (ms : List Nat) (b : Board) (alpha beta bs : XInt) (bm : Option Nat),
      (∀ m ∈ ms, cell b m = Cell.E) →
      (minLoop recur player ms b alpha beta bs bm).2.2 = b := by
  intro ms
  induction ms with
  | nil => intro b alpha beta bs bm _; rfl
  | cons mv rest ih =>
      intro b alpha beta bs bm h
      have hb2 : ((recur (b.set mv player) alpha beta).2.2).set mv Cell.E = b := by
        rw [hrec]
        exact set_restore (h mv (by simp)) player
      show (minLoop recur player (mv :: rest) b alpha beta bs bm).2.2 = b
      unfold minLoop
      simp only [hb2]
      split
      all_goals split
      all_goals first
        | rfl
        | exact ih b _ _ _ _ (fun m hm => h m (List.mem_cons_of_mem _ hm))

theorem maxLoopNB_board {recur : Board → XInt → XInt → XInt × Option Nat × Board}
    {computer : Cell} (hrec : ∀ b1 a bt, (recur b1 a bt).2.2 = b1) :
    ∀ (ms : List Nat) (b : Board) (alpha beta bs : XInt) (bm : Option Nat),
      (∀ m ∈ ms, cell b m = Cell.E) →
      (maxLoopNB recur computer ms b alpha beta bs bm).2.2 = b := by
  intro ms
  induction ms with
  | nil => intro b alpha beta bs bm _; rfl
  | cons mv rest ih =>
      intro b alpha beta bs bm h
      have hb2 : ((recur (b.set mv computer) alpha beta).2.2).set mv Cell.E = b := by
        rw [hrec]
        exact set_restore (h mv (by simp)) computer
      show (maxLoopNB recur computer (mv :: rest) b alpha beta bs bm).2.2 = b
      unfold maxLoopNB
      simp only [hb2]
      exact ih b _ _ _ _ (fun m hm => h m (List.mem_cons_of_mem _ hm))

theorem minLoopNB_board {recur : Board → XInt → XInt → XInt × Option Nat × Board}
    {player : Cell} (hrec : ∀ b1 a bt, (recur b1 a bt).2.2 = b1) :
    ∀ (ms : List Nat) (b : Board) (alpha beta bs : XInt) (bm : Option Nat),
      (∀ m ∈ ms, cell b m = Cell.E) →
      (minLoopNB recur player ms b alpha beta bs bm).2.2 = b := by
  intro ms
  induction ms with
  | nil => intro b alpha beta bs bm _; rfl
  | cons mv rest ih =>
      intro b alpha beta bs bm h
      have hb2 : ((recur (b.set mv player) alpha beta).2.2).set mv Cell.E = b := by
        rw [hrec]
        exact set_restore (h mv (by simp)) player
      show (minLoopNB recur player (mv :: rest) b alpha beta bs bm).2.2 = b
      unfold minLoopNB
      simp only [hb2]
      exact ih b _ _ _ _ (fun m hm => h m (List.mem_cons_of_mem _ hm))

theorem minimaxF_board : ∀ (fuel : Nat) (b : Board) (depth : Nat)
    (is_max : Bool) (computer player : Cell) (alpha beta : XInt),
    (minimaxF fuel b depth is_max computer player alpha beta).2.2 = b := by
  intro fuel
  induction fuel with
  | zero => intro b _ _ _ _ _ _; rfl
  | succ fuel ih =>
      intro b depth is_max computer player alpha beta
      rw [minimaxF_succ]
      by_cases h1 : check_winner b = some computer
      · rw [if_pos h1]
      rw [if_neg h1]
      by_cases h2 : check_winner b = some player
      · rw [if_pos h2]
      rw [if_neg h2]
      by_cases h3 : is_draw b
      · rw [if_pos h3]
      rw [if_neg h3]
      have hmem : ∀ m ∈ available_moves b, cell b m = Cell.E :=
        fun m hm => (mem_available.mp hm).2
      cases is_max with
      | true =>
          rw [if_pos rfl]
          exact maxLoop_board (fun b1 a bt => ih b1 _ _ _ _ a bt) _ b _ _ _ _ hmem
      | false =>
          rw [if_neg (by simp)]
          exact minLoop_board (fun b1 a bt => ih b1 _ _ _ _ a bt) _ b _ _ _ _ hmem

theorem minimaxNB_board : ∀ (fuel : Nat) (b : Board) (depth : Nat)
    (is_max : Bool) (computer player : Cell) (alpha beta : XInt),
    (minimaxNB fuel b depth is_max computer player alpha beta).2.2 = b := by
  intro fuel
  induction fuel with
  | zero => intro b _ _ _ _ _ _; rfl
  | succ fuel ih =>
      intro b depth is_max computer player alpha beta
      rw [minimaxNB_succ]
      by_cases h1 : check_winner b = some computer
      · rw [if_pos h1]
      rw [if_neg h1]
      by_cases h2 : check_winner b = some player
      · rw [if_pos h2]
      rw [if_neg h2]
      by_cases h3 : is_draw b
      · rw [if_pos h3]
      rw [if_neg h3]
      have hmem : ∀ m ∈ available_moves b, cell b m = Cell.E :=
        fun m hm => (mem_available.mp hm).2
      cases is_max with
      | true =>
          rw [if_pos rfl]
          exact maxLoopNB_board (fun b1 a bt => ih b1 _ _ _ _ a bt) _ b _ _ _ _ hmem
      | false =>
          rw [if_neg (by simp)]
          exact minLoopNB_board (fun b1 a bt => ih b1 _ _ _ _ a bt) _ b _ _ _ _ hmem

/-!
### Tier-1 scan lemmas and `get_best_move` restoration
-/

theorem winScan_board (mark : Cell) : ∀ (ms : List Nat) (b : Board),
    (∀ m ∈ ms, cell b m = Cell.E) → (winScan mark b ms).2 = b := by
  intro ms
  induction ms with
  | nil => intro b _; rfl
  | cons mv rest ih =>
      intro b h
      have hb : (b.set mv mark).set mv Cell.E = b :=
        set_restore (h mv (by simp)) mark
      show (winScan mark b (mv :: rest)).2 = b
      unfold winScan
      simp only [hb]
      split
      · rfl
      · exact ih b (fun m hm => h m (List.mem_cons_of_mem _ hm))

theorem winScan_none {mark : Cell} : ∀ {ms : List Nat} {b : Board},
    (∀ m ∈ ms, cell b m = Cell.E) →
    ((winScan mark b ms).1 = none ↔
      ∀ m ∈ ms, check_winner (b.set m mark) ≠ some mark) := by
  intro ms
  induction ms with
  | nil => intro b _; simp [winScan]
  | cons mv rest ih =>
      intro b h
      have hb : (b.set mv mark).set mv Cell.E = b :=
        set_restore (h mv (by simp)) mark
      show (winScan mark b (mv :: rest)).1 = none ↔ _
      unfold winScan
      simp only [hb]
      by_cases hw : check_winner (b.set mv mark) = some mark
      · rw [if_pos hw]
        refine iff_of_false (by simp) ?_
        intro hall
        exact hall mv (by simp) hw
      · rw [if_neg hw, ih (fun m hm => h m (List.mem_cons_of_mem _ hm))]
        constructor
        · intro hall m hm
          rcases List.mem_cons.mp hm with rfl | hm
          · exact hw
          · exact hall m hm
        · intro hall m hm
          exact hall m (List.mem_cons_of_mem _ hm)

theorem winScan_some {mark : Cell} : ∀ {ms : List Nat} {b : Board} {m : Nat},
    (∀ m' ∈ ms, cell b m' = Cell.E) →
    (winScan mark b ms).1 = some m →
    m ∈ ms ∧ check_winner (b.set m mark) = some mark := by
  intro ms
  induction ms with
  | nil => intro b m _ h; simp [winScan] at h
  | cons mv rest ih =>
      intro b m hleg h
      have hb : (b.set mv mark).set mv Cell.E = b :=
        set_restore (hleg mv (by simp)) mark
      rw [show (winScan mark b (mv :: rest)) =
          (if check_winner (b.set mv mark) = some mark
           then (some mv, (b.set mv mark).set mv Cell.E)
           else winScan mark ((b.set mv mark).set mv Cell.E) rest) from rfl] at h
      simp only [hb] at h
      by_cases hw : check_winner (b.set mv mark) = some mark
      · rw [if_pos hw] at h
        simp only [Prod.fst] at h
        injection h with h
        subst h
        exact ⟨by simp, hw⟩
      · rw [if_neg hw] at h
        obtain ⟨hmem, hwin⟩ := ih (fun m' hm' => hleg m' (List.mem_cons_of_mem _ hm')) h
        exact ⟨List.mem_cons_of_mem _ hmem, hwin⟩

theorem gbm_scans_board (b : Board) (computer player : Cell)
    (havail : ∀ m ∈ available_moves b, cell b m = Cell.E) :
    (match winScan computer b (available_moves b) with
      | (some m, b2) => (some m, b2)
      | (none, b2) =>
        match winScan player b2 (available_moves b2) with
        | (some m, b3) => (some m, b3)
        | (none, b3) =>
            ((minimaxF 10 b3 0 true computer player XInt.negInf XInt.posInf).2.1,
             (minimaxF 10 b3 0 true computer player XInt.negInf XInt.posInf).2.2)).2
      = b := by
  rcases h1 : winScan computer b (available_moves b) with ⟨o1, bb1⟩
  have hbb1 : bb1 = b := by
    have hh := winScan_board computer (available_moves b) b havail
    rw [h1] at hh
    exact hh
  rw [hbb1]
  cases o1 with
  | some m => rfl
  | none =>
      show (match winScan player b (available_moves b) with
        | (some m, b3) => (some m, b3)
        | (none, b3) =>
            ((minimaxF 10 b3 0 true computer player XInt.negInf XInt.posInf).2.1,
             (minimaxF 10 b3 0 true computer player XInt.negInf XInt.posInf).2.2)).2 = b
      rcases h2 : winScan player b (available_moves b) with ⟨o2, bb2⟩
      have hbb2 : bb2 = b := by
        have hh := winScan_board player (available_moves b) b havail
        rw [h2] at hh
        exact hh
      rw [hbb2]
      cases o2 with
      | some m => rfl
      | none =>
          show (minimaxF 10 b 0 true computer player XInt.negInf XInt.posInf).2.2 = b
          exact minimaxF_board 10 b 0 true computer player .negInf .posInf

theorem get_best_move_board (b : Board) (computer player : Cell) :
    (get_best_move b computer player).2 = b := by
  unfold get_best_move
  have havail : ∀ m ∈ available_moves b, cell b m = Cell.E :=
    fun m hm => (mem_available.mp hm).2
  by_cases h4 : cell b 4 = Cell.E
  · rw [if_pos h4]
    have hb : (b.set 4 computer).set 4 Cell.E = b := set_restore h4 computer
    by_cases hw : check_winner (b.set 4 computer) = some computer
    · simp only [if_pos hw, hb]
    · simp only [if_neg hw, hb]
      exact gbm_scans_board b computer player havail
  · rw [if_neg h4]
    exact gbm_scans_board b computer player havail

/-!
### Scores are finite; the root loop always selects a move
-/

theorem blt_negInf_num (n : Int) : XInt.blt XInt.negInf (XInt.num n) = true := rfl

theorem blt_num_posInf (n : Int) : XInt.blt (XInt.num n) XInt.posInf = true := rfl

/-- The board holds only blanks and the two marks in play. -/
def marksOnly (b : Board) (computer player : Cell) : Prop :=
  ∀ i, cell b i = Cell.E ∨ cell b i = computer ∨ cell b i = player

theorem marksOnly_set {b : Board} {computer player : Cell}
    (h : marksOnly b computer player) (m : Nat) {v : Cell}
    (hv : v = computer ∨ v = player) : marksOnly (b.set m v) computer player := by
  intro i
  by_cases him : m = i
  · subst him
    by_cases hlen : m < b.length
    · rw [cell_set_self hlen]
      right
      exact hv
    · rw [List.set_eq_of_length_le (by omega)]
      exact h m
  · rw [cell_set_ne him]
    exact h i

theorem winner_marks {b : Board} {computer player : Cell}
    (h : marksOnly b computer player) {w : Cell}
    (hw : check_winner b = some w) : w = computer ∨ w = player := by
  obtain ⟨hwE, l, _, _, hcell⟩ := winnerAux_eq_some hw
  rcases h l.1 with he | hc | hp
  · rw [hcell] at he
    exact absurd he hwE
  · exact Or.inl (by rw [← hcell, hc])
  · exact Or.inr (by rw [← hcell, hp])

theorem maxLoop_num {recur : Board → XInt → XInt → XInt × Option Nat × Board}
    {computer player : Cell}
    (hrecb : ∀ b1 a bt, (recur b1 a bt).2.2 = b1)
    (hrec : ∀ b1 a bt, marksOnly b1 computer player →
      ∃ n, (recur b1 a bt).1 = XInt.num n)
    (hcp : computer = computer ∨ computer = player) :
    ∀ (ms : List Nat) (b : Board) (alpha beta : XInt) (k : Int) (bm : Option Nat),
      (∀ m ∈ ms, cell b m = Cell.E) → marksOnly b computer player →
      ∃ n, (maxLoop recur computer ms b alpha beta (.num k) bm).1 = XInt.num n := by
  intro ms
  induction ms with
  | nil => intro b alpha beta k bm _ _; exact ⟨k, rfl⟩
  | cons mv rest ih =>
      intro b alpha beta k bm hleg hmk
      have hb2 : ((recur (b.set mv computer) alpha beta).2.2).set mv Cell.E = b := by
        rw [hrecb]
        exact set_restore (hleg mv (by simp)) computer
      show ∃ n, (maxLoop recur computer (mv :: rest) b alpha beta (.num k) bm).1 = XInt.num n
      unfold maxLoop
      obtain ⟨n1, hn1⟩ := hrec (b.set mv computer) alpha beta
        (marksOnly_set hmk mv hcp)
      simp only [hn1, hb2]
      by_cases hcmp : XInt.blt (XInt.num k) (XInt.num n1) = true
      · simp only [if_pos hcmp]
        split
        · exact ⟨n1, rfl⟩
        · exact ih b _ _ n1 _ (fun m hm => hleg m (List.mem_cons_of_mem _ hm)) hmk
      · simp only [if_neg hcmp]
        split
        · exact ⟨k, rfl⟩
        · exact ih b _ _ k _ (fun m hm => hleg m (List.mem_cons_of_mem _ hm)) hmk

theorem minLoop_num {recur : Board → XInt → XInt → XInt × Option Nat × Board}
    {computer player : Cell}
    (hrecb : ∀ b1 a bt, (recur b1 a bt).2.2 = b1)
    (hrec : ∀ b1 a bt, marksOnly b1 computer player →
      ∃ n, (recur b1 a bt).1 = XInt.num n)
    (hp : player = computer ∨ player = player) :
    ∀ (ms : List Nat) (b : Board) (alpha beta : XInt) (k : Int) (bm : Option Nat),
      (∀ m ∈ ms, cell b m = Cell.E) → marksOnly b computer player →
      ∃ n, (minLoop recur player ms b alpha beta (.num k) bm).1 = XInt.num n := by
  intro ms
  induction ms with
  | nil => intro b alpha beta k bm _ _; exact ⟨k, rfl⟩
  | cons mv rest ih =>
      intro b alpha beta k bm hleg hmk
      have hb2 : ((recur (b.set mv player) alpha beta).2.2).set mv Cell.E = b := by
        rw [hrecb]
        exact set_restore (hleg mv (by simp)) player
      show ∃ n, (minLoop recur player (mv :: rest) b alpha beta (.num k) bm).1 = XInt.num n
      unfold minLoop
      obtain ⟨n1, hn1⟩ := hrec (b.set mv player) alpha beta
        (marksOnly_set hmk mv hp)
      simp only [hn1, hb2]
      by_cases hcmp : XInt.blt (XInt.num n1) (XInt.num k) = true
      · simp only [if_pos hcmp]
        split
        · exact ⟨n1, rfl⟩
        · exact ih b _ _ n1 _ (fun m hm => hleg m (List.mem_cons_of_mem _ hm)) hmk
      · simp only [if_neg hcmp]
        split
        · exact ⟨k, rfl⟩
        · exact ih b _ _ k _ (fun m hm => hleg m (List.mem_cons_of_mem _ hm)) hmk

theorem maxLoop_num_start {recur : Board → XInt → XInt → XInt × Option Nat × Board}
    {computer player : Cell}
    (hrecb : ∀ b1 a bt, (recur b1 a bt).2.2 = b1)
    (hrec : ∀ b1 a bt, marksOnly b1 computer player →
      ∃ n, (recur b1 a bt).1 = XInt.num n) :
    ∀ (ms : List Nat) (b : Board) (alpha beta : XInt), ms ≠ [] →
      (∀ m ∈ ms, cell b m = Cell.E) → marksOnly b computer player →
      ∃ n, (maxLoop recur computer ms b alpha beta .negInf none).1 = XInt.num n := by
  intro ms b alpha beta hne hleg hmk
  cases ms with
  | nil => exact absurd rfl hne
  | cons mv rest =>
      show ∃ n, (maxLoop recur computer (mv :: rest) b alpha beta .negInf none).1 = XInt.num n
      unfold maxLoop
      have hb2 : ((recur (b.set mv computer) alpha beta).2.2).set mv Cell.E = b := by
        rw [hrecb]
        exact set_restore (hleg mv (by simp)) computer
      obtain ⟨n1, hn1⟩ := hrec (b.set mv computer) alpha beta
        (marksOnly_set hmk mv (Or.inl rfl))
      simp only [hn1, hb2, blt_negInf_num, if_pos]
      split
      · exact ⟨n1, rfl⟩
      · exact maxLoop_num hrecb hrec (Or.inl rfl) _ b _ _ n1 _
          (fun m hm => hleg m (List.mem_cons_of_mem _ hm)) hmk

theorem minLoop_num_start {recur : Board → XInt → XInt → XInt × Option Nat × Board}
    {computer player : Cell}
    (hrecb : ∀ b1 a bt, (recur b1 a bt).2.2 = b1)
    (hrec : ∀ b1 a bt, marksOnly b1 computer player →
      ∃ n, (recur b1 a bt).1 = XInt.num n) :
    ∀ (ms : List Nat) (b : Board) (alpha beta : XInt), ms ≠ [] →
      (∀ m ∈ ms, cell b m = Cell.E) → marksOnly b computer player →
      ∃ n, (minLoop recur player ms b alpha beta .posInf none).1 = XInt.num n := by
  intro ms b alpha beta hne hleg hmk
  cases ms with
  | nil => exact absurd rfl hne
  | cons mv rest =>
      show ∃ n, (minLoop recur player (mv :: rest) b alpha beta .posInf none).1 = XInt.num n
      unfold minLoop
      have hb2 : ((recur (b.set mv player) alpha beta).2.2).set mv Cell.E = b := by
        rw [hrecb]
        exact set_restore (hleg mv (by simp)) player
      obtain ⟨n1, hn1⟩ := hrec (b.set mv player) alpha beta
        (marksOnly_set hmk mv (Or.inr rfl))
      simp only [hn1, hb2, blt_num_posInf, if_pos]
      split
      · exact ⟨n1, rfl⟩
      · exact minLoop_num hrecb hrec (Or.inr rfl) _ b _ _ n1 _
          (fun m hm => hleg m (List.mem_cons_of_mem _ hm)) hmk

theorem minimaxF_num {computer player : Cell} :
    ∀ (fuel : Nat) (b : Board) (depth : Nat) (is_max : Bool) (alpha beta : XInt),
      marksOnly b computer player →
      ∃ n, (minimaxF fuel b depth is_max computer player alpha beta).1 = XInt.num n := by
  intro fuel
  induction fuel with
  | zero => intro b _ _ _ _ _; exact ⟨0, rfl⟩
  | succ fuel ih =>
      intro b depth is_max alpha beta hmarks
      rw [minimaxF_succ]
      by_cases h1 : check_winner b = some computer
      · rw [if_pos h1]; exact ⟨_, rfl⟩
      rw [if_neg h1]
      by_cases h2 : check_winner b = some player
      · rw [if_pos h2]; exact ⟨_, rfl⟩
      rw [if_neg h2]
      by_cases h3 : is_draw b
      · rw [if_pos h3]; exact ⟨0, rfl⟩
      rw [if_neg h3]
      have hwnone : check_winner b = none := by
        rcases hw : check_winner b with _ | w
        · rfl
        · rcases winner_marks hmarks hw with rfl | rfl
          · exact absurd hw h1
          · exact absurd hw h2
      have hne : available_moves b ≠ [] := by
        intro hnil
        have hcnt := available_eq_nil_iff.mp hnil
        exact h3 (is_draw_iff.mpr ⟨hwnone, hcnt⟩)
      have hleg : ∀ m ∈ available_moves b, cell b m = Cell.E :=
        fun m hm => (mem_available.mp hm).2
      cases is_max with
      | true =>
          rw [if_pos rfl]
          exact maxLoop_num_start
            (fun b1 a bt => minimaxF_board fuel b1 _ _ _ _ a bt)
            (fun b1 a bt hm1 => ih b1 (depth + 1) false a bt hm1)
            _ b _ _ hne hleg hmarks
      | false =>
          rw [if_neg (by simp)]
          exact minLoop_num_start
            (fun b1 a bt => minimaxF_board fuel b1 _ _ _ _ a bt)
            (fun b1 a bt hm1 => ih b1 (depth + 1) true a bt hm1)
            _ b _ _ hne hleg hmarks

theorem maxLoop_keep {recur : Board → XInt → XInt → XInt × Option Nat × Board}
    {computer : Cell} (P : Nat → Prop) :
    ∀ (ms : List Nat) (b : Board) (alpha beta bs : XInt) (m0 : Nat),
      (∀ m ∈ ms, P m) → P m0 →
      ∃ m1, (maxLoop recur computer ms b alpha beta bs (some m0)).2.1 = some m1 ∧ P m1 := by
  intro ms
  induction ms with
  | nil => intro b alpha beta bs m0 _ h0; exact ⟨m0, rfl, h0⟩
  | cons mv rest ih =>
      intro b alpha beta bs m0 hall h0
      show ∃ m1, (maxLoop recur computer (mv :: rest) b alpha beta bs (some m0)).2.1 = some m1 ∧ P m1
      unfold maxLoop
      by_cases hcmp : XInt.blt bs (recur (b.set mv computer) alpha beta).1 = true
      · simp only [if_pos hcmp]
        split
        · exact ⟨mv, rfl, hall mv (by simp)⟩
        · exact ih _ _ _ _ mv (fun m hm => hall m (List.mem_cons_of_mem _ hm))
            (hall mv (by simp))
      · simp only [if_neg hcmp]
        split
        · exact ⟨m0, rfl, h0⟩
        · exact ih _ _ _ _ m0 (fun m hm => hall m (List.mem_cons_of_mem _ hm)) h0

theorem maxLoop_move_start {recur : Board → XInt → XInt → XInt × Option Nat × Board}
    {computer : Cell} (P : Nat → Prop) :
    ∀ (mv : Nat) (rest : List Nat) (b : Board) (alpha beta : XInt),
      (∀ m ∈ mv :: rest, P m) →
      (∃ n, (recur (b.set mv computer) alpha beta).1 = XInt.num n) →
      ∃ m1, (maxLoop recur computer (mv :: rest) b alpha beta .negInf none).2.1 = some m1 ∧ P m1 := by
  intro mv rest b alpha beta hall ⟨n1, hn1⟩
  show ∃ m1, (maxLoop recur computer (mv :: rest) b alpha beta .negInf none).2.1 = some m1 ∧ P m1
  unfold maxLoop
  simp only [hn1, blt_negInf_num, if_pos]
  split
  · exact ⟨mv, rfl, hall mv (by simp)⟩
  · exact maxLoop_keep P _ _ _ _ _ mv (fun m hm => hall m (List.mem_cons_of_mem _ hm))
      (hall mv (by simp))

/-- On a non-terminal board the root search returns a legal move. -/
theorem minimaxF_move {computer player : Cell} {b : Board} {fuel depth : Nat}
    {alpha beta : XInt} (hmarks : marksOnly b computer player)
    (hwnone : check_winner b = none) (hdraw : is_draw b = false) :
    ∃ m, (minimaxF (fuel + 1) b depth true computer player alpha beta).2.1 = some m ∧
      m ∈ available_moves b := by
  rw [minimaxF_succ]
  have h1 : ¬ check_winner b = some computer := by rw [hwnone]; simp
  have h2 : ¬ check_winner b = some player := by rw [hwnone]; simp
  rw [if_neg h1, if_neg h2, if_neg (by rw [hdraw]; simp), if_pos rfl]
  have hne : available_moves b ≠ [] := by
    intro hnil
    have hcnt := available_eq_nil_iff.mp hnil
    rw [is_draw_iff.mpr ⟨hwnone, hcnt⟩] at hdraw
    cases hdraw
  rcases hms : available_moves b with _ | ⟨mv, rest⟩
  · exact absurd hms hne
  · obtain ⟨n1, hn1⟩ := minimaxF_num fuel (b.set mv computer) (depth + 1) false alpha beta
      (marksOnly_set hmarks mv (Or.inl rfl))
    exact @maxLoop_move_start
      (fun b1 a bt => minimaxF fuel b1 (depth + 1) false computer player a bt)
      computer (fun m => m ∈ mv :: rest) mv rest b alpha beta
      (fun m hm => hm) ⟨n1, hn1⟩

/-!
### The no-break search ignores its window
-/

theorem ite_blt_eq_maxi (a b : XInt) :
    (if XInt.blt a b then b else a) = XInt.maxi a b := by
  unfold XInt.maxi
  rw [blt_spec]
  by_cases h : XInt.ble b a = true
  · simp [h]
  · simp [h]

theorem ite_blt_eq_mini (a b : XInt) :
    (if XInt.blt b a then b else a) = XInt.mini a b := by
  unfold XInt.mini
  rw [blt_spec]
  by_cases h : XInt.ble a b = true
  · simp [h]
  · simp [h]

theorem maxLoopNB_window {recur : Board → XInt → XInt → XInt × Option Nat × Board}
    {computer : Cell}
    (hrecw : ∀ b1 a bt a' bt', recur b1 a bt = recur b1 a' bt') :
    ∀ (ms : List Nat) (b : Board) (alpha beta alpha' beta' : XInt)
      (bs : XInt) (bm : Option Nat),
      maxLoopNB recur computer ms b alpha beta bs bm =
        maxLoopNB recur computer ms b alpha' beta' bs bm := by
  intro ms
  induction ms with
  | nil => intro b alpha beta alpha' beta' bs bm; rfl
  | cons mv rest ih =>
      intro b alpha beta alpha' beta' bs bm
      show maxLoopNB recur computer (mv :: rest) b alpha beta bs bm =
        maxLoopNB recur computer (mv :: rest) b alpha' beta' bs bm
      unfold maxLoopNB
      simp only [hrecw (b.set mv computer) alpha beta alpha' beta']
      exact ih _ _ _ _ _ _ _

theorem minLoopNB_window {recur : Board → XInt → XInt → XInt × Option Nat × Board}
    {player : Cell}
    (hrecw : ∀ b1 a bt a' bt', recur b1 a bt = recur b1 a' bt') :
    ∀ (ms : List Nat) (b : Board) (alpha beta alpha' beta' : XInt)
      (bs : XInt) (bm : Option Nat),
      minLoopNB recur player ms b alpha beta bs bm =
        minLoopNB recur player ms b alpha' beta' bs bm := by
  intro ms
  induction ms with
  | nil => intro b alpha beta alpha' beta' bs bm; rfl
  | cons mv rest ih =>
      intro b alpha beta alpha' beta' bs bm
      show minLoopNB recur player (mv :: rest) b alpha beta bs bm =
        minLoopNB recur player (mv :: rest) b alpha' beta' bs bm
      unfold minLoopNB
      simp only [hrecw (b.set mv player) alpha beta alpha' beta']
      exact ih _ _ _ _ _ _ _

theorem minimaxNB_window : ∀ (fuel : Nat) (b : Board) (depth : Nat)
    (is_max : Bool) (computer player : Cell) (alpha beta alpha' beta' : XInt),
    minimaxNB fuel b depth is_max computer player alpha beta =
      minimaxNB fuel b depth is_max computer player alpha' beta' := by
  intro fuel
  induction fuel with
  | zero => intro b _ _ _ _ _ _ _ _; rfl
  | succ fuel ih =>
      intro b depth is_max computer player alpha beta alpha' beta'
      rw [minimaxNB_succ, minimaxNB_succ]
      by_cases h1 : check_winner b = some computer
      · rw [if_pos h1, if_pos h1]
      rw [if_neg h1, if_neg h1]
      by_cases h2 : check_winner b = some player
      · rw [if_pos h2, if_pos h2]
      rw [if_neg h2, if_neg h2]
      by_cases h3 : is_draw b
      · rw [if_pos h3, if_pos h3]
      rw [if_neg h3, if_neg h3]
      cases is_max with
      | true =>
          rw [if_pos rfl, if_pos rfl]
          exact maxLoopNB_window (fun b1 a bt a' bt' => ih b1 _ _ _ _ a bt a' bt') _ _ _ _ _ _ _ _
      | false =>
          rw [if_neg (by simp), if_neg (by simp)]
          exact minLoopNB_window (fun b1 a bt a' bt' => ih b1 _ _ _ _ a bt a' bt') _ _ _ _ _ _ _ _

/-- The value of the exhaustive (no-break) search, at the canonical window. -/
def nbVal (fuel : Nat) (b : Board) (depth : Nat) (is_max : Bool)
    (computer player : Cell) : XInt :=
  (minimaxNB fuel b depth is_max computer player .negInf .posInf).1

/-!
### The no-break loops fold the child values
-/

theorem maxLoopNB_score {recur : Board → XInt → XInt → XInt × Option Nat × Board}
    {computer : Cell}
    (hrecb : ∀ b1 a bt, (recur b1 a bt).2.2 = b1)
    (hrecw : ∀ b1 a bt a' bt', recur b1 a bt = recur b1 a' bt') :
    ∀ (ms : List Nat) (b : Board) (alpha beta bs : XInt) (bm : Option Nat),
      (∀ m ∈ ms, cell b m = Cell.E) →
      (maxLoopNB recur computer ms b alpha beta bs bm).1 =
        ms.foldl (fun acc m =>
          XInt.maxi acc (recur (b.set m computer) XInt.negInf XInt.posInf).1) bs := by
  intro ms
  induction ms with
  | nil => intro b alpha beta bs bm _; rfl
  | cons mv rest ih =>
      intro b alpha beta bs bm hleg
      have hb2 : ((recur (b.set mv computer) alpha beta).2.2).set mv Cell.E = b := by
        rw [hrecb]
        exact set_restore (hleg mv (by simp)) computer
      show (maxLoopNB recur computer (mv :: rest) b alpha beta bs bm).1 = _
      unfold maxLoopNB
      simp only [hb2]
      rw [List.foldl_cons]
      rw [show (recur (b.set mv computer) alpha beta).1 =
            (recur (b.set mv computer) XInt.negInf XInt.posInf).1 from
            congrArg Prod.fst (hrecw _ _ _ _ _)]
      rw [show (if XInt.blt bs (recur (b.set mv computer) XInt.negInf XInt.posInf).1
              then ((recur (b.set mv computer) XInt.negInf XInt.posInf).1, some mv)
              else (bs, bm)).1 =
            XInt.maxi bs (recur (b.set mv computer) XInt.negInf XInt.posInf).1 from ?_]
      · exact ih b _ _ _ _ (fun m hm => hleg m (List.mem_cons_of_mem _ hm))
      · rw [← ite_blt_eq_maxi]
        by_cases hc : XInt.blt bs (recur (b.set mv computer) XInt.negInf XInt.posInf).1 = true
        · simp [hc]
        · simp [hc]

theorem minLoopNB_score {recur : Board → XInt → XInt → XInt × Option Nat × Board}
    {player : Cell}
    (hrecb : ∀ b1 a bt, (recur b1 a bt).2.2 = b1)
    (hrecw : ∀ b1 a bt a' bt', recur b1 a bt = recur b1 a' bt') :
    ∀ (ms : List Nat) (b : Board) (alpha beta bs : XInt) (bm : Option Nat),
      (∀ m ∈ ms, cell b m = Cell.E) →
      (minLoopNB recur player ms b alpha beta bs bm).1 =
        ms.foldl (fun acc m =>
          XInt.mini acc (recur (b.set m player) XInt.negInf XInt.posInf).1) bs := by
  intro ms
  induction ms with
  | nil => intro b alpha beta bs bm _; rfl
  | cons mv rest ih =>
      intro b alpha beta bs bm hleg
      have hb2 : ((recur (b.set mv player) alpha beta).2.2).set mv Cell.E = b := by
        rw [hrecb]
        exact set_restore (hleg mv (by simp)) player
      show (minLoopNB recur player (mv :: rest) b alpha beta bs bm).1 = _
      unfold minLoopNB
      simp only [hb2]
      rw [List.foldl_cons]
      rw [show (recur (b.set mv player) alpha beta).1 =
            (recur (b.set mv player) XInt.negInf XInt.posInf).1 from
            congrArg Prod.fst (hrecw _ _ _ _ _)]
      rw [show (if XInt.blt (recur (b.set mv player) XInt.negInf XInt.posInf).1 bs
              then ((recur (b.set mv player) XInt.negInf XInt.posInf).1, some mv)
              else (bs, bm)).1 =
            XInt.mini bs (recur (b.set mv player) XInt.negInf XInt.posInf).1 from ?_]
      · exact ih b _ _ _ _ (fun m hm => hleg m (List.mem_cons_of_mem _ hm))
      · rw [← ite_blt_eq_mini]
        by_cases hc : XInt.blt (recur (b.set mv player) XInt.negInf XInt.posInf).1 bs = true
        · simp [hc]
        · simp [hc]

theorem nlAny_iff {recur : Board → Bool} {mark : Cell} :
    ∀ {ms : List Nat} {b : Board},
      nlAny recur mark b ms = true ↔ ∃ m ∈ ms, recur (fset b m mark) = true := by
  intro ms
  induction ms with
  | nil => intro b; simp [nlAny]
  | cons mv rest ih =>
      intro b
      show (recur (fset b mv mark) || nlAny recur mark b rest) = true ↔ _
      rw [Bool.or_eq_true, ih]
      constructor
      · rintro (h | ⟨m, hm, h⟩)
        · exact ⟨mv, by simp, h⟩
        · exact ⟨m, List.mem_cons_of_mem _ hm, h⟩
      · rintro ⟨m, hm, h⟩
        rcases List.mem_cons.mp hm with rfl | hm
        · exact Or.inl h
        · exact Or.inr ⟨m, hm, h⟩

theorem nlAll_iff {recur : Board → Bool} {mark : Cell} :
    ∀ {ms : List Nat} {b : Board},
      nlAll recur mark b ms = true ↔ ∀ m ∈ ms, recur (fset b m mark) = true := by
  intro ms
  induction ms with
  | nil => intro b; simp [nlAll]
  | cons mv rest ih =>
      intro b
      show (recur (fset b mv mark) && nlAll recur mark b rest) = true ↔ _
      rw [Bool.and_eq_true, ih]
      constructor
      · rintro ⟨h1, h2⟩ m hm
        rcases List.mem_cons.mp hm with rfl | hm
        · exact h1
        · exact h2 m hm
      · intro h
        exact ⟨h mv (by simp), fun m hm => h m (List.mem_cons_of_mem _ hm)⟩

theorem ordM_nil {b : Board} : ordM b = [] ↔ available_moves b = [] := by
  rw [List.eq_nil_iff_forall_not_mem, List.eq_nil_iff_forall_not_mem]
  constructor
  · intro h m hm
    exact h m (ordM_mem.mpr hm)
  · intro h m hm
    exact h m (ordM_mem.mp hm)

theorem ble_maxi_iff {k a b : XInt} :
    XInt.ble k (XInt.maxi a b) = true ↔
      (XInt.ble k a = true ∨ XInt.ble k b = true) := by
  unfold XInt.maxi
  by_cases h : XInt.ble b a = true
  · rw [if_pos h]
    constructor
    · exact Or.inl
    · rintro (hh | hh)
      · exact hh
      · exact ble_trans hh h
  · rw [if_neg h]
    constructor
    · exact Or.inr
    · rintro (hh | hh)
      · exact ble_trans hh (ble_of_not_ble (by simpa using h))
      · exact hh

theorem maxi_ble_iff {k a b : XInt} :
    XInt.ble (XInt.maxi a b) k = true ↔
      (XInt.ble a k = true ∧ XInt.ble b k = true) := by
  unfold XInt.maxi
  by_cases h : XInt.ble b a = true
  · rw [if_pos h]
    exact ⟨fun hh => ⟨hh, ble_trans h hh⟩, fun hh => hh.1⟩
  · rw [if_neg h]
    refine ⟨fun hh => ⟨ble_trans (ble_of_not_ble (by simpa using h)) hh, hh⟩, fun hh => hh.2⟩

theorem mini_ble_iff {k a b : XInt} :
    XInt.ble (XInt.mini a b) k = true ↔
      (XInt.ble a k = true ∨ XInt.ble b k = true) := by
  unfold XInt.mini
  by_cases h : XInt.ble a b = true
  · rw [if_pos h]
    constructor
    · exact Or.inl
    · rintro (hh | hh)
      · exact hh
      · exact ble_trans h hh
  · rw [if_neg h]
    constructor
    · exact Or.inr
    · rintro (hh | hh)
      · exact ble_trans (ble_of_not_ble (by simpa using h)) hh
      · exact hh

theorem ble_mini_iff {k a b : XInt} :
    XInt.ble k (XInt.mini a b) = true ↔
      (XInt.ble k a = true ∧ XInt.ble k b = true) := by
  unfold XInt.mini
  by_cases h : XInt.ble a b = true
  · rw [if_pos h]
    exact ⟨fun hh => ⟨hh, ble_trans hh h⟩, fun hh => hh.1⟩
  · rw [if_neg h]
    refine ⟨fun hh => ⟨ble_trans hh (ble_of_not_ble (by simpa using h)), hh⟩, fun hh => hh.2⟩

theorem ble_foldl_maxi {f : Nat → XInt} {k : XInt} :
    ∀ (xs : List Nat) (s : XInt),
      XInt.ble k (xs.foldl (fun acc m => XInt.maxi acc (f m)) s) = true ↔
        (XInt.ble k s = true ∨ ∃ m ∈ xs, XInt.ble k (f m) = true) := by
  intro xs
  induction xs with
  | nil => intro s; simp
  | cons x rest ih =>
      intro s
      rw [List.foldl_cons, ih, ble_maxi_iff]
      constructor
      · rintro ((h | h) | ⟨m, hm, h⟩)
        · exact Or.inl h
        · exact Or.inr ⟨x, by simp, h⟩
        · exact Or.inr ⟨m, List.mem_cons_of_mem _ hm, h⟩
      · rintro (h | ⟨m, hm, h⟩)
        · exact Or.inl (Or.inl h)
        · rcases List.mem_cons.mp hm with rfl | hm
          · exact Or.inl (Or.inr h)
          · exact Or.inr ⟨m, hm, h⟩

theorem foldl_maxi_ble {f : Nat → XInt} {k : XInt} :
    ∀ (xs : List Nat) (s : XInt),
      XInt.ble (xs.foldl (fun acc m => XInt.maxi acc (f m)) s) k = true ↔
        (XInt.ble s k = true ∧ ∀ m ∈ xs, XInt.ble (f m) k = true) := by
  intro xs
  induction xs with
  | nil => intro s; simp
  | cons x rest ih =>
      intro s
      rw [List.foldl_cons, ih, maxi_ble_iff]
      constructor
      · rintro ⟨⟨h1, h2⟩, h3⟩
        refine ⟨h1, fun m hm => ?_⟩
        rcases List.mem_cons.mp hm with rfl | hm
        · exact h2
        · exact h3 m hm
      · rintro ⟨h1, h2⟩
        exact ⟨⟨h1, h2 x (by simp)⟩, fun m hm => h2 m (List.mem_cons_of_mem _ hm)⟩

theorem ble_foldl_mini {f : Nat → XInt} {k : XInt} :
    ∀ (xs : List Nat) (s : XInt),
      XInt.ble k (xs.foldl (fun acc m => XInt.mini acc (f m)) s) = true ↔
        (XInt.ble k s = true ∧ ∀ m ∈ xs, XInt.ble k (f m) = true) := by
  intro xs
  induction xs with
  | nil => intro s; simp
  | cons x rest ih =>
      intro s
      rw [List.foldl_cons, ih, ble_mini_iff]
      constructor
      · rintro ⟨⟨h1, h2⟩, h3⟩
        refine ⟨h1, fun m hm => ?_⟩
        rcases List.mem_cons.mp hm with rfl | hm
        · exact h2
        · exact h3 m hm
      · rintro ⟨h1, h2⟩
        exact ⟨⟨h1, h2 x (by simp)⟩, fun m hm => h2 m (List.mem_cons_of_mem _ hm)⟩

theorem foldl_mini_ble {f : Nat → XInt} {k : XInt} :
    ∀ (xs : List Nat) (s : XInt),
      XInt.ble (xs.foldl (fun acc m => XInt.mini acc (f m)) s) k = true ↔
        (XInt.ble s k = true ∨ ∃ m ∈ xs, XInt.ble (f m) k = true) := by
  intro xs
  induction xs with
  | nil => intro s; simp
  | cons x rest ih =>
      intro s
      rw [List.foldl_cons, ih, mini_ble_iff]
      constructor
      · rintro ((h | h) | ⟨m, hm, h⟩)
        · exact Or.inl h
        · exact Or.inr ⟨x, by simp, h⟩
        · exact Or.inr ⟨m, List.mem_cons_of_mem _ hm, h⟩
      · rintro (h | ⟨m, hm, h⟩)
        · exact Or.inl (Or.inl h)
        · rcases List.mem_cons.mp hm with rfl | hm
          · exact Or.inl (Or.inr h)
          · exact Or.inr ⟨m, hm, h⟩

/-!
### Root characterization of the no-break search
-/

theorem minimaxNB_root_max {fuel depth : Nat} {b : Board}
    {computer player : Cell} {alpha beta : XInt}
    (hw : check_winner b = none) (hdraw : is_draw b = false) :
    (minimaxNB (fuel + 1) b depth true computer player alpha beta).1 =
      (available_moves b).foldl (fun acc m =>
        XInt.maxi acc (nbVal fuel (b.set m computer) (depth + 1) false computer player))
        XInt.negInf := by
  rw [minimaxNB_succ, if_neg (by simp [hw]), if_neg (by simp [hw]),
    if_neg (by simp [hdraw]), if_pos rfl]
  exact maxLoopNB_score (fun b1 a bt => minimaxNB_board fuel b1 _ _ _ _ a bt)
    (fun b1 a bt a' bt' => minimaxNB_window fuel b1 _ _ _ _ a bt a' bt')
    _ b _ _ _ _ (fun m hm => (mem_available.mp hm).2)

theorem minimaxNB_root_min {fuel depth : Nat} {b : Board}
    {computer player : Cell} {alpha beta : XInt}
    (hw : check_winner b = none) (hdraw : is_draw b = false) :
    (minimaxNB (fuel + 1) b depth false computer player alpha beta).1 =
      (available_moves b).foldl (fun acc m =>
        XInt.mini acc (nbVal fuel (b.set m player) (depth + 1) true computer player))
        XInt.posInf := by
  rw [minimaxNB_succ, if_neg (by simp [hw]), if_neg (by simp [hw]),
    if_neg (by simp [hdraw]), if_neg (by simp)]
  exact minLoopNB_score (fun b1 a bt => minimaxNB_board fuel b1 _ _ _ _ a bt)
    (fun b1 a bt a' bt' => minimaxNB_window fuel b1 _ _ _ _ a bt a' bt')
    _ b _ _ _ _ (fun m hm => (mem_available.mp hm).2)

theorem maxLoopNB_achieve {recur : Board → XInt → XInt → XInt × Option Nat × Board}
    {computer : Cell}
    (hrecb : ∀ b1 a bt, (recur b1 a bt).2.2 = b1)
    (hrecw : ∀ b1 a bt a' bt', recur b1 a bt = recur b1 a' bt') :
    ∀ (ms : List Nat) (b : Board) (alpha beta bs : XInt) (bm : Option Nat),
      (∀ m ∈ ms, cell b m = Cell.E) →
      ((maxLoopNB recur computer ms b alpha beta bs bm).1 = bs ∧
        (maxLoopNB recur computer ms b alpha beta bs bm).2.1 = bm) ∨
      (∃ m ∈ ms, (maxLoopNB recur computer ms b alpha beta bs bm).2.1 = some m ∧
        (maxLoopNB recur computer ms b alpha beta bs bm).1 =
          (recur (b.set m computer) XInt.negInf XInt.posInf).1) := by
  intro ms
  induction ms with
  | nil => intro b alpha beta bs bm _; exact Or.inl ⟨rfl, rfl⟩
  | cons mv rest ih =>
      intro b alpha beta bs bm hleg
      have hb2 : ((recur (b.set mv computer) alpha beta).2.2).set mv Cell.E = b := by
        rw [hrecb]
        exact set_restore (hleg mv (by simp)) computer
      have hcan : (recur (b.set mv computer) alpha beta).1 =
          (recur (b.set mv computer) XInt.negInf XInt.posInf).1 :=
        congrArg Prod.fst (hrecw _ _ _ _ _)
      show ((maxLoopNB recur computer (mv :: rest) b alpha beta bs bm).1 = bs ∧ _) ∨ _
      unfold maxLoopNB
      simp only [hb2]
      by_cases hcmp : XInt.blt bs (recur (b.set mv computer) alpha beta).1 = true
      · simp only [if_pos hcmp]
        rcases ih b _ _ _ _ (fun m hm => hleg m (List.mem_cons_of_mem _ hm)) with
          ⟨hsc, hmv⟩ | ⟨m, hm, hmv, hsc⟩
        · exact Or.inr ⟨mv, by simp, hmv, by rw [hsc, hcan]⟩
        · exact Or.inr ⟨m, List.mem_cons_of_mem _ hm, hmv, hsc⟩
      · simp only [if_neg hcmp]
        rcases ih b _ _ _ _ (fun m hm => hleg m (List.mem_cons_of_mem _ hm)) with
          ⟨hsc, hmv⟩ | ⟨m, hm, hmv, hsc⟩
        · exact Or.inl ⟨hsc, hmv⟩
        · exact Or.inr ⟨m, List.mem_cons_of_mem _ hm, hmv, hsc⟩

theorem maxLoopNB_const {recur : Board → XInt → XInt → XInt × Option Nat × Board}
    {computer : Cell}
    (hrecb : ∀ b1 a bt, (recur b1 a bt).2.2 = b1)
    (hrecw : ∀ b1 a bt a' bt', recur b1 a bt = recur b1 a' bt') :
    ∀ (ms : List Nat) (b : Board) (alpha beta bs : XInt) (bm : Option Nat),
      (∀ m ∈ ms, cell b m = Cell.E) →
      (∀ m ∈ ms, XInt.ble (recur (b.set m computer) XInt.negInf XInt.posInf).1 bs = true) →
      maxLoopNB recur computer ms b alpha beta bs bm = (bs, bm, b) := by
  intro ms
  induction ms with
  | nil => intro b alpha beta bs bm _ _; rfl
  | cons mv rest ih =>
      intro b alpha beta bs bm hleg hble
      have hb2 : ((recur (b.set mv computer) alpha beta).2.2).set mv Cell.E = b := by
        rw [hrecb]
        exact set_restore (hleg mv (by simp)) computer
      have hcan : (recur (b.set mv computer) alpha beta).1 =
          (recur (b.set mv computer) XInt.negInf XInt.posInf).1 :=
        congrArg Prod.fst (hrecw _ _ _ _ _)
      have hcmp : XInt.blt bs (recur (b.set mv computer) alpha beta).1 = false := by
        rw [blt_spec, hcan, hble mv (by simp)]
        rfl
      show maxLoopNB recur computer (mv :: rest) b alpha beta bs bm = (bs, bm, b)
      unfold maxLoopNB
      simp only [hb2, hcmp]
      simp only [Bool.false_eq_true, if_false]
      exact ih b _ _ _ _ (fun m hm => hleg m (List.mem_cons_of_mem _ hm))
        (fun m hm => hble m (List.mem_cons_of_mem _ hm))

theorem maxLoopNB_first {recur : Board → XInt → XInt → XInt × Option Nat × Board}
    {computer : Cell}
    (hrecb : ∀ b1 a bt, (recur b1 a bt).2.2 = b1)
    (hrecw : ∀ b1 a bt a' bt', recur b1 a bt = recur b1 a' bt')
    {mv : Nat} {rest : List Nat} {b : Board} {alpha beta : XInt} {n0 : Int}
    (hleg : ∀ m ∈ mv :: rest, cell b m = Cell.E)
    (hv0 : (recur (b.set mv computer) XInt.negInf XInt.posInf).1 = XInt.num n0)
    (hrest : ∀ m ∈ rest,
      XInt.ble (recur (b.set m computer) XInt.negInf XInt.posInf).1 (XInt.num n0) = true) :
    maxLoopNB recur computer (mv :: rest) b alpha beta .negInf none =
      (XInt.num n0, some mv, b) := by
  have hb2 : ((recur (b.set mv computer) alpha beta).2.2).set mv Cell.E = b := by
    rw [hrecb]
    exact set_restore (hleg mv (by simp)) computer
  have hcan : (recur (b.set mv computer) alpha beta).1 =
      (recur (b.set mv computer) XInt.negInf XInt.posInf).1 :=
    congrArg Prod.fst (hrecw _ _ _ _ _)
  show maxLoopNB recur computer (mv :: rest) b alpha beta .negInf none = _
  unfold maxLoopNB
  simp only [hb2, hcan, hv0, blt_negInf_num, if_pos]
  exact maxLoopNB_const hrecb hrecw rest b _ _ _ _
    (fun m hm => hleg m (List.mem_cons_of_mem _ hm)) hrest

/-!
### `noLose` decides the sign of the exhaustive value
-/

theorem noLose_succ (fuel : Nat) (b : Board) (meMv : Bool) (me other : Cell) :
    noLose (fuel + 1) b meMv me other =
      match fwin b with
      | some w => decide (w = me)
      | none =>
          match ordM b with
          | [] => true
          | ms =>
              if meMv then
                nlAny (fun b1 => noLose fuel b1 false me other) me b ms
              else
                nlAll (fun b1 => noLose fuel b1 true me other) other b ms := rfl

theorem ble0_win {depth : Nat} (h : depth ≤ 9) :
    XInt.ble (XInt.num 0) (XInt.num (10 - (depth : Int))) = true := by
  simp only [XInt.ble, decide_eq_true_eq]
  omega

theorem win_not_ble0 {depth : Nat} (h : depth ≤ 9) :
    XInt.ble (XInt.num (10 - (depth : Int))) (XInt.num 0) = false := by
  simp only [XInt.ble]
  simp only [decide_eq_false_iff_not]
  omega

theorem lose_ble0 {depth : Nat} (h : depth ≤ 9) :
    XInt.ble (XInt.num ((depth : Int) - 10)) (XInt.num 0) = true := by
  simp only [XInt.ble, decide_eq_true_eq]
  omega

theorem lose_not_ge0 {depth : Nat} (h : depth ≤ 9) :
    XInt.ble (XInt.num 0) (XInt.num ((depth : Int) - 10)) = false := by
  simp only [XInt.ble]
  simp only [decide_eq_false_iff_not]
  omega

theorem avail_step {b : Board} {m : Nat} (hm : m ∈ available_moves b) {v : Cell}
    (hv : v ≠ Cell.E) : emptyCount (b.set m v) + 1 = emptyCount b :=
  emptyCount_set (mem_available.mp hm).1 (mem_available.mp hm).2 hv

theorem noLose_ge0 {c p : Cell} (hcp : c ≠ p) (hcE : c ≠ Cell.E)
    (hpE : p ≠ Cell.E) :
    ∀ (fuel : Nat) (b : Board) (depth : Nat) (tm : Bool),
      marksOnly b c p → emptyCount b < fuel → depth + emptyCount b ≤ 9 →
      (noLose fuel b tm c p = true ↔
        XInt.ble (XInt.num 0) (nbVal fuel b depth tm c p) = true) := by
  intro fuel
  induction fuel with
  | zero => intro b depth tm _ hlt _; omega
  | succ fuel ih =>
      intro b depth tm hmk hlt hdep
      have hd9 : depth ≤ 9 := by omega
      rw [noLose_succ, fwin_eq]
      rcases hwin : check_winner b with _ | w
      · -- no winner yet
        rcases hms : ordM b with _ | ⟨mv, rest⟩
        · -- full board: draw
          have hav : available_moves b = [] := ordM_nil.mp hms
          have hcnt : emptyCount b = 0 := available_eq_nil_iff.mp hav
          have hdraw : is_draw b = true := is_draw_iff.mpr ⟨hwin, hcnt⟩
          have hval : nbVal (fuel + 1) b depth tm c p = XInt.num 0 := by
            unfold nbVal
            rw [minimaxNB_succ, if_neg (by simp [hwin]), if_neg (by simp [hwin]),
              if_pos hdraw]
          rw [hval]
          exact iff_of_true rfl rfl
        · have hne : available_moves b ≠ [] := by
            intro hnil
            rw [ordM_nil.mpr hnil] at hms
            cases hms
          have hcnt : emptyCount b ≠ 0 := fun hz =>
            hne (available_eq_nil_iff.mpr hz)
          have hdraw : is_draw b = false := by
            rcases hId : is_draw b
            · rfl
            · exact absurd (is_draw_iff.mp hId).2 hcnt
          have hmem : ∀ m, m ∈ mv :: rest ↔ m ∈ available_moves b := by
            intro m
            rw [← hms]
            exact ordM_mem
          cases tm with
          | true =>
              show nlAny (fun b1 => noLose fuel b1 false c p) c b (mv :: rest) = true ↔ _
              rw [nlAny_iff]
              have hval : nbVal (fuel + 1) b depth true c p =
                  (available_moves b).foldl (fun acc m =>
                    XInt.maxi acc (nbVal fuel (b.set m c) (depth + 1) false c p))
                    XInt.negInf := minimaxNB_root_max hwin hdraw
              rw [hval, ble_foldl_maxi]
              constructor
              · rintro ⟨m, hm, hrec⟩
                have hmav : m ∈ available_moves b := (hmem m).mp hm
                refine Or.inr ⟨m, hmav, ?_⟩
                rw [fset_eq] at hrec
                exact (ih (b.set m c) (depth + 1) false
                  (marksOnly_set hmk m (Or.inl rfl))
                  (by have := avail_step hmav hcE; omega)
                  (by have := avail_step hmav hcE; omega)).mp hrec
              · rintro (habs | ⟨m, hm, hble⟩)
                · simp [XInt.ble] at habs
                · refine ⟨m, (hmem m).mpr hm, ?_⟩
                  rw [fset_eq]
                  exact (ih (b.set m c) (depth + 1) false
                    (marksOnly_set hmk m (Or.inl rfl))
                    (by have := avail_step hm hcE; omega)
                    (by have := avail_step hm hcE; omega)).mpr hble
          | false =>
              show nlAll (fun b1 => noLose fuel b1 true c p) p b (mv :: rest) = true ↔ _
              rw [nlAll_iff]
              have hval : nbVal (fuel + 1) b depth false c p =
                  (available_moves b).foldl (fun acc m =>
                    XInt.mini acc (nbVal fuel (b.set m p) (depth + 1) true c p))
                    XInt.posInf := minimaxNB_root_min hwin hdraw
              rw [hval, ble_foldl_mini]
              constructor
              · intro hall
                refine ⟨rfl, fun m hm => ?_⟩
                have := hall m ((hmem m).mpr hm)
                rw [fset_eq] at this
                exact (ih (b.set m p) (depth + 1) true
                  (marksOnly_set hmk m (Or.inr rfl))
                  (by have := avail_step hm hpE; omega)
                  (by have := avail_step hm hpE; omega)).mp this
              · rintro ⟨_, hall⟩ m hm
                have hmav : m ∈ available_moves b := (hmem m).mp hm
                rw [fset_eq]
                exact (ih (b.set m p) (depth + 1) true
                  (marksOnly_set hmk m (Or.inr rfl))
                  (by have := avail_step hmav hpE; omega)
                  (by have := avail_step hmav hpE; omega)).mpr (hall m hmav)
      · -- a winner exists
        rcases winner_marks hmk hwin with rfl | rfl
        · have hval : nbVal (fuel + 1) b depth tm w p =
              XInt.num (10 - (depth : Int)) := by
            unfold nbVal
            rw [minimaxNB_succ, if_pos hwin]
          rw [hval]
          exact iff_of_true (by simp) (ble0_win hd9)
        · have hval : nbVal (fuel + 1) b depth tm c w =
              XInt.num ((depth : Int) - 10) := by
            unfold nbVal
            rw [minimaxNB_succ, if_neg (by simp [hwin]; exact fun hh => hcp hh.symm),
              if_pos hwin]
          rw [hval]
          refine iff_of_false ?_ (by rw [lose_not_ge0 hd9]; simp)
          simp only [decide_eq_true_eq]
          intro hh
          rw [hh] at hcp
          exact hcp rfl

theorem noLose_le0 {c p : Cell} (hcp : c ≠ p) (hcE : c ≠ Cell.E)
    (hpE : p ≠ Cell.E) :
    ∀ (fuel : Nat) (b : Board) (depth : Nat) (tm : Bool),
      marksOnly b c p → emptyCount b < fuel → depth + emptyCount b ≤ 9 →
      (noLose fuel b (!tm) p c = true ↔
        XInt.ble (nbVal fuel b depth tm c p) (XInt.num 0) = true) := by
  intro fuel
  induction fuel with
  | zero => intro b depth tm _ hlt _; omega
  | succ fuel ih =>
      intro b depth tm hmk hlt hdep
      have hd9 : depth ≤ 9 := by omega
      rw [noLose_succ, fwin_eq]
      rcases hwin : check_winner b with _ | w
      · rcases hms : ordM b with _ | ⟨mv, rest⟩
        · have hav : available_moves b = [] := ordM_nil.mp hms
          have hcnt : emptyCount b = 0 := available_eq_nil_iff.mp hav
          have hdraw : is_draw b = true := is_draw_iff.mpr ⟨hwin, hcnt⟩
          have hval : nbVal (fuel + 1) b depth tm c p = XInt.num 0 := by
            unfold nbVal
            rw [minimaxNB_succ, if_neg (by simp [hwin]), if_neg (by simp [hwin]),
              if_pos hdraw]
          rw [hval]
          exact iff_of_true rfl rfl
        · have hne : available_moves b ≠ [] := by
            intro hnil
            rw [ordM_nil.mpr hnil] at hms
            cases hms
          have hcnt : emptyCount b ≠ 0 := fun hz =>
            hne (available_eq_nil_iff.mpr hz)
          have hdraw : is_draw b = false := by
            rcases hId : is_draw b
            · rfl
            · exact absurd (is_draw_iff.mp hId).2 hcnt
          have hmem : ∀ m, m ∈ mv :: rest ↔ m ∈ available_moves b := by
            intro m
            rw [← hms]
            exact ordM_mem
          cases tm with
          | true =>
              show nlAll (fun b1 => noLose fuel b1 true p c) c b (mv :: rest) = true ↔ _
              rw [nlAll_iff]
              have hval : nbVal (fuel + 1) b depth true c p =
                  (available_moves b).foldl (fun acc m =>
                    XInt.maxi acc (nbVal fuel (b.set m c) (depth + 1) false c p))
                    XInt.negInf := minimaxNB_root_max hwin hdraw
              rw [hval, foldl_maxi_ble]
              constructor
              · intro hall
                refine ⟨rfl, fun m hm => ?_⟩
                have := hall m ((hmem m).mpr hm)
                rw [fset_eq] at this
                have hh := (ih (b.set m c) (depth + 1) false
                  (marksOnly_set hmk m (Or.inl rfl))
                  (by have := avail_step hm hcE; omega)
                  (by have := avail_step hm hcE; omega))
                simp only [Bool.not_false] at hh
                exact hh.mp this
              · rintro ⟨_, hall⟩ m hm
                have hmav : m ∈ available_moves b := (hmem m).mp hm
                rw [fset_eq]
                have hh := (ih (b.set m c) (depth + 1) false
                  (marksOnly_set hmk m (Or.inl rfl))
                  (by have := avail_step hmav hcE; omega)
                  (by have := avail_step hmav hcE; omega))
                simp only [Bool.not_false] at hh
                exact hh.mpr (hall m hmav)
          | false =>
              show nlAny (fun b1 => noLose fuel b1 false p c) p b (mv :: rest) = true ↔ _
              rw [nlAny_iff]
              have hval : nbVal (fuel + 1) b depth false c p =
                  (available_moves b).foldl (fun acc m =>
                    XInt.mini acc (nbVal fuel (b.set m p) (depth + 1) true c p))
                    XInt.posInf := minimaxNB_root_min hwin hdraw
              rw [hval, foldl_mini_ble]
              constructor
              · rintro ⟨m, hm, hrec⟩
                have hmav : m ∈ available_moves b := (hmem m).mp hm
                refine Or.inr ⟨m, hmav, ?_⟩
                rw [fset_eq] at hrec
                have hh := (ih (b.set m p) (depth + 1) true
                  (marksOnly_set hmk m (Or.inr rfl))
                  (by have := avail_step hmav hpE; omega)
                  (by have := avail_step hmav hpE; omega))
                simp only [Bool.not_true] at hh
                exact hh.mp hrec
              · rintro (habs | ⟨m, hm, hble⟩)
                · simp [XInt.ble] at habs
                · refine ⟨m, (hmem m).mpr hm, ?_⟩
                  rw [fset_eq]
                  have hh := (ih (b.set m p) (depth + 1) true
                    (marksOnly_set hmk m (Or.inr rfl))
                    (by have := avail_step hm hpE; omega)
                    (by have := avail_step hm hpE; omega))
                  simp only [Bool.not_true] at hh
                  exact hh.mpr hble
      · rcases winner_marks hmk hwin with rfl | rfl
        · have hval : nbVal (fuel + 1) b depth tm w p =
              XInt.num (10 - (depth : Int)) := by
            unfold nbVal
            rw [minimaxNB_succ, if_pos hwin]
          rw [hval]
          refine iff_of_false ?_ (by rw [win_not_ble0 hd9]; simp)
          simp only [decide_eq_true_eq]
          intro hh
          rw [hh] at hcp
          exact hcp rfl
        · have hval : nbVal (fuel + 1) b depth tm c w =
              XInt.num ((depth : Int) - 10) := by
            unfold nbVal
            rw [minimaxNB_succ, if_neg (by simp [hwin]; exact fun hh => hcp hh.symm),
              if_pos hwin]
          rw [hval]
          exact iff_of_true (by simp) (lose_ble0 hd9)

/-!
### Lattice algebra for `maxi`/`mini` folds
-/

theorem ble_of_blt {a b : XInt} (h : XInt.blt a b = true) : XInt.ble a b = true := by
  rw [blt_spec, Bool.not_eq_true'] at h
  exact ble_of_not_ble h

theorem maxi_eq_left {a b : XInt} (h : XInt.ble b a = true) : XInt.maxi a b = a := by
  unfold XInt.maxi
  rw [if_pos h]

theorem maxi_eq_right {a b : XInt} (h : XInt.ble a b = true) : XInt.maxi a b = b := by
  unfold XInt.maxi
  by_cases h2 : XInt.ble b a = true
  · rw [if_pos h2]
    exact ble_antisymm h h2
  · rw [if_neg h2]

theorem mini_eq_left {a b : XInt} (h : XInt.ble a b = true) : XInt.mini a b = a := by
  unfold XInt.mini
  rw [if_pos h]

theorem mini_eq_right {a b : XInt} (h : XInt.ble b a = true) : XInt.mini a b = b := by
  unfold XInt.mini
  by_cases h2 : XInt.ble a b = true
  · rw [if_pos h2]
    exact ble_antisymm h2 h
  · rw [if_neg h2]

theorem maxi_assoc (a b c : XInt) :
    XInt.maxi (XInt.maxi a b) c = XInt.maxi a (XInt.maxi b c) := by
  by_cases hab : XInt.ble b a = true
  · rw [maxi_eq_left hab]
    by_cases hbc : XInt.ble c b = true
    · rw [maxi_eq_left hbc, maxi_eq_left hab, maxi_eq_left (ble_trans hbc hab)]
    · have hcb : XInt.ble b c = true := ble_of_not_ble (by simpa using hbc)
      rw [maxi_eq_right hcb]
  · have hba : XInt.ble a b = true := ble_of_not_ble (by simpa using hab)
    rw [maxi_eq_right hba]
    by_cases hbc : XInt.ble c b = true
    · rw [maxi_eq_left hbc, maxi_eq_right hba]
    · have hcb : XInt.ble b c = true := ble_of_not_ble (by simpa using hbc)
      rw [maxi_eq_right hcb, maxi_eq_right (ble_trans hba hcb)]

theorem mini_assoc (a b c : XInt) :
    XInt.mini (XInt.mini a b) c = XInt.mini a (XInt.mini b c) := by
  by_cases hab : XInt.ble a b = true
  · rw [mini_eq_left hab]
    by_cases hbc : XInt.ble b c = true
    · rw [mini_eq_left hbc, mini_eq_left hab, mini_eq_left (ble_trans hab hbc)]
    · have hcb : XInt.ble c b = true := ble_of_not_ble (by simpa using hbc)
      rw [mini_eq_right hcb]
  · have hba : XInt.ble b a = true := ble_of_not_ble (by simpa using hab)
    rw [mini_eq_right hba]
    by_cases hbc : XInt.ble b c = true
    · rw [mini_eq_left hbc, mini_eq_right hba]
    · have hcb : XInt.ble c b = true := ble_of_not_ble (by simpa using hbc)
      rw [mini_eq_right hcb, mini_eq_right (ble_trans hcb hba)]

theorem maxi_negInf_right (a : XInt) : XInt.maxi a XInt.negInf = a :=
  maxi_eq_left (ble_negInf_left a)

theorem mini_posInf_right (a : XInt) : XInt.mini a XInt.posInf = a :=
  mini_eq_left (ble_posInf_right a)

theorem foldl_maxi_seed {f : Nat → XInt} :
    ∀ (xs : List Nat) (a s : XInt),
      xs.foldl (fun acc m => XInt.maxi acc (f m)) (XInt.maxi a s) =
        XInt.maxi a (xs.foldl (fun acc m => XInt.maxi acc (f m)) s) := by
  intro xs
  induction xs with
  | nil => intro a s; rfl
  | cons x rest ih =>
      intro a s
      rw [List.foldl_cons, List.foldl_cons, maxi_assoc, ih]

theorem foldl_mini_seed {f : Nat → XInt} :
    ∀ (xs : List Nat) (a s : XInt),
      xs.foldl (fun acc m => XInt.mini acc (f m)) (XInt.mini a s) =
        XInt.mini a (xs.foldl (fun acc m => XInt.mini acc (f m)) s) := by
  intro xs
  induction xs with
  | nil => intro a s; rfl
  | cons x rest ih =>
      intro a s
      rw [List.foldl_cons, List.foldl_cons, mini_assoc, ih]

theorem foldl_maxi_split {f : Nat → XInt} (xs : List Nat) (s : XInt) :
    xs.foldl (fun acc m => XInt.maxi acc (f m)) s =
      XInt.maxi s (xs.foldl (fun acc m => XInt.maxi acc (f m)) XInt.negInf) := by
  have h : s = XInt.maxi s XInt.negInf := (maxi_negInf_right s).symm
  calc xs.foldl (fun acc m => XInt.maxi acc (f m)) s
      = xs.foldl (fun acc m => XInt.maxi acc (f m)) (XInt.maxi s XInt.negInf) := by rw [← h]
    _ = XInt.maxi s (xs.foldl (fun acc m => XInt.maxi acc (f m)) XInt.negInf) :=
        foldl_maxi_seed xs s XInt.negInf

theorem foldl_mini_split {f : Nat → XInt} (xs : List Nat) (s : XInt) :
    xs.foldl (fun acc m => XInt.mini acc (f m)) s =
      XInt.mini s (xs.foldl (fun acc m => XInt.mini acc (f m)) XInt.posInf) := by
  have h : s = XInt.mini s XInt.posInf := (mini_posInf_right s).symm
  calc xs.foldl (fun acc m => XInt.mini acc (f m)) s
      = xs.foldl (fun acc m => XInt.mini acc (f m)) (XInt.mini s XInt.posInf) := by rw [← h]
    _ = XInt.mini s (xs.foldl (fun acc m => XInt.mini acc (f m)) XInt.posInf) :=
        foldl_mini_seed xs s XInt.posInf

theorem ble_seed_foldl {f : Nat → XInt} (xs : List Nat) (s : XInt) :
    XInt.ble s (xs.foldl (fun acc m => XInt.maxi acc (f m)) s) = true :=
  (ble_foldl_maxi xs s).mpr (Or.inl (ble_refl s))

theorem foldl_seed_ble {f : Nat → XInt} (xs : List Nat) (s : XInt) :
    XInt.ble (xs.foldl (fun acc m => XInt.mini acc (f m)) s) s = true := by
  rw [foldl_mini_split]
  exact mini_ble_left _ _

theorem ble_mem_foldl {f : Nat → XInt} {xs : List Nat} {m : Nat} (hm : m ∈ xs)
    (s : XInt) : XInt.ble (f m) (xs.foldl (fun acc m => XInt.maxi acc (f m)) s) = true :=
  (ble_foldl_maxi xs s).mpr (Or.inr ⟨m, hm, ble_refl _⟩)

theorem foldl_ble_mem {f : Nat → XInt} {xs : List Nat} {m : Nat} (hm : m ∈ xs)
    (s : XInt) : XInt.ble (xs.foldl (fun acc m => XInt.mini acc (f m)) s) (f m) = true :=
  (foldl_mini_ble xs s).mpr (Or.inr ⟨m, hm, ble_refl _⟩)

theorem foldl_maxi_mono {f : Nat → XInt} {s1 s2 : XInt} (h : XInt.ble s1 s2 = true)
    (xs : List Nat) :
    XInt.ble (xs.foldl (fun acc m => XInt.maxi acc (f m)) s1)
      (xs.foldl (fun acc m => XInt.maxi acc (f m)) s2) = true := by
  rw [foldl_maxi_split xs s1, foldl_maxi_split xs s2]
  apply maxi_ble
  · exact (ble_maxi_iff).mpr (Or.inl h)
  · exact ble_right_maxi _ _

theorem foldl_mini_mono {f : Nat → XInt} {s1 s2 : XInt} (h : XInt.ble s1 s2 = true)
    (xs : List Nat) :
    XInt.ble (xs.foldl (fun acc m => XInt.mini acc (f m)) s1)
      (xs.foldl (fun acc m => XInt.mini acc (f m)) s2) = true := by
  rw [foldl_mini_split xs s1, foldl_mini_split xs s2]
  apply ble_mini
  · exact (mini_ble_iff).mpr (Or.inl h)
  · exact mini_ble_right _ _

/-!
### Fail-soft bounds for the pruned loops
-/

theorem blt_true_of {a b : XInt} (h : XInt.ble b a = false) : XInt.blt a b = true := by
  rw [blt_spec, h]
  rfl

theorem ble_false_of_blt {a b : XInt} (h : XInt.blt a b = true) :
    XInt.ble b a = false := by
  rcases hb : XInt.ble b a
  · rfl
  · rw [blt_spec, hb] at h
    exact absurd h (by simp)

theorem ble_blt_absurd {a b : XInt} (h1 : XInt.ble a b = true)
    (h2 : XInt.blt b a = true) : False := by
  rw [ble_false_of_blt h2] at h1
  exact Bool.noConfusion h1

theorem maxLoop_cons (recur : Board → XInt → XInt → XInt × Option Nat × Board)
    (computer : Cell) (mv : Nat) (rest : List Nat) (b : Board)
    (alpha beta bs : XInt) (bm : Option Nat) :
    maxLoop recur computer (mv :: rest) b alpha beta bs bm =
      if XInt.blt bs (recur (b.set mv computer) alpha beta).1 then
        (if XInt.ble beta (XInt.maxi alpha (recur (b.set mv computer) alpha beta).1) then
          ((recur (b.set mv computer) alpha beta).1, some mv,
            ((recur (b.set mv computer) alpha beta).2.2).set mv Cell.E)
         else
          maxLoop recur computer rest
            (((recur (b.set mv computer) alpha beta).2.2).set mv Cell.E)
            (XInt.maxi alpha (recur (b.set mv computer) alpha beta).1) beta
            (recur (b.set mv computer) alpha beta).1 (some mv))
      else
        (if XInt.ble beta (XInt.maxi alpha bs) then
          (bs, bm, ((recur (b.set mv computer) alpha beta).2.2).set mv Cell.E)
         else
          maxLoop recur computer rest
            (((recur (b.set mv computer) alpha beta).2.2).set mv Cell.E)
            (XInt.maxi alpha bs) beta bs bm) := by
  show (let b1 := b.set mv computer
        let r := recur b1 alpha beta
        let b2 := r.2.2.set mv Cell.E
        let best' := if XInt.blt bs r.1 then (r.1, some mv) else (bs, bm)
        let alpha' := XInt.maxi alpha best'.1
        if XInt.ble beta alpha' then (best'.1, best'.2, b2)
        else maxLoop recur computer rest b2 alpha' beta best'.1 best'.2) = _
  by_cases h : XInt.blt bs (recur (b.set mv computer) alpha beta).1 = true
  · simp only [h, if_true, if_pos]
  · simp only [h, if_false, Bool.false_eq_true, if_neg]

theorem minLoop_cons (recur : Board → XInt → XInt → XInt × Option Nat × Board)
    (player : Cell) (mv : Nat) (rest : List Nat) (b : Board)
    (alpha beta bs : XInt) (bm : Option Nat) :
    minLoop recur player (mv :: rest) b alpha beta bs bm =
      if XInt.blt (recur (b.set mv player) alpha beta).1 bs then
        (if XInt.ble (XInt.mini beta (recur (b.set mv player) alpha beta).1) alpha then
          ((recur (b.set mv player) alpha beta).1, some mv,
            ((recur (b.set mv player) alpha beta).2.2).set mv Cell.E)
         else
          minLoop recur player rest
            (((recur (b.set mv player) alpha beta).2.2).set mv Cell.E)
            alpha (XInt.mini beta (recur (b.set mv player) alpha beta).1)
            (recur (b.set mv player) alpha beta).1 (some mv))
      else
        (if XInt.ble (XInt.mini beta bs) alpha then
          (bs, bm, ((recur (b.set mv player) alpha beta).2.2).set mv Cell.E)
         else
          minLoop recur player rest
            (((recur (b.set mv player) alpha beta).2.2).set mv Cell.E)
            alpha (XInt.mini beta bs) bs bm) := by
  show (let b1 := b.set mv player
        let r := recur b1 alpha beta
        let b2 := r.2.2.set mv Cell.E
        let best' := if XInt.blt r.1 bs then (r.1, some mv) else (bs, bm)
        let beta' := XInt.mini beta best'.1
        if XInt.ble beta' alpha then (best'.1, best'.2, b2)
        else minLoop recur player rest b2 alpha beta' best'.1 best'.2) = _
  by_cases h : XInt.blt (recur (b.set mv player) alpha beta).1 bs = true
  · simp only [h, if_true, if_pos]
  · simp only [h, if_false, Bool.false_eq_true, if_neg]

theorem maxLoop_ge_start {recur : Board → XInt → XInt → XInt × Option Nat × Board}
    {computer : Cell} :
    ∀ (ms : List Nat) (b : Board) (alpha beta bs : XInt) (bm : Option Nat),
      XInt.ble bs (maxLoop recur computer ms b alpha beta bs bm).1 = true := by
  intro ms
  induction ms with
  | nil => intro b alpha beta bs bm; exact ble_refl bs
  | cons mv rest ih =>
      intro b alpha beta bs bm
      rw [maxLoop_cons]
      by_cases hup : XInt.blt bs (recur (b.set mv computer) alpha beta).1 = true
      · rw [if_pos hup]
        split
        · exact ble_of_blt hup
        · exact ble_trans (ble_of_blt hup) (ih _ _ _ _ _)
      · rw [if_neg hup]
        split
        · exact ble_refl bs
        · exact ih _ _ _ _ _

theorem minLoop_le_start {recur : Board → XInt → XInt → XInt × Option Nat × Board}
    {player : Cell} :
    ∀ (ms : List Nat) (b : Board) (alpha beta bs : XInt) (bm : Option Nat),
      XInt.ble (minLoop recur player ms b alpha beta bs bm).1 bs = true := by
  intro ms
  induction ms with
  | nil => intro b alpha beta bs bm; exact ble_refl bs
  | cons mv rest ih =>
      intro b alpha beta bs bm
      rw [minLoop_cons]
      by_cases hup : XInt.blt (recur (b.set mv player) alpha beta).1 bs = true
      · rw [if_pos hup]
        split
        · exact ble_of_blt hup
        · exact ble_trans (ih _ _ _ _ _) (ble_of_blt hup)
      · rw [if_neg hup]
        split
        · exact ble_refl bs
        · exact ih _ _ _ _ _

theorem maxLoopFS {recur : Board → XInt → XInt → XInt × Option Nat × Board}
    {computer : Cell} (tv : Board → XInt)
    (hrecb : ∀ b1 a bt, (recur b1 a bt).2.2 = b1)
    (hFS : ∀ b1 a bt, XInt.blt a bt = true →
      (XInt.ble (recur b1 a bt).1 a = true →
        XInt.ble (tv b1) (recur b1 a bt).1 = true) ∧
      (XInt.ble bt (recur b1 a bt).1 = true →
        XInt.ble (recur b1 a bt).1 (tv b1) = true) ∧
      (XInt.blt a (recur b1 a bt).1 = true → XInt.blt (recur b1 a bt).1 bt = true →
        (recur b1 a bt).1 = tv b1)) :
    ∀ (ms : List Nat) (b : Board) (alpha beta bs : XInt) (bm : Option Nat),
      (∀ m ∈ ms, cell b m = Cell.E) →
      XInt.blt alpha beta = true →
      XInt.ble bs alpha = true →
      (XInt.ble (maxLoop recur computer ms b alpha beta bs bm).1 alpha = true →
        XInt.ble (ms.foldl (fun acc m => XInt.maxi acc (tv (b.set m computer))) bs)
          (maxLoop recur computer ms b alpha beta bs bm).1 = true) ∧
      (XInt.ble beta (maxLoop recur computer ms b alpha beta bs bm).1 = true →
        XInt.ble (maxLoop recur computer ms b alpha beta bs bm).1
          (ms.foldl (fun acc m => XInt.maxi acc (tv (b.set m computer))) bs) = true) ∧
      (XInt.blt alpha (maxLoop recur computer ms b alpha beta bs bm).1 = true →
        XInt.blt (maxLoop recur computer ms b alpha beta bs bm).1 beta = true →
        (maxLoop recur computer ms b alpha beta bs bm).1 =
          ms.foldl (fun acc m => XInt.maxi acc (tv (b.set m computer))) bs) := by
  intro ms
  induction ms with
  | nil =>
      intro b alpha beta bs bm _ _ _
      refine ⟨fun _ => ble_refl bs, fun _ => ble_refl bs, fun _ _ => rfl⟩
  | cons mv rest ih =>
      intro b alpha beta bs bm hleg hab hbsa
      have hba_false : XInt.ble beta alpha = false := ble_false_of_blt hab
      have hb2 : ((recur (b.set mv computer) alpha beta).2.2).set mv Cell.E = b := by
        rw [hrecb]
        exact set_restore (hleg mv (by simp)) computer
      have hlegr : ∀ m ∈ rest, cell b m = Cell.E :=
        fun m hm => hleg m (List.mem_cons_of_mem _ hm)
      rw [maxLoop_cons, List.foldl_cons, hb2]
      obtain ⟨hcl1, hcl2, hcl3⟩ := hFS (b.set mv computer) alpha beta hab
      by_cases hup : XInt.blt bs (recur (b.set mv computer) alpha beta).1 = true
      · rw [if_pos hup]
        have hbsr1 : XInt.ble bs (recur (b.set mv computer) alpha beta).1 :=
          ble_of_blt hup
        by_cases hbrk : XInt.ble beta
            (XInt.maxi alpha (recur (b.set mv computer) alpha beta).1) = true
        · -- break: beta <= r1
          rw [if_pos hbrk]
          have hbr1 : XInt.ble beta (recur (b.set mv computer) alpha beta).1 = true := by
            rcases ble_maxi_iff.mp hbrk with h | h
            · rw [hba_false] at h
              exact Bool.noConfusion h
            · exact h
          refine ⟨?_, ?_, ?_⟩
          · intro hga
            have hcon := ble_trans hbr1 hga
            rw [hba_false] at hcon
            exact Bool.noConfusion hcon
          · intro _
            exact ble_trans (hcl2 hbr1)
              (ble_trans (ble_right_maxi _ _) (ble_seed_foldl _ _))
          · intro _ hgb
            exact absurd hbr1 (fun hh => ble_blt_absurd hh hgb)
        · -- no break after an update
          rw [if_neg hbrk]
          have hbrkf : XInt.ble beta
              (XInt.maxi alpha (recur (b.set mv computer) alpha beta).1) = false := by
            simpa using hbrk
          by_cases hlow : XInt.ble (recur (b.set mv computer) alpha beta).1 alpha = true
          · -- the child failed low: the window did not move
            have hmaxa : XInt.maxi alpha (recur (b.set mv computer) alpha beta).1 =
                alpha := maxi_eq_left hlow
            rw [hmaxa]
            have hIH := ih b alpha beta (recur (b.set mv computer) alpha beta).1
              (some mv) hlegr hab hlow
            have htv : XInt.ble (tv (b.set mv computer))
                (recur (b.set mv computer) alpha beta).1 = true := hcl1 hlow
            have hseed : XInt.ble (XInt.maxi bs (tv (b.set mv computer)))
                (recur (b.set mv computer) alpha beta).1 = true :=
              maxi_ble hbsr1 htv
            have hMM : XInt.ble
                (rest.foldl (fun acc m => XInt.maxi acc (tv (b.set m computer)))
                  (XInt.maxi bs (tv (b.set mv computer))))
                (rest.foldl (fun acc m => XInt.maxi acc (tv (b.set m computer)))
                  (recur (b.set mv computer) alpha beta).1) = true :=
              foldl_maxi_mono hseed rest
            refine ⟨?_, ?_, ?_⟩
            · intro hga
              exact ble_trans hMM (hIH.1 hga)
            · intro hbg
              have hgM := hIH.2.1 hbg
              rw [foldl_maxi_split] at hgM
              rcases ble_maxi_iff.mp hgM with h | h
              · have hcon := ble_trans hbg (ble_trans h hlow)
                rw [hba_false] at hcon
                exact Bool.noConfusion hcon
              · rw [foldl_maxi_split]
                exact ble_trans h (ble_right_maxi _ _)
            · intro hag hgb
              have hgM := hIH.2.2 hag hgb
              rw [foldl_maxi_split] at hgM
              rcases maxi_cases (recur (b.set mv computer) alpha beta).1
                (rest.foldl (fun acc m => XInt.maxi acc (tv (b.set m computer)))
                  XInt.negInf) with hcase | hcase
              · rw [hcase] at hgM
                rw [hgM] at hag
                exact absurd hlow (fun hh => ble_blt_absurd hh hag)
              · rw [hcase] at hgM
                rw [foldl_maxi_split, hgM]
                refine (maxi_eq_right ?_).symm
                rw [← hgM]
                exact ble_trans hseed (ble_trans hlow (ble_of_blt hag))
          · -- the child is exact
            have hlowf : XInt.ble (recur (b.set mv computer) alpha beta).1 alpha = false := by
              simpa using hlow
            have har1 : XInt.blt alpha (recur (b.set mv computer) alpha beta).1 = true :=
              blt_true_of hlowf
            have hr1b : XInt.blt (recur (b.set mv computer) alpha beta).1 beta = true := by
              rcases hbb : XInt.ble beta (recur (b.set mv computer) alpha beta).1
              · exact blt_true_of hbb
              · exact absurd (ble_maxi_iff.mpr (Or.inr hbb)) (by rw [hbrkf]; simp)
            have hr1tv : (recur (b.set mv computer) alpha beta).1 =
                tv (b.set mv computer) := hcl3 har1 hr1b
            have hseedeq : XInt.maxi bs (tv (b.set mv computer)) =
                (recur (b.set mv computer) alpha beta).1 := by
              rw [← hr1tv]
              exact maxi_eq_right hbsr1
            rw [hseedeq]
            have hab' : XInt.blt
                (XInt.maxi alpha (recur (b.set mv computer) alpha beta).1) beta = true :=
              blt_true_of hbrkf
            have hbs' : XInt.ble (recur (b.set mv computer) alpha beta).1
                (XInt.maxi alpha (recur (b.set mv computer) alpha beta).1) = true :=
              ble_right_maxi _ _
            have hIH := ih b (XInt.maxi alpha (recur (b.set mv computer) alpha beta).1)
              beta (recur (b.set mv computer) alpha beta).1 (some mv) hlegr hab' hbs'
            have hale : XInt.ble alpha
                (XInt.maxi alpha (recur (b.set mv computer) alpha beta).1) = true :=
              ble_left_maxi _ _
            refine ⟨?_, ?_, ?_⟩
            · intro hga
              exact hIH.1 (ble_trans hga hale)
            · intro hbg
              exact hIH.2.1 hbg
            · intro hag hgb
              by_cases hcase : XInt.ble
                  (maxLoop recur computer rest b
                    (XInt.maxi alpha (recur (b.set mv computer) alpha beta).1) beta
                    (recur (b.set mv computer) alpha beta).1 (some mv)).1
                  (XInt.maxi alpha (recur (b.set mv computer) alpha beta).1) = true
              · -- the tail never improved: the result is the child value
                have hge : XInt.ble (recur (b.set mv computer) alpha beta).1
                    (maxLoop recur computer rest b
                      (XInt.maxi alpha (recur (b.set mv computer) alpha beta).1) beta
                      (recur (b.set mv computer) alpha beta).1 (some mv)).1 = true :=
                  maxLoop_ge_start _ _ _ _ _ _
                have hm2 : XInt.maxi alpha (recur (b.set mv computer) alpha beta).1 =
                    (recur (b.set mv computer) alpha beta).1 :=
                  maxi_eq_right (ble_of_blt har1)
                have hcase2 : XInt.ble (maxLoop recur computer rest b
                    (XInt.maxi alpha (recur (b.set mv computer) alpha beta).1) beta
                    (recur (b.set mv computer) alpha beta).1 (some mv)).1
                    (recur (b.set mv computer) alpha beta).1 = true :=
                  ble_trans hcase (by rw [hm2]; exact ble_refl _)
                have heq : (maxLoop recur computer rest b
                    (XInt.maxi alpha (recur (b.set mv computer) alpha beta).1) beta
                    (recur (b.set mv computer) alpha beta).1 (some mv)).1 =
                    (recur (b.set mv computer) alpha beta).1 :=
                  ble_antisymm hcase2 hge
                have hMg := hIH.1 hcase
                rw [heq] at hMg
                exact heq.trans (ble_antisymm (ble_seed_foldl _ _) hMg)
              · have hcf : XInt.ble
                    (maxLoop recur computer rest b
                      (XInt.maxi alpha (recur (b.set mv computer) alpha beta).1) beta
                      (recur (b.set mv computer) alpha beta).1 (some mv)).1
                    (XInt.maxi alpha (recur (b.set mv computer) alpha beta).1) = false := by
                  simpa using hcase
                exact hIH.2.2 (blt_true_of hcf) hgb
      · -- no update: r1 <= bs
        rw [if_neg hup]
        have hupf : XInt.blt bs (recur (b.set mv computer) alpha beta).1 = false := by
          simpa using hup
        have hr1bs : XInt.ble (recur (b.set mv computer) alpha beta).1 bs = true := by
          rw [blt_spec] at hupf
          rcases hbb : XInt.ble (recur (b.set mv computer) alpha beta).1 bs
          · rw [hbb] at hupf
            exact absurd hupf (by simp)
          · rfl
        have hmaxa : XInt.maxi alpha bs = alpha := maxi_eq_left hbsa
        rw [hmaxa, if_neg (by rw [hba_false]; simp)]
        have htv : XInt.ble (tv (b.set mv computer)) bs = true :=
          ble_trans (hcl1 (ble_trans hr1bs hbsa)) hr1bs
        have hseedeq : XInt.maxi bs (tv (b.set mv computer)) = bs := maxi_eq_left htv
        rw [hseedeq]
        exact ih b alpha beta bs bm hlegr hab hbsa

theorem minLoopFS {recur : Board → XInt → XInt → XInt × Option Nat × Board}
    {player : Cell} (tv : Board → XInt)
    (hrecb : ∀ b1 a bt, (recur b1 a bt).2.2 = b1)
    (hFS : ∀ b1 a bt, XInt.blt a bt = true →
      (XInt.ble (recur b1 a bt).1 a = true →
        XInt.ble (tv b1) (recur b1 a bt).1 = true) ∧
      (XInt.ble bt (recur b1 a bt).1 = true →
        XInt.ble (recur b1 a bt).1 (tv b1) = true) ∧
      (XInt.blt a (recur b1 a bt).1 = true → XInt.blt (recur b1 a bt).1 bt = true →
        (recur b1 a bt).1 = tv b1)) :
    ∀ (ms : List Nat) (b : Board) (alpha beta bs : XInt) (bm : Option Nat),
      (∀ m ∈ ms, cell b m = Cell.E) →
      XInt.blt alpha beta = true →
      XInt.ble beta bs = true →
      (XInt.ble beta (minLoop recur player ms b alpha beta bs bm).1 = true →
        XInt.ble (minLoop recur player ms b alpha beta bs bm).1
          (ms.foldl (fun acc m => XInt.mini acc (tv (b.set m player))) bs) = true) ∧
      (XInt.ble (minLoop recur player ms b alpha beta bs bm).1 alpha = true →
        XInt.ble (ms.foldl (fun acc m => XInt.mini acc (tv (b.set m player))) bs)
          (minLoop recur player ms b alpha beta bs bm).1 = true) ∧
      (XInt.blt alpha (minLoop recur player ms b alpha beta bs bm).1 = true →
        XInt.blt (minLoop recur player ms b alpha beta bs bm).1 beta = true →
        (minLoop recur player ms b alpha beta bs bm).1 =
          ms.foldl (fun acc m => XInt.mini acc (tv (b.set m player))) bs) := by
  intro ms
  induction ms with
  | nil =>
      intro b alpha beta bs bm _ _ _
      refine ⟨fun _ => ble_refl bs, fun _ => ble_refl bs, fun _ _ => rfl⟩
  | cons mv rest ih =>
      intro b alpha beta bs bm hleg hab hbbs
      have hba_false : XInt.ble beta alpha = false := ble_false_of_blt hab
      have hb2 : ((recur (b.set mv player) alpha beta).2.2).set mv Cell.E = b := by
        rw [hrecb]
        exact set_restore (hleg mv (by simp)) player
      have hlegr : ∀ m ∈ rest, cell b m = Cell.E :=
        fun m hm => hleg m (List.mem_cons_of_mem _ hm)
      rw [minLoop_cons, List.foldl_cons, hb2]
      obtain ⟨hcl1, hcl2, hcl3⟩ := hFS (b.set mv player) alpha beta hab
      by_cases hup : XInt.blt (recur (b.set mv player) alpha beta).1 bs = true
      · rw [if_pos hup]
        have hr1bs : XInt.ble (recur (b.set mv player) alpha beta).1 bs :=
          ble_of_blt hup
        by_cases hbrk : XInt.ble
            (XInt.mini beta (recur (b.set mv player) alpha beta).1) alpha = true
        · -- break: r1 <= alpha
          rw [if_pos hbrk]
          have hr1a : XInt.ble (recur (b.set mv player) alpha beta).1 alpha = true := by
            rcases mini_ble_iff.mp hbrk with h | h
            · rw [hba_false] at h
              exact Bool.noConfusion h
            · exact h
          refine ⟨?_, ?_, ?_⟩
          · intro hbg
            have hcon := ble_trans hbg hr1a
            rw [hba_false] at hcon
            exact Bool.noConfusion hcon
          · intro _
            exact ble_trans
              ((foldl_mini_ble _ _).mpr (Or.inl (ble_refl _)))
              (ble_trans (mini_ble_right _ _) (hcl1 hr1a))
          · intro hag _
            exact absurd hr1a (fun hh => ble_blt_absurd hh hag)
        · -- no break after an update
          rw [if_neg hbrk]
          have hbrkf : XInt.ble
              (XInt.mini beta (recur (b.set mv player) alpha beta).1) alpha = false := by
            simpa using hbrk
          by_cases hhigh : XInt.ble beta (recur (b.set mv player) alpha beta).1 = true
          · -- the child failed high: the window did not move
            have hminb : XInt.mini beta (recur (b.set mv player) alpha beta).1 =
                beta := mini_eq_left hhigh
            rw [hminb]
            have hIH := ih b alpha beta (recur (b.set mv player) alpha beta).1
              (some mv) hlegr hab hhigh
            have htv : XInt.ble (recur (b.set mv player) alpha beta).1
                (tv (b.set mv player)) = true := hcl2 hhigh
            have hseed : XInt.ble (recur (b.set mv player) alpha beta).1
                (XInt.mini bs (tv (b.set mv player))) = true :=
              ble_mini hr1bs htv
            have hMM : XInt.ble
                (rest.foldl (fun acc m => XInt.mini acc (tv (b.set m player)))
                  (recur (b.set mv player) alpha beta).1)
                (rest.foldl (fun acc m => XInt.mini acc (tv (b.set m player)))
                  (XInt.mini bs (tv (b.set mv player)))) = true :=
              foldl_mini_mono hseed rest
            refine ⟨?_, ?_, ?_⟩
            · intro hbg
              exact ble_trans (hIH.1 hbg) hMM
            · intro hga
              have hgM := hIH.2.1 hga
              rw [foldl_mini_split] at hgM
              rcases mini_ble_iff.mp hgM with h | h
              · have hcon := ble_trans hhigh (ble_trans h hga)
                rw [hba_false] at hcon
                exact Bool.noConfusion hcon
              · rw [foldl_mini_split]
                exact ble_trans (mini_ble_right _ _) h
            · intro hag hgb
              have hgM := hIH.2.2 hag hgb
              rw [foldl_mini_split] at hgM
              rcases mini_cases (recur (b.set mv player) alpha beta).1
                (rest.foldl (fun acc m => XInt.mini acc (tv (b.set m player)))
                  XInt.posInf) with hcase | hcase
              · rw [hcase] at hgM
                rw [hgM] at hgb
                exact absurd hhigh (fun hh => ble_blt_absurd hh hgb)
              · rw [hcase] at hgM
                rw [foldl_mini_split, hgM]
                refine (mini_eq_right ?_).symm
                rw [← hgM]
                exact ble_trans (ble_trans (ble_of_blt hgb) hhigh) hseed
          · -- the child is exact
            have hhighf : XInt.ble beta (recur (b.set mv player) alpha beta).1 = false := by
              simpa using hhigh
            have hr1b : XInt.blt (recur (b.set mv player) alpha beta).1 beta = true :=
              blt_true_of hhighf
            have har1 : XInt.blt alpha (recur (b.set mv player) alpha beta).1 = true := by
              rcases haa : XInt.ble (recur (b.set mv player) alpha beta).1 alpha
              · exact blt_true_of haa
              · exact absurd (mini_ble_iff.mpr (Or.inr haa)) (by rw [hbrkf]; simp)
            have hr1tv : (recur (b.set mv player) alpha beta).1 =
                tv (b.set mv player) := hcl3 har1 hr1b
            have hseedeq : XInt.mini bs (tv (b.set mv player)) =
                (recur (b.set mv player) alpha beta).1 := by
              rw [← hr1tv]
              exact mini_eq_right hr1bs
            rw [hseedeq]
            have hab' : XInt.blt alpha
                (XInt.mini beta (recur (b.set mv player) alpha beta).1) = true :=
              blt_true_of hbrkf
            have hbs' : XInt.ble (XInt.mini beta (recur (b.set mv player) alpha beta).1)
                (recur (b.set mv player) alpha beta).1 = true :=
              mini_ble_right _ _
            have hIH := ih b alpha (XInt.mini beta (recur (b.set mv player) alpha beta).1)
              (recur (b.set mv player) alpha beta).1 (some mv) hlegr hab' hbs'
            have hble : XInt.ble
                (XInt.mini beta (recur (b.set mv player) alpha beta).1) beta = true :=
              mini_ble_left _ _
            refine ⟨?_, ?_, ?_⟩
            · intro hbg
              exact hIH.1 (ble_trans hble hbg)
            · intro hga
              exact hIH.2.1 hga
            · intro hag hgb
              by_cases hcase : XInt.ble
                  (XInt.mini beta (recur (b.set mv player) alpha beta).1)
                  (minLoop recur player rest b alpha
                    (XInt.mini beta (recur (b.set mv player) alpha beta).1)
                    (recur (b.set mv player) alpha beta).1 (some mv)).1 = true
              · -- the tail never improved: the result is the child value
                have hge : XInt.ble
                    (minLoop recur player rest b alpha
                      (XInt.mini beta (recur (b.set mv player) alpha beta).1)
                      (recur (b.set mv player) alpha beta).1 (some mv)).1
                    (recur (b.set mv player) alpha beta).1 = true :=
                  minLoop_le_start _ _ _ _ _ _
                have hm2 : XInt.mini beta (recur (b.set mv player) alpha beta).1 =
                    (recur (b.set mv player) alpha beta).1 :=
                  mini_eq_right (ble_of_blt hr1b)
                have hcase2 : XInt.ble (recur (b.set mv player) alpha beta).1
                    (minLoop recur player rest b alpha
                      (XInt.mini beta (recur (b.set mv player) alpha beta).1)
                      (recur (b.set mv player) alpha beta).1 (some mv)).1 = true :=
                  ble_trans (by rw [hm2]; exact ble_refl _) hcase
                have heq : (minLoop recur player rest b alpha
                    (XInt.mini beta (recur (b.set mv player) alpha beta).1)
                    (recur (b.set mv player) alpha beta).1 (some mv)).1 =
                    (recur (b.set mv player) alpha beta).1 :=
                  ble_antisymm hge hcase2
                have hMg := hIH.1 hcase
                rw [heq] at hMg
                exact heq.trans (ble_antisymm hMg
                  ((foldl_mini_ble _ _).mpr (Or.inl (ble_refl _))))
              · have hcf : XInt.ble
                    (XInt.mini beta (recur (b.set mv player) alpha beta).1)
                    (minLoop recur player rest b alpha
                      (XInt.mini beta (recur (b.set mv player) alpha beta).1)
                      (recur (b.set mv player) alpha beta).1 (some mv)).1 = false := by
                  simpa using hcase
                exact hIH.2.2 hag (blt_true_of hcf)
      · -- no update: bs <= r1
        rw [if_neg hup]
        have hupf : XInt.blt (recur (b.set mv player) alpha beta).1 bs = false := by
          simpa using hup
        have hbsr1 : XInt.ble bs (recur (b.set mv player) alpha beta).1 = true := by
          rw [blt_spec] at hupf
          rcases hbb : XInt.ble bs (recur (b.set mv player) alpha beta).1
          · rw [hbb] at hupf
            exact absurd hupf (by simp)
          · rfl
        have hminb : XInt.mini beta bs = beta := mini_eq_left hbbs
        rw [hminb, if_neg (by rw [hba_false]; simp)]
        have htv : XInt.ble bs (tv (b.set mv player)) = true :=
          ble_trans hbsr1 (hcl2 (ble_trans hbbs hbsr1))
        have hseedeq : XInt.mini bs (tv (b.set mv player)) = bs := mini_eq_left htv
        rw [hseedeq]
        exact ih b alpha beta bs bm hlegr hab hbbs

theorem minimaxFS : ∀ (fuel : Nat) (b : Board) (depth : Nat) (is_max : Bool)
    (computer player : Cell) (alpha beta : XInt),
    XInt.blt alpha beta = true →
    (XInt.ble (minimaxF fuel b depth is_max computer player alpha beta).1 alpha = true →
      XInt.ble (nbVal fuel b depth is_max computer player)
        (minimaxF fuel b depth is_max computer player alpha beta).1 = true) ∧
    (XInt.ble beta (minimaxF fuel b depth is_max computer player alpha beta).1 = true →
      XInt.ble (minimaxF fuel b depth is_max computer player alpha beta).1
        (nbVal fuel b depth is_max computer player) = true) ∧
    (XInt.blt alpha (minimaxF fuel b depth is_max computer player alpha beta).1 = true →
      XInt.blt (minimaxF fuel b depth is_max computer player alpha beta).1 beta = true →
      (minimaxF fuel b depth is_max computer player alpha beta).1 =
        nbVal fuel b depth is_max computer player) := by
  intro fuel
  induction fuel with
  | zero =>
      intro b depth is_max computer player alpha beta _
      exact ⟨fun _ => ble_refl _, fun _ => ble_refl _, fun _ _ => rfl⟩
  | succ fuel ih =>
      intro b depth is_max computer player alpha beta hab
      by_cases hwc : check_winner b = some computer
      · have h1 : (minimaxF (fuel + 1) b depth is_max computer player alpha beta).1 =
            XInt.num (10 - (depth : Int)) := by
          rw [minimaxF_succ, if_pos hwc]
        have h2 : nbVal (fuel + 1) b depth is_max computer player =
            XInt.num (10 - (depth : Int)) := by
          show (minimaxNB (fuel + 1) b depth is_max computer player
              XInt.negInf XInt.posInf).1 = _
          rw [minimaxNB_succ, if_pos hwc]
        rw [h1, h2]
        exact ⟨fun _ => ble_refl _, fun _ => ble_refl _, fun _ _ => rfl⟩
      · by_cases hwp : check_winner b = some player
        · have h1 : (minimaxF (fuel + 1) b depth is_max computer player alpha beta).1 =
              XInt.num ((depth : Int) - 10) := by
            rw [minimaxF_succ, if_neg hwc, if_pos hwp]
          have h2 : nbVal (fuel + 1) b depth is_max computer player =
              XInt.num ((depth : Int) - 10) := by
            show (minimaxNB (fuel + 1) b depth is_max computer player
                XInt.negInf XInt.posInf).1 = _
            rw [minimaxNB_succ, if_neg hwc, if_pos hwp]
          rw [h1, h2]
          exact ⟨fun _ => ble_refl _, fun _ => ble_refl _, fun _ _ => rfl⟩
        · by_cases hdr : is_draw b = true
          · have h1 : (minimaxF (fuel + 1) b depth is_max computer player alpha beta).1 =
                XInt.num 0 := by
              rw [minimaxF_succ, if_neg hwc, if_neg hwp, if_pos hdr]
            have h2 : nbVal (fuel + 1) b depth is_max computer player = XInt.num 0 := by
              show (minimaxNB (fuel + 1) b depth is_max computer player
                  XInt.negInf XInt.posInf).1 = _
              rw [minimaxNB_succ, if_neg hwc, if_neg hwp, if_pos hdr]
            rw [h1, h2]
            exact ⟨fun _ => ble_refl _, fun _ => ble_refl _, fun _ _ => rfl⟩
          · have hdrf : is_draw b = false := by
              simpa using hdr
            cases is_max with
            | true =>
                have hm1 : minimaxF (fuel + 1) b depth true computer player alpha beta =
                    maxLoop (fun b1 a bt =>
                        minimaxF fuel b1 (depth + 1) false computer player a bt)
                      computer (available_moves b) b alpha beta XInt.negInf none := by
                  rw [minimaxF_succ, if_neg hwc, if_neg hwp, if_neg (by simp [hdrf]),
                    if_pos rfl]
                have hnb : nbVal (fuel + 1) b depth true computer player =
                    (available_moves b).foldl (fun acc m =>
                      XInt.maxi acc
                        (nbVal fuel (b.set m computer) (depth + 1) false computer player))
                      XInt.negInf := by
                  show (minimaxNB (fuel + 1) b depth true computer player
                      XInt.negInf XInt.posInf).1 = _
                  rw [minimaxNB_succ, if_neg hwc, if_neg hwp, if_neg (by simp [hdrf]),
                    if_pos rfl]
                  exact maxLoopNB_score
                    (fun b1 a bt => minimaxNB_board fuel b1 _ _ _ _ a bt)
                    (fun b1 a bt a' bt' => minimaxNB_window fuel b1 _ _ _ _ a bt a' bt')
                    _ b _ _ _ _ (fun m hm => (mem_available.mp hm).2)
                have hFSloop := @maxLoopFS
                  (fun b1 a bt => minimaxF fuel b1 (depth + 1) false computer player a bt)
                  computer
                  (fun b1 => nbVal fuel b1 (depth + 1) false computer player)
                  (fun b1 a bt =>
                    minimaxF_board fuel b1 (depth + 1) false computer player a bt)
                  (fun b1 a bt h1 => ih b1 (depth + 1) false computer player a bt h1)
                  (available_moves b) b alpha beta XInt.negInf none
                  (fun m hm => (mem_available.mp hm).2) hab (ble_negInf_left alpha)
                rw [hm1, hnb]
                exact hFSloop
            | false =>
                have hm1 : minimaxF (fuel + 1) b depth false computer player alpha beta =
                    minLoop (fun b1 a bt =>
                        minimaxF fuel b1 (depth + 1) true computer player a bt)
                      player (available_moves b) b alpha beta XInt.posInf none := by
                  rw [minimaxF_succ, if_neg hwc, if_neg hwp, if_neg (by simp [hdrf]),
                    if_neg (by simp)]
                have hnb : nbVal (fuel + 1) b depth false computer player =
                    (available_moves b).foldl (fun acc m =>
                      XInt.mini acc
                        (nbVal fuel (b.set m player) (depth + 1) true computer player))
                      XInt.posInf := by
                  show (minimaxNB (fuel + 1) b depth false computer player
                      XInt.negInf XInt.posInf).1 = _
                  rw [minimaxNB_succ, if_neg hwc, if_neg hwp, if_neg (by simp [hdrf]),
                    if_neg (by simp)]
                  exact minLoopNB_score
                    (fun b1 a bt => minimaxNB_board fuel b1 _ _ _ _ a bt)
                    (fun b1 a bt a' bt' => minimaxNB_window fuel b1 _ _ _ _ a bt a' bt')
                    _ b _ _ _ _ (fun m hm => (mem_available.mp hm).2)
                have hFSloop := @minLoopFS
                  (fun b1 a bt => minimaxF fuel b1 (depth + 1) true computer player a bt)
                  player
                  (fun b1 => nbVal fuel b1 (depth + 1) true computer player)
                  (fun b1 a bt =>
                    minimaxF_board fuel b1 (depth + 1) true computer player a bt)
                  (fun b1 a bt h1 => ih b1 (depth + 1) true computer player a bt h1)
                  (available_moves b) b alpha beta XInt.posInf none
                  (fun m hm => (mem_available.mp hm).2) hab (ble_posInf_right beta)
                rw [hm1, hnb]
                exact ⟨hFSloop.2.1, hFSloop.1, hFSloop.2.2⟩

theorem ble_posInf_num (n : Int) : XInt.ble XInt.posInf (XInt.num n) = false := rfl

theorem maxLoopNB_cons (recur : Board → XInt → XInt → XInt × Option Nat × Board)
    (computer : Cell) (mv : Nat) (rest : List Nat) (b : Board)
    (alpha beta bs : XInt) (bm : Option Nat) :
    maxLoopNB recur computer (mv :: rest) b alpha beta bs bm =
      if XInt.blt bs (recur (b.set mv computer) alpha beta).1 then
        maxLoopNB recur computer rest
          (((recur (b.set mv computer) alpha beta).2.2).set mv Cell.E)
          (XInt.maxi alpha (recur (b.set mv computer) alpha beta).1) beta
          (recur (b.set mv computer) alpha beta).1 (some mv)
      else
        maxLoopNB recur computer rest
          (((recur (b.set mv computer) alpha beta).2.2).set mv Cell.E)
          (XInt.maxi alpha bs) beta bs bm := by
  show (let b1 := b.set mv computer
        let r := recur b1 alpha beta
        let b2 := r.2.2.set mv Cell.E
        let best' := if XInt.blt bs r.1 then (r.1, some mv) else (bs, bm)
        let alpha' := XInt.maxi alpha best'.1
        maxLoopNB recur computer rest b2 alpha' beta best'.1 best'.2) = _
  by_cases h : XInt.blt bs (recur (b.set mv computer) alpha beta).1 = true
  · simp only [h, if_true, if_pos]
  · simp only [h, if_false, Bool.false_eq_true, if_neg]

theorem rootLoopSync {fuel depth : Nat} {computer player : Cell} :
    ∀ (ms : List Nat) (b : Board) (bs : XInt) (bm : Option Nat),
      (∀ m ∈ ms, cell b m = Cell.E) →
      marksOnly b computer player →
      XInt.blt bs XInt.posInf = true →
      maxLoop (fun b1 a bt => minimaxF fuel b1 depth false computer player a bt)
        computer ms b bs XInt.posInf bs bm =
      maxLoopNB (fun b1 a bt => minimaxNB fuel b1 depth false computer player a bt)
        computer ms b bs XInt.posInf bs bm := by
  intro ms
  induction ms with
  | nil => intro b bs bm _ _ _; rfl
  | cons mv rest ih =>
      intro b bs bm hleg hmarks hbs
      have hbmem : cell b mv = Cell.E := hleg mv (by simp)
      have hlegr : ∀ m ∈ rest, cell b m = Cell.E :=
        fun m hm => hleg m (List.mem_cons_of_mem _ hm)
      have hmarks1 : marksOnly (b.set mv computer) computer player :=
        marksOnly_set hmarks mv (Or.inl rfl)
      obtain ⟨n1, hn1⟩ := minimaxF_num fuel (b.set mv computer) depth false
        bs XInt.posInf hmarks1
      have hfs := minimaxFS fuel (b.set mv computer) depth false computer player
        bs XInt.posInf hbs
      have hval : nbVal fuel (b.set mv computer) depth false computer player =
          (minimaxNB fuel (b.set mv computer) depth false computer player
            bs XInt.posInf).1 := by
        show (minimaxNB fuel (b.set mv computer) depth false computer player
          XInt.negInf XInt.posInf).1 = _
        rw [minimaxNB_window fuel (b.set mv computer) depth false computer player
          XInt.negInf XInt.posInf bs XInt.posInf]
      have hb2F : ((minimaxF fuel (b.set mv computer) depth false computer player
          bs XInt.posInf).2.2).set mv Cell.E = b := by
        rw [minimaxF_board]
        exact set_restore hbmem computer
      have hb2N : ((minimaxNB fuel (b.set mv computer) depth false computer player
          bs XInt.posInf).2.2).set mv Cell.E = b := by
        rw [minimaxNB_board]
        exact set_restore hbmem computer
      simp only [maxLoop_cons, maxLoopNB_cons]
      by_cases hup : XInt.blt bs (minimaxF fuel (b.set mv computer) depth false
          computer player bs XInt.posInf).1 = true
      · have hlt2 : XInt.blt (minimaxF fuel (b.set mv computer) depth false
            computer player bs XInt.posInf).1 XInt.posInf = true := by
          rw [hn1]
          exact blt_num_posInf n1
        have hEQ : (minimaxF fuel (b.set mv computer) depth false computer player
            bs XInt.posInf).1 = (minimaxNB fuel (b.set mv computer) depth false
            computer player bs XInt.posInf).1 := by
          rw [hfs.2.2 hup hlt2]
          exact hval
        have hupN : XInt.blt bs (minimaxNB fuel (b.set mv computer) depth false
            computer player bs XInt.posInf).1 = true := by
          rw [← hEQ]
          exact hup
        rw [if_pos hup, if_pos hupN]
        have hmaxv : XInt.maxi bs (minimaxF fuel (b.set mv computer) depth false
            computer player bs XInt.posInf).1 = (minimaxF fuel (b.set mv computer)
            depth false computer player bs XInt.posInf).1 :=
          maxi_eq_right (ble_of_blt hup)
        rw [hmaxv, if_neg (by rw [hn1]; simp [ble_posInf_num]), hb2F, hb2N,
          ← hEQ, hmaxv]
        exact ih b (minimaxF fuel (b.set mv computer) depth false computer player
          bs XInt.posInf).1 (some mv) hlegr hmarks (by rw [hn1]; exact blt_num_posInf n1)
      · have hle : XInt.ble (minimaxF fuel (b.set mv computer) depth false
            computer player bs XInt.posInf).1 bs = true := by
          have hupf : XInt.blt bs (minimaxF fuel (b.set mv computer) depth false
              computer player bs XInt.posInf).1 = false := by
            simpa using hup
          rw [blt_spec] at hupf
          rcases hbb : XInt.ble (minimaxF fuel (b.set mv computer) depth false
              computer player bs XInt.posInf).1 bs
          · rw [hbb] at hupf
            exact absurd hupf (by simp)
          · rfl
        have hnb_le : XInt.ble (minimaxNB fuel (b.set mv computer) depth false
            computer player bs XInt.posInf).1 bs = true := by
          have h1 := hfs.1 hle
          rw [hval] at h1
          exact ble_trans h1 hle
        have hupN : XInt.blt bs (minimaxNB fuel (b.set mv computer) depth false
            computer player bs XInt.posInf).1 = false := by
          rw [blt_spec, hnb_le]
          rfl
        have hmaxbs : XInt.maxi bs bs = bs := maxi_eq_left (ble_refl bs)
        rw [if_neg hup, hmaxbs, if_neg (by simp [ble_false_of_blt hbs]),
          if_neg (by simp [hupN]), hb2F, hb2N]
        exact ih b bs bm hlegr hmarks hbs

theorem minimaxF_eq_NB_root {fuel depth : Nat} {b : Board}
    {computer player : Cell} (hmarks : marksOnly b computer player) :
    minimaxF (fuel + 1) b depth true computer player XInt.negInf XInt.posInf =
      minimaxNB (fuel + 1) b depth true computer player XInt.negInf XInt.posInf := by
  by_cases hwc : check_winner b = some computer
  · rw [minimaxF_succ, minimaxNB_succ, if_pos hwc, if_pos hwc]
  · by_cases hwp : check_winner b = some player
    · rw [minimaxF_succ, minimaxNB_succ, if_neg hwc, if_neg hwc, if_pos hwp,
        if_pos hwp]
    · by_cases hdr : is_draw b = true
      · rw [minimaxF_succ, minimaxNB_succ, if_neg hwc, if_neg hwc, if_neg hwp,
          if_neg hwp, if_pos hdr, if_pos hdr]
      · rw [minimaxF_succ, minimaxNB_succ, if_neg hwc, if_neg hwc, if_neg hwp,
          if_neg hwp, if_neg hdr, if_neg hdr, if_pos rfl, if_pos rfl]
        exact rootLoopSync (available_moves b) b XInt.negInf none
          (fun m hm => (mem_available.mp hm).2) hmarks rfl

theorem minimaxF_root_val {fuel : Nat} {b : Board} {depth : Nat} {is_max : Bool}
    {computer player : Cell} (hmarks : marksOnly b computer player) :
    (minimaxF fuel b depth is_max computer player XInt.negInf XInt.posInf).1 =
      nbVal fuel b depth is_max computer player := by
  obtain ⟨n, hn⟩ := minimaxF_num fuel b depth is_max XInt.negInf XInt.posInf hmarks
  exact (minimaxFS fuel b depth is_max computer player XInt.negInf XInt.posInf
    rfl).2.2 (by rw [hn]; exact blt_negInf_num n) (by rw [hn]; exact blt_num_posInf n)

theorem marksOnly_of_forall {b : Board} {c p : Cell}
    (h : ∀ v ∈ b, v = Cell.E ∨ v = c ∨ v = p) : marksOnly b c p := by
  intro i
  unfold cell
  by_cases hi : i < b.length
  · rw [List.getD_eq_getElem b Cell.E hi]
    exact h b[i] (List.getElem_mem hi)
  · rw [List.getD_eq_default]
    · exact Or.inl rfl
    · omega

theorem winScan_some_of_ex {mark : Cell} {ms : List Nat} {b : Board}
    (hleg : ∀ m ∈ ms, cell b m = Cell.E)
    (hex : ∃ m ∈ ms, check_winner (b.set m mark) = some mark) :
    ∃ m, (winScan mark b ms).1 = some m ∧ m ∈ ms ∧
      check_winner (b.set m mark) = some mark := by
  rcases ho : (winScan mark b ms).1 with _ | m
  · obtain ⟨m, hm, hwm⟩ := hex
    exact absurd hwm ((winScan_none hleg).mp ho m hm)
  · obtain ⟨hm, hwm⟩ := winScan_some hleg ho
    exact ⟨m, rfl, hm, hwm⟩

theorem gbm_center {b : Board} {computer player : Cell} (h4 : cell b 4 = Cell.E)
    (hw : check_winner (b.set 4 computer) = some computer) :
    get_best_move b computer player = (some 4, b) := by
  unfold get_best_move
  rw [if_pos h4, if_pos hw, set_restore h4 computer]

theorem gbm_tier2 {b : Board} {computer player : Cell} {m : Nat}
    (havail : ∀ m' ∈ available_moves b, cell b m' = Cell.E)
    (hnc : ¬(cell b 4 = Cell.E ∧ check_winner (b.set 4 computer) = some computer))
    (hscan : (winScan computer b (available_moves b)).1 = some m) :
    get_best_move b computer player = (some m, b) := by
  have hrest : (match winScan computer b (available_moves b) with
      | (some m, b2) => (some m, b2)
      | (none, b2) =>
        match winScan player b2 (available_moves b2) with
        | (some m, b3) => (some m, b3)
        | (none, b3) =>
            ((minimaxF 10 b3 0 true computer player XInt.negInf XInt.posInf).2.1,
             (minimaxF 10 b3 0 true computer player XInt.negInf XInt.posInf).2.2))
      = (some m, b) := by
    rcases hsc : winScan computer b (available_moves b) with ⟨o1, bb1⟩
    have hbb1 : bb1 = b := by
      have hh := winScan_board computer (available_moves b) b havail
      rw [hsc] at hh
      exact hh
    rw [hsc] at hscan
    simp only at hscan
    rw [hscan, hbb1]
  unfold get_best_move
  by_cases h4 : cell b 4 = Cell.E
  · have hw4 : ¬ check_winner (b.set 4 computer) = some computer :=
      fun hh => hnc ⟨h4, hh⟩
    rw [if_pos h4, if_neg hw4, set_restore h4 computer]
    exact hrest
  · rw [if_neg h4]
    exact hrest

theorem gbm_tier3 {b : Board} {computer player : Cell} {m : Nat}
    (havail : ∀ m' ∈ available_moves b, cell b m' = Cell.E)
    (hnc : ¬(cell b 4 = Cell.E ∧ check_winner (b.set 4 computer) = some computer))
    (hc : (winScan computer b (available_moves b)).1 = none)
    (hscan : (winScan player b (available_moves b)).1 = some m) :
    get_best_move b computer player = (some m, b) := by
  have hrest : (match winScan computer b (available_moves b) with
      | (some m, b2) => (some m, b2)
      | (none, b2) =>
        match winScan player b2 (available_moves b2) with
        | (some m, b3) => (some m, b3)
        | (none, b3) =>
            ((minimaxF 10 b3 0 true computer player XInt.negInf XInt.posInf).2.1,
             (minimaxF 10 b3 0 true computer player XInt.negInf XInt.posInf).2.2))
      = (some m, b) := by
    rcases hsc : winScan computer b (available_moves b) with ⟨o1, bb1⟩
    have hbb1 : bb1 = b := by
      have hh := winScan_board computer (available_moves b) b havail
      rw [hsc] at hh
      exact hh
    rw [hsc] at hc
    simp only at hc
    rw [hc, hbb1]
    show (match winScan player b (available_moves b) with
      | (some m, b3) => (some m, b3)
      | (none, b3) =>
          ((minimaxF 10 b3 0 true computer player XInt.negInf XInt.posInf).2.1,
           (minimaxF 10 b3 0 true computer player XInt.negInf XInt.posInf).2.2))
      = (some m, b)
    rcases hsp : winScan player b (available_moves b) with ⟨o2, bb2⟩
    have hbb2 : bb2 = b := by
      have hh := winScan_board player (available_moves b) b havail
      rw [hsp] at hh
      exact hh
    rw [hsp] at hscan
    simp only at hscan
    rw [hscan, hbb2]
  unfold get_best_move
  by_cases h4 : cell b 4 = Cell.E
  · have hw4 : ¬ check_winner (b.set 4 computer) = some computer :=
      fun hh => hnc ⟨h4, hh⟩
    rw [if_pos h4, if_neg hw4, set_restore h4 computer]
    exact hrest
  · rw [if_neg h4]
    exact hrest

theorem gbm_tier4 {b : Board} {computer player : Cell}
    (havail : ∀ m' ∈ available_moves b, cell b m' = Cell.E)
    (hnc : ¬(cell b 4 = Cell.E ∧ check_winner (b.set 4 computer) = some computer))
    (hc : (winScan computer b (available_moves b)).1 = none)
    (hp : (winScan player b (available_moves b)).1 = none) :
    get_best_move b computer player =
      ((minimaxF 10 b 0 true computer player XInt.negInf XInt.posInf).2.1,
       (minimaxF 10 b 0 true computer player XInt.negInf XInt.posInf).2.2) := by
  have hrest : (match winScan computer b (available_moves b) with
      | (some m, b2) => (some m, b2)
      | (none, b2) =>
        match winScan player b2 (available_moves b2) with
        | (some m, b3) => (some m, b3)
        | (none, b3) =>
            ((minimaxF 10 b3 0 true computer player XInt.negInf XInt.posInf).2.1,
             (minimaxF 10 b3 0 true computer player XInt.negInf XInt.posInf).2.2))
      = ((minimaxF 10 b 0 true computer player XInt.negInf XInt.posInf).2.1,
         (minimaxF 10 b 0 true computer player XInt.negInf XInt.posInf).2.2) := by
    rcases hsc : winScan computer b (available_moves b) with ⟨o1, bb1⟩
    have hbb1 : bb1 = b := by
      have hh := winScan_board computer (available_moves b) b havail
      rw [hsc] at hh
      exact hh
    rw [hsc] at hc
    simp only at hc
    rw [hc, hbb1]
    show (match winScan player b (available_moves b) with
      | (some m, b3) => (some m, b3)
      | (none, b3) =>
          ((minimaxF 10 b3 0 true computer player XInt.negInf XInt.posInf).2.1,
           (minimaxF 10 b3 0 true computer player XInt.negInf XInt.posInf).2.2))
      = ((minimaxF 10 b 0 true computer player XInt.negInf XInt.posInf).2.1,
         (minimaxF 10 b 0 true computer player XInt.negInf XInt.posInf).2.2)
    rcases hsp : winScan player b (available_moves b) with ⟨o2, bb2⟩
    have hbb2 : bb2 = b := by
      have hh := winScan_board player (available_moves b) b havail
      rw [hsp] at hh
      exact hh
    rw [hsp] at hp
    simp only at hp
    rw [hp, hbb2]
  unfold get_best_move
  by_cases h4 : cell b 4 = Cell.E
  · have hw4 : ¬ check_winner (b.set 4 computer) = some computer :=
      fun hh => hnc ⟨h4, hh⟩
    rw [if_pos h4, if_neg hw4, set_restore h4 computer]
    exact hrest
  · rw [if_neg h4]
    exact hrest

theorem gbm_wins {b : Board} {computer player : Cell}
    (hex : ∃ m ∈ available_moves b, check_winner (b.set m computer) = some computer) :
    ∃ m, get_best_move b computer player = (some m, b) ∧
      check_winner (b.set m computer) = some computer := by
  have havail : ∀ m' ∈ available_moves b, cell b m' = Cell.E :=
    fun m hm => (mem_available.mp hm).2
  by_cases hc4 : cell b 4 = Cell.E ∧ check_winner (b.set 4 computer) = some computer
  · exact ⟨4, gbm_center hc4.1 hc4.2, hc4.2⟩
  · obtain ⟨m, hm, _, hwm⟩ := winScan_some_of_ex havail hex
    exact ⟨m, gbm_tier2 havail hc4 hm, hwm⟩

theorem gbm_blocks {b : Board} {computer player : Cell} (hlen : b.length = 9)
    (hnow : ∀ m ∈ available_moves b, check_winner (b.set m computer) ≠ some computer)
    (hex : ∃ m ∈ available_moves b, check_winner (b.set m player) = some player) :
    ∃ m, get_best_move b computer player = (some m, b) ∧
      check_winner (b.set m player) = some player := by
  have havail : ∀ m' ∈ available_moves b, cell b m' = Cell.E :=
    fun m hm => (mem_available.mp hm).2
  have hnc : ¬(cell b 4 = Cell.E ∧
      check_winner (b.set 4 computer) = some computer) := by
    rintro ⟨h4, hw4⟩
    exact hnow 4 (mem_available.mpr ⟨by omega, h4⟩) hw4
  have hc : (winScan computer b (available_moves b)).1 = none :=
    (winScan_none havail).mpr hnow
  obtain ⟨m, hm, _, hwm⟩ := winScan_some_of_ex havail hex
  exact ⟨m, gbm_tier3 havail hnc hc hm, hwm⟩

theorem avail_nil_iff {b : Board} :
    available_moves b = [] ↔ emptyCount b = 0 := by
  unfold available_moves
  suffices h : ∀ (b : Board) (i : Nat), availFrom i b = [] ↔ emptyCount b = 0 from
    h b 0
  intro b
  induction b with
  | nil => intro i; simp [availFrom, emptyCount]
  | cons v rest ih =>
      intro i
      show (if v = Cell.E then i :: availFrom (i + 1) rest
        else availFrom (i + 1) rest) = [] ↔
        (if v = Cell.E then 1 else 0) + emptyCount rest = 0
      by_cases hv : v = Cell.E
      · rw [if_pos hv, if_pos hv]
        constructor
        · intro h
          exact absurd h (by simp)
        · intro h
          omega
      · rw [if_neg hv, if_neg hv, ih (i + 1)]
        omega

theorem gbm_some_of_ne {b : Board} {computer player : Cell} (hlen : b.length = 9)
    (hmarks : marksOnly b computer player) (hne : available_moves b ≠ []) :
    ∃ m, (get_best_move b computer player).1 = some m := by
  have havail : ∀ m' ∈ available_moves b, cell b m' = Cell.E :=
    fun m hm => (mem_available.mp hm).2
  obtain ⟨m0, hm0⟩ := List.exists_mem_of_ne_nil _ hne
  have hdraw : is_draw b = false := by
    rcases hd : is_draw b
    · rfl
    · obtain ⟨_, hec⟩ := is_draw_iff.mp hd
      exact absurd (avail_nil_iff.mpr hec) hne
  rcases hw : check_winner b with _ | w
  · by_cases hc4 : cell b 4 = Cell.E ∧
        check_winner (b.set 4 computer) = some computer
    · exact ⟨4, by rw [gbm_center hc4.1 hc4.2]⟩
    · rcases hsc : (winScan computer b (available_moves b)).1 with _ | m
      · rcases hsp : (winScan player b (available_moves b)).1 with _ | m
        · obtain ⟨m, hm, _⟩ := @minimaxF_move computer player b 9 0
            XInt.negInf XInt.posInf hmarks hw hdraw
          have hm10 : (minimaxF 10 b 0 true computer player
              XInt.negInf XInt.posInf).2.1 = some m := hm
          exact ⟨m, by rw [gbm_tier4 havail hc4 hsc hsp]; exact hm10⟩
        · exact ⟨m, by rw [gbm_tier3 havail hc4 hsc hsp]⟩
      · exact ⟨m, by rw [gbm_tier2 havail hc4 hsc]⟩
  · rcases winner_marks hmarks hw with hwc | hwp
    · subst hwc
      obtain ⟨m, hgm, _⟩ := gbm_wins
        ⟨m0, hm0, check_winner_set_same (havail m0 hm0) hw⟩
      exact ⟨m, by rw [hgm]⟩
    · subst hwp
      by_cases hown : ∃ m ∈ available_moves b,
          check_winner (b.set m computer) = some computer
      · obtain ⟨m, hgm, _⟩ := gbm_wins hown
        exact ⟨m, by rw [hgm]⟩
      · obtain ⟨m, hgm, _⟩ := gbm_blocks hlen
          (fun m hm hh => hown ⟨m, hm, hh⟩)
          ⟨m0, hm0, check_winner_set_same (havail m0 hm0) hw⟩
        exact ⟨m, by rw [hgm]⟩

theorem gbm_none_iff {b : Board} {computer player : Cell} (hlen : b.length = 9)
    (hmarks : marksOnly b computer player) :
    (get_best_move b computer player).1 = none ↔ available_moves b = [] := by
  constructor
  · intro hres
    by_contra hne
    obtain ⟨m, hm⟩ := gbm_some_of_ne hlen hmarks hne
    rw [hres] at hm
    exact Option.noConfusion hm
  · intro hav
    have havail : ∀ m' ∈ available_moves b, cell b m' = Cell.E :=
      fun m hm => (mem_available.mp hm).2
    have hnc : ¬(cell b 4 = Cell.E ∧
        check_winner (b.set 4 computer) = some computer) := by
      rintro ⟨h4, _⟩
      have : (4 : Nat) ∈ available_moves b := mem_available.mpr ⟨by omega, h4⟩
      rw [hav] at this
      exact absurd this (by simp)
    have hc : (winScan computer b (available_moves b)).1 = none := by
      rw [hav]
      rfl
    have hp : (winScan player b (available_moves b)).1 = none := by
      rw [hav]
      rfl
    rw [gbm_tier4 havail hnc hc hp]
    show (minimaxF 10 b 0 true computer player XInt.negInf XInt.posInf).2.1 = none
    rcases hw : check_winner b with _ | w
    · have hdr : is_draw b = true :=
        is_draw_iff.mpr ⟨hw, avail_nil_iff.mp hav⟩
      show (minimaxF (9 + 1) b 0 true computer player
        XInt.negInf XInt.posInf).2.1 = none
      rw [minimaxF_succ, if_neg (by simp [hw]), if_neg (by simp [hw]), if_pos hdr]
    · show (minimaxF (9 + 1) b 0 true computer player
        XInt.negInf XInt.posInf).2.1 = none
      rcases winner_marks hmarks hw with hwc | hwp
      · rw [hwc] at hw
        rw [minimaxF_succ, if_pos hw]
      · rw [hwp] at hw
        rw [minimaxF_succ]
        by_cases hwc : check_winner b = some computer
        · rw [if_pos hwc]
        · rw [if_neg hwc, if_pos hw]

theorem gbm_legal {b : Board} {computer player : Cell} (hlen : b.length = 9)
    (hmarks : marksOnly b computer player) (hw : check_winner b = none)
    (hne : available_moves b ≠ []) :
    ∃ m, get_best_move b computer player = (some m, b) ∧ m < 9 ∧
      cell b m = Cell.E := by
  have havail : ∀ m' ∈ available_moves b, cell b m' = Cell.E :=
    fun m hm => (mem_available.mp hm).2
  have hdraw : is_draw b = false := by
    rcases hd : is_draw b
    · rfl
    · obtain ⟨_, hec⟩ := is_draw_iff.mp hd
      exact absurd (avail_nil_iff.mpr hec) hne
  by_cases hc4 : cell b 4 = Cell.E ∧
      check_winner (b.set 4 computer) = some computer
  · exact ⟨4, gbm_center hc4.1 hc4.2, by omega, hc4.1⟩
  · rcases hsc : (winScan computer b (available_moves b)).1 with _ | m
    · rcases hsp : (winScan player b (available_moves b)).1 with _ | m
      · obtain ⟨m, hm, hmem⟩ := @minimaxF_move computer player b 9 0
          XInt.negInf XInt.posInf hmarks hw hdraw
        have hm10 : (minimaxF 10 b 0 true computer player
            XInt.negInf XInt.posInf).2.1 = some m := hm
        refine ⟨m, ?_, ?_, (mem_available.mp hmem).2⟩
        · rw [gbm_tier4 havail hc4 hsc hsp, hm10, minimaxF_board]
        · have := (mem_available.mp hmem).1
          omega
      · obtain ⟨hmem, _⟩ := winScan_some havail hsp
        refine ⟨m, gbm_tier3 havail hc4 hsc hsp, ?_, (mem_available.mp hmem).2⟩
        have := (mem_available.mp hmem).1
        omega
    · obtain ⟨hmem, _⟩ := winScan_some havail hsc
      refine ⟨m, gbm_tier2 havail hc4 hsc, ?_, (mem_available.mp hmem).2⟩
      have := (mem_available.mp hmem).1
      omega

theorem foldl_maxi_congr {f g : Nat → XInt} :
    ∀ (xs : List Nat) (s : XInt), (∀ m ∈ xs, f m = g m) →
      xs.foldl (fun acc m => XInt.maxi acc (f m)) s =
        xs.foldl (fun acc m => XInt.maxi acc (g m)) s := by
  intro xs
  induction xs with
  | nil => intro s _; rfl
  | cons x rest ih =>
      intro s h
      rw [List.foldl_cons, List.foldl_cons, h x (by simp)]
      exact ih _ (fun m hm => h m (List.mem_cons_of_mem _ hm))

theorem foldl_mini_congr {f g : Nat → XInt} :
    ∀ (xs : List Nat) (s : XInt), (∀ m ∈ xs, f m = g m) →
      xs.foldl (fun acc m => XInt.mini acc (f m)) s =
        xs.foldl (fun acc m => XInt.mini acc (g m)) s := by
  intro xs
  induction xs with
  | nil => intro s _; rfl
  | cons x rest ih =>
      intro s h
      rw [List.foldl_cons, List.foldl_cons, h x (by simp)]
      exact ih _ (fun m hm => h m (List.mem_cons_of_mem _ hm))

theorem nbVal_fuel {c p : Cell} (hcE : c ≠ Cell.E) (hpE : p ≠ Cell.E) :
    ∀ (f1 f2 : Nat) (b : Board) (depth : Nat) (is_max : Bool),
      marksOnly b c p → emptyCount b < f1 → emptyCount b < f2 →
      nbVal f1 b depth is_max c p = nbVal f2 b depth is_max c p := by
  intro f1
  induction f1 with
  | zero => intro f2 b depth is_max _ h1 _; omega
  | succ f1 ih =>
      intro f2 b depth is_max hmarks h1 h2
      cases f2 with
      | zero => omega
      | succ f2 =>
          show (minimaxNB (f1 + 1) b depth is_max c p XInt.negInf XInt.posInf).1 =
            (minimaxNB (f2 + 1) b depth is_max c p XInt.negInf XInt.posInf).1
          by_cases hwc : check_winner b = some c
          · rw [minimaxNB_succ, minimaxNB_succ, if_pos hwc, if_pos hwc]
          · by_cases hwp : check_winner b = some p
            · rw [minimaxNB_succ, minimaxNB_succ, if_neg hwc, if_neg hwc,
                if_pos hwp, if_pos hwp]
            · by_cases hdr : is_draw b = true
              · rw [minimaxNB_succ, minimaxNB_succ, if_neg hwc, if_neg hwc,
                  if_neg hwp, if_neg hwp, if_pos hdr, if_pos hdr]
              · have hwnone : check_winner b = none := by
                  rcases hww : check_winner b with _ | w
                  · rfl
                  · rcases winner_marks hmarks hww with h | h
                    · rw [h] at hww
                      exact absurd hww hwc
                    · rw [h] at hww
                      exact absurd hww hwp
                have hdraw : is_draw b = false := by
                  simpa using hdr
                cases is_max with
                | true =>
                    rw [@minimaxNB_root_max f1 depth b c p XInt.negInf XInt.posInf
                        hwnone hdraw,
                      @minimaxNB_root_max f2 depth b c p XInt.negInf XInt.posInf
                        hwnone hdraw]
                    apply foldl_maxi_congr
                    intro m hm
                    have hstep := avail_step hm hcE
                    exact ih f2 (b.set m c) (depth + 1) false
                      (marksOnly_set hmarks m (Or.inl rfl)) (by omega) (by omega)
                | false =>
                    rw [@minimaxNB_root_min f1 depth b c p XInt.negInf XInt.posInf
                        hwnone hdraw,
                      @minimaxNB_root_min f2 depth b c p XInt.negInf XInt.posInf
                        hwnone hdraw]
                    apply foldl_mini_congr
                    intro m hm
                    have hstep := avail_step hm hpE
                    exact ih f2 (b.set m p) (depth + 1) true
                      (marksOnly_set hmarks m (Or.inr rfl)) (by omega) (by omega)

theorem emptyCount_le_length : ∀ (b : Board), emptyCount b ≤ b.length := by
  intro b
  induction b with
  | nil => simp [emptyCount]
  | cons x xs ih =>
      show (if x = Cell.E then 1 else 0) + emptyCount xs ≤ xs.length + 1
      by_cases hx : x = Cell.E
      · rw [if_pos hx]
        omega
      · rw [if_neg hx]
        omega

theorem noLose_any {fuel : Nat} {b : Board} {me other : Cell}
    (hw : fwin b = none) (hne : ordM b ≠ [])
    (hnl : noLose (fuel + 1) b true me other = true) :
    ∃ m ∈ ordM b, noLose fuel (fset b m me) false me other = true := by
  rw [noLose_succ, hw] at hnl
  rcases hms : ordM b with _ | ⟨mv, rest⟩
  · exact absurd hms hne
  · rw [hms] at hnl
    simp only [if_true] at hnl
    exact nlAny_iff.mp hnl

theorem noLose_all {fuel : Nat} {b : Board} {me other : Cell}
    (hw : fwin b = none)
    (hnl : noLose (fuel + 1) b false me other = true) :
    ∀ m ∈ ordM b, noLose fuel (fset b m other) true me other = true := by
  rw [noLose_succ, hw] at hnl
  rcases hms : ordM b with _ | ⟨mv, rest⟩
  · intro m hm
    exact absurd hm (by simp)
  · rw [hms] at hnl
    simp only [Bool.false_eq_true, if_false] at hnl
    exact nlAll_iff.mp hnl

theorem noLose_false_otherwin {me other : Cell} (hne : ¬ other = me) :
    ∀ (fuel : Nat) (b : Board) (tm : Bool), fwin b = some other →
      noLose fuel b tm me other = false := by
  intro fuel b tm hfw
  cases fuel with
  | zero => rfl
  | succ f =>
      rw [noLose_succ, hfw]
      exact decide_eq_false hne

theorem noLose_block {fuel : Nat} {b : Board} {computer player : Cell}
    {mblk : Nat} (hcp : computer ≠ player) (hpE : player ≠ Cell.E)
    (hw : check_winner b = none)
    (hnl : noLose (fuel + 1) b true computer player = true)
    (hnowin : ∀ m ∈ available_moves b,
      check_winner (b.set m computer) ≠ some computer)
    (hmblk : mblk ∈ available_moves b)
    (hblk : check_winner (b.set mblk player) = some player) :
    noLose fuel (b.set mblk computer) false computer player = true := by
  have hfw : fwin b = none := by
    rw [fwin_eq]
    exact hw
  have hne : ordM b ≠ [] := by
    intro h
    have h2 := ordM_nil.mp h
    rw [h2] at hmblk
    exact absurd hmblk (by simp)
  obtain ⟨ms, hmem, hst⟩ := noLose_any hfw hne hnl
  rw [fset_eq] at hst
  have hmemA : ms ∈ available_moves b := ordM_mem.mp hmem
  by_cases heq : ms = mblk
  · rw [← heq]
    exact hst
  · exfalso
    cases fuel with
    | zero => exact Bool.noConfusion hst
    | succ f2 =>
        have hleg : cell b ms = Cell.E := (mem_available.mp hmemA).2
        have hw2 : check_winner (b.set ms computer) = none := by
          rcases @check_winner_set_of_none b hw ms computer with h | h
          · exact h
          · exact absurd h (hnowin ms hmemA)
        obtain ⟨hwE, l, hl, hfull, hcellw⟩ := winnerAux_eq_some hblk
        have key : ∀ q, cell (b.set mblk player) q = player →
            cell ((b.set ms computer).set mblk player) q = player := by
          intro q hq
          by_cases hqb : q = mblk
          · subst hqb
            exact cell_set_self
              (by rw [List.length_set]; exact (mem_available.mp hmblk).1) player
          · rw [cell_set_ne (fun hh => hqb hh.symm) _ player]
            have hbq : cell b q = player := by
              rw [cell_set_ne (fun hh => hqb hh.symm) b player] at hq
              exact hq
            have hqms : ms ≠ q := by
              intro hh
              rw [← hh] at hbq
              rw [hleg] at hbq
              exact hpE hbq.symm
            rw [cell_set_ne hqms b computer]
            exact hbq
        have hl1 : cell (b.set mblk player) l.1 = player := hcellw
        have hl2 : cell (b.set mblk player) l.2.1 = player := by
          rw [← hfull.2.1]
          exact hcellw
        have hl3 : cell (b.set mblk player) l.2.2 = player := by
          rw [← hfull.2.2]
          exact hcellw
        have hfull3 : lineFull ((b.set ms computer).set mblk player)
            l.1 l.2.1 l.2.2 := by
          refine ⟨?_, ?_, ?_⟩
          · rw [key l.1 hl1]
            exact hpE
          · rw [key l.1 hl1, key l.2.1 hl2]
          · rw [key l.1 hl1, key l.2.2 hl3]
        have hw3some : check_winner ((b.set ms computer).set mblk player) ≠
            none := by
          intro hnone
          exact (winnerAux_eq_none_iff.mp hnone) l hl hfull3
        have hw3 : check_winner ((b.set ms computer).set mblk player) =
            some player := by
          rcases @check_winner_set_of_none (b.set ms computer) hw2 mblk player
            with h | h
          · exact absurd h hw3some
          · exact h
        have hfw2 : fwin (b.set ms computer) = none := by
          rw [fwin_eq]
          exact hw2
        have hmblk2 : mblk ∈ ordM (b.set ms computer) := by
          refine ordM_mem.mpr (mem_available.mpr ⟨?_, ?_⟩)
          · rw [List.length_set]
            exact (mem_available.mp hmblk).1
          · rw [cell_set_ne heq b computer]
            exact (mem_available.mp hmblk).2
        have hbad := noLose_all hfw2 hst mblk hmblk2
        rw [fset_eq] at hbad
        rw [noLose_false_otherwin (fun hh => hcp hh.symm) f2
          ((b.set ms computer).set mblk player) true
          (by rw [fwin_eq]; exact hw3)] at hbad
        exact Bool.noConfusion hbad

theorem noLose_minimax_step {b : Board} {computer player : Cell} {mm : Nat}
    (hcp : computer ≠ player) (hcE : computer ≠ Cell.E) (hpE : player ≠ Cell.E)
    (hlen : b.length = 9) (hmarks : marksOnly b computer player)
    (hw : check_winner b = none) (hdraw : is_draw b = false)
    (hnl : noLose (emptyCount b + 1) b true computer player = true)
    (hmm : (minimaxF 10 b 0 true computer player XInt.negInf XInt.posInf).2.1 =
      some mm) :
    mm ∈ available_moves b ∧
      noLose (emptyCount b) (b.set mm computer) false computer player = true := by
  have hFNB : minimaxF 10 b 0 true computer player XInt.negInf XInt.posInf =
      minimaxNB 10 b 0 true computer player XInt.negInf XInt.posInf :=
    @minimaxF_eq_NB_root 9 0 b computer player hmarks
  have hmmNB : (minimaxNB 10 b 0 true computer player XInt.negInf
      XInt.posInf).2.1 = some mm := by
    rw [← hFNB]
    exact hmm
  have hroot : minimaxNB 10 b 0 true computer player XInt.negInf XInt.posInf =
      maxLoopNB (fun b1 a bt => minimaxNB 9 b1 1 false computer player a bt)
        computer (available_moves b) b XInt.negInf XInt.posInf
        XInt.negInf none := by
    show minimaxNB (9 + 1) b 0 true computer player XInt.negInf XInt.posInf = _
    rw [minimaxNB_succ, if_neg (by simp [hw]), if_neg (by simp [hw]),
      if_neg (by simp [hdraw]), if_pos rfl]
  have hach := @maxLoopNB_achieve
    (fun b1 a bt => minimaxNB 9 b1 1 false computer player a bt) computer
    (fun b1 a bt => minimaxNB_board 9 b1 1 false computer player a bt)
    (fun b1 a bt a' bt' => minimaxNB_window 9 b1 1 false computer player a bt a' bt')
    (available_moves b) b XInt.negInf XInt.posInf XInt.negInf none
    (fun m hm => (mem_available.mp hm).2)
  rw [hroot] at hmmNB
  rcases hach with ⟨_, hmv⟩ | ⟨m2, hm2, hmv, hv⟩
  · rw [hmv] at hmmNB
    exact Option.noConfusion hmmNB
  · rw [hmv] at hmmNB
    have hmeq : m2 = mm := Option.some.inj hmmNB
    rw [← hmeq]
    have hE9 : emptyCount b ≤ 9 := by
      have := emptyCount_le_length b
      omega
    have hEpos : 1 ≤ emptyCount b := by
      rcases Nat.eq_zero_or_pos (emptyCount b) with h0 | h
      · have hnil := avail_nil_iff.mpr h0
        rw [hnil] at hm2
        exact absurd hm2 (by simp)
      · omega
    constructor
    · exact hm2
    · have hge := (noLose_ge0 hcp hcE hpE (emptyCount b + 1) b 0 true hmarks
        (by omega) (by omega)).mp hnl
      have hval10 : nbVal (emptyCount b + 1) b 0 true computer player =
          nbVal 10 b 0 true computer player :=
        nbVal_fuel hcE hpE (emptyCount b + 1) 10 b 0 true hmarks
          (by omega) (by omega)
      rw [hval10] at hge
      have hrootval : nbVal 10 b 0 true computer player =
          (minimaxNB 9 (b.set m2 computer) 1 false computer player
            XInt.negInf XInt.posInf).1 := by
        show (minimaxNB 10 b 0 true computer player XInt.negInf XInt.posInf).1 = _
        rw [hroot, hv]
      rw [hrootval] at hge
      have hchildE : emptyCount (b.set m2 computer) + 1 = emptyCount b :=
        avail_step hm2 hcE
      have hmarks2 : marksOnly (b.set m2 computer) computer player :=
        marksOnly_set hmarks m2 (Or.inl rfl)
      have hval9E : nbVal 9 (b.set m2 computer) 1 false computer player =
          nbVal (emptyCount b) (b.set m2 computer) 1 false computer player :=
        nbVal_fuel hcE hpE 9 (emptyCount b) (b.set m2 computer) 1 false hmarks2
          (by omega) (by omega)
      refine (noLose_ge0 hcp hcE hpE (emptyCount b) (b.set m2 computer) 1 false
        hmarks2 (by omega) (by omega)).mpr ?_
      rw [← hval9E]
      exact hge

theorem runGame_succ (fuel : Nat) (moves : List Nat) (compTurn : Bool)
    (b : Board) (computer player : Cell) :
    runGame (fuel + 1) moves compTurn b computer player =
      if compTurn then
        match get_best_move b computer player with
        | (none, _) => GOutcome.unfinished
        | (some m, b') =>
            match check_winner (b'.set m computer) with
            | some w => if w = player then GOutcome.pWin else GOutcome.cWin
            | none =>
                if is_draw (b'.set m computer) then GOutcome.draw
                else runGame fuel moves false (b'.set m computer) computer player
      else
        match moves with
        | [] => GOutcome.unfinished
        | m :: rest =>
            if m < 9 ∧ cell b m = Cell.E then
              match check_winner (b.set m player) with
              | some w => if w = player then GOutcome.pWin else GOutcome.cWin
              | none =>
                  if is_draw (b.set m player) then GOutcome.draw
                  else runGame fuel rest true (b.set m player) computer player
            else GOutcome.unfinished := rfl

theorem neverLose_invariant {computer player : Cell} (hcp : computer ≠ player)
    (hcE : computer ≠ Cell.E) (hpE : player ≠ Cell.E) :
    ∀ (fuel : Nat) (moves : List Nat) (compTurn : Bool) (b : Board),
      b.length = 9 → marksOnly b computer player → check_winner b = none →
      noLose (emptyCount b + 1) b compTurn computer player = true →
      runGame fuel moves compTurn b computer player ≠ GOutcome.pWin := by
  intro fuel
  induction fuel with
  | zero =>
      intro moves compTurn b _ _ _ _ h
      exact GOutcome.noConfusion h
  | succ fuel ih =>
      intro moves compTurn b hlen hmarks hw hnl
      rw [runGame_succ]
      cases compTurn with
      | true =>
          rw [if_pos rfl]
          have havail : ∀ m' ∈ available_moves b, cell b m' = Cell.E :=
            fun m hm => (mem_available.mp hm).2
          by_cases hne : available_moves b = []
          · have hnone : (get_best_move b computer player).1 = none :=
              (gbm_none_iff hlen hmarks).mpr hne
            rcases hg : get_best_move b computer player with ⟨og, bg⟩
            rw [hg] at hnone
            simp only at hnone
            rw [hnone]
            intro h
            exact GOutcome.noConfusion h
          · obtain ⟨m, hgm, hm9, hmE⟩ := gbm_legal hlen hmarks hw hne
            have hm_avail : m ∈ available_moves b :=
              mem_available.mpr ⟨by omega, hmE⟩
            rw [hgm]
            show (match check_winner (b.set m computer) with
              | some w => if w = player then GOutcome.pWin else GOutcome.cWin
              | none =>
                  if is_draw (b.set m computer) then GOutcome.draw
                  else runGame fuel moves false (b.set m computer)
                    computer player)
              ≠ GOutcome.pWin
            rcases hw2 : check_winner (b.set m computer) with _ | w2
            · by_cases hd2 : is_draw (b.set m computer) = true
              · rw [if_pos hd2]
                intro h
                exact GOutcome.noConfusion h
              · rw [if_neg hd2]
                have hlen2 : (b.set m computer).length = 9 := by
                  rw [List.length_set]
                  exact hlen
                have hmarks2 := marksOnly_set hmarks m (Or.inl rfl)
                have hE2 : emptyCount (b.set m computer) + 1 = emptyCount b :=
                  avail_step hm_avail hcE
                have hnl2 : noLose (emptyCount (b.set m computer) + 1)
                    (b.set m computer) false computer player = true := by
                  rw [hE2]
                  by_cases hc4 : cell b 4 = Cell.E ∧
                      check_winner (b.set 4 computer) = some computer
                  · exfalso
                    have h4 := @gbm_center b computer player hc4.1 hc4.2
                    rw [hgm] at h4
                    have hm4 : m = 4 := Option.some.inj (congrArg Prod.fst h4)
                    rw [hm4] at hw2
                    rw [hc4.2] at hw2
                    exact Option.noConfusion hw2
                  · rcases hsc : (winScan computer b (available_moves b)).1
                        with _ | mc
                    · rcases hsp : (winScan player b (available_moves b)).1
                          with _ | mp
                      · have h4 := gbm_tier4 havail hc4 hsc hsp
                        rw [hgm] at h4
                        have hmmF : (minimaxF 10 b 0 true computer player
                            XInt.negInf XInt.posInf).2.1 = some m :=
                          (congrArg Prod.fst h4).symm
                        have hdraw : is_draw b = false := by
                          rcases hd : is_draw b
                          · rfl
                          · obtain ⟨_, hec⟩ := is_draw_iff.mp hd
                            exact absurd (avail_nil_iff.mpr hec) hne
                        exact (noLose_minimax_step hcp hcE hpE hlen hmarks hw
                          hdraw hnl hmmF).2
                      · have h4 := gbm_tier3 havail hc4 hsc hsp
                        rw [hgm] at h4
                        have hmmp : m = mp :=
                          Option.some.inj (congrArg Prod.fst h4)
                        obtain ⟨hmemp, hwinp⟩ := winScan_some havail hsp
                        have hnowin : ∀ m' ∈ available_moves b,
                            check_winner (b.set m' computer) ≠ some computer :=
                          (winScan_none havail).mp hsc
                        rw [hmmp]
                        exact noLose_block hcp hpE hw hnl hnowin hmemp hwinp
                    · exfalso
                      have h4 := @gbm_tier2 b computer player mc havail hc4 hsc
                      rw [hgm] at h4
                      have hmmc : m = mc := Option.some.inj (congrArg Prod.fst h4)
                      obtain ⟨hmemc, hwinc⟩ := winScan_some havail hsc
                      rw [← hmmc] at hwinc
                      rw [hw2] at hwinc
                      exact Option.noConfusion hwinc
                exact ih moves false (b.set m computer) hlen2 hmarks2 hw2 hnl2
            · have hwc2 : w2 = computer := by
                rcases @check_winner_set_of_none b hw m computer with h | h
                · rw [h] at hw2
                  exact Option.noConfusion hw2
                · rw [h] at hw2
                  exact (Option.some.inj hw2).symm
              have hne2 : ¬ (w2 = player) := by
                rw [hwc2]
                exact hcp
              show (if w2 = player then GOutcome.pWin else GOutcome.cWin) ≠
                GOutcome.pWin
              rw [if_neg hne2]
              intro h
              exact GOutcome.noConfusion h
      | false =>
          rw [if_neg (by simp)]
          rcases moves with _ | ⟨m, rest⟩
          · intro h
            exact GOutcome.noConfusion h
          · show (if m < 9 ∧ cell b m = Cell.E then
              match check_winner (b.set m player) with
              | some w => if w = player then GOutcome.pWin else GOutcome.cWin
              | none =>
                  if is_draw (b.set m player) then GOutcome.draw
                  else runGame fuel rest true (b.set m player) computer player
              else GOutcome.unfinished) ≠ GOutcome.pWin
            by_cases hvm : m < 9 ∧ cell b m = Cell.E
            · rw [if_pos hvm]
              have hm_avail : m ∈ available_moves b :=
                mem_available.mpr ⟨by omega, hvm.2⟩
              have hinv := noLose_all (by rw [fwin_eq]; exact hw) hnl m
                (ordM_mem.mpr hm_avail)
              rw [fset_eq] at hinv
              rcases hw2 : check_winner (b.set m player) with _ | w2
              · by_cases hd2 : is_draw (b.set m player) = true
                · rw [if_pos hd2]
                  intro h
                  exact GOutcome.noConfusion h
                · rw [if_neg hd2]
                  have hlen2 : (b.set m player).length = 9 := by
                    rw [List.length_set]
                    exact hlen
                  have hmarks2 := marksOnly_set hmarks m (Or.inr rfl)
                  have hE2 : emptyCount (b.set m player) + 1 = emptyCount b :=
                    avail_step hm_avail hpE
                  exact ih rest true (b.set m player) hlen2 hmarks2 hw2
                    (by rw [hE2]; exact hinv)
              · exfalso
                have hwp2 : w2 = player := by
                  rcases @check_winner_set_of_none b hw m player with h | h
                  · rw [h] at hw2
                    exact Option.noConfusion hw2
                  · rw [h] at hw2
                    exact (Option.some.inj hw2).symm
                have hfwp : fwin (b.set m player) = some player := by
                  rw [fwin_eq, hw2, hwp2]
                rw [noLose_false_otherwin (fun hh => hcp hh.symm) (emptyCount b)
                  (b.set m player) true hfwp] at hinv
                exact Bool.noConfusion hinv
            · rw [if_neg hvm]
              intro h
              exact GOutcome.noConfusion h

/-!
### Concrete evaluations

The kernel evaluates `noLose` on the opening positions; the bridges above
turn these Booleans into sign facts about the exhaustive minimax value.
-/

set_option maxRecDepth 1000000

theorem nl_empty_X_move : noLose 10 new_board true Cell.X Cell.O = true := by
  decide!

theorem nl_empty_X_wait : noLose 10 new_board false Cell.X Cell.O = true := by
  decide!

theorem nl_empty_O_move : noLose 10 new_board true Cell.O Cell.X = true := by
  decide!

theorem nl_empty_O_wait : noLose 10 new_board false Cell.O Cell.X = true := by
  decide!

theorem nl_x0_keep :
    noLose 9 (new_board.set 0 Cell.X) false Cell.X Cell.O = true := by decide!

theorem nl_x0_opp :
    noLose 9 (new_board.set 0 Cell.X) true Cell.O Cell.X = true := by decide!

theorem nl_x1_opp :
    noLose 9 (new_board.set 1 Cell.X) true Cell.O Cell.X = true := by decide!

theorem nl_x2_opp :
    noLose 9 (new_board.set 2 Cell.X) true Cell.O Cell.X = true := by decide!

theorem nl_x3_opp :
    noLose 9 (new_board.set 3 Cell.X) true Cell.O Cell.X = true := by decide!

theorem nl_x4_opp :
    noLose 9 (new_board.set 4 Cell.X) true Cell.O Cell.X = true := by decide!

theorem nl_x5_opp :
    noLose 9 (new_board.set 5 Cell.X) true Cell.O Cell.X = true := by decide!

theorem nl_x6_opp :
    noLose 9 (new_board.set 6 Cell.X) true Cell.O Cell.X = true := by decide!

theorem nl_x7_opp :
    noLose 9 (new_board.set 7 Cell.X) true Cell.O Cell.X = true := by decide!

theorem nl_x8_opp :
    noLose 9 (new_board.set 8 Cell.X) true Cell.O Cell.X = true := by decide!

/-!
### The move on the empty board

Tier 1 never fires on the empty board, and the minimax root keeps the first
of the equal-scoring moves: position 0, not the centre.
-/

theorem nbVal_eq (fuel : Nat) (b : Board) (depth : Nat) (is_max : Bool)
    (c p : Cell) : nbVal fuel b depth is_max c p =
      (minimaxNB fuel b depth is_max c p XInt.negInf XInt.posInf).1 := rfl

theorem maxLoopNB_first_minimax {mv : Nat} {rest : List Nat} {b : Board}
    {alpha beta : XInt} {n0 : Int}
    (hleg : ∀ m ∈ mv :: rest, cell b m = Cell.E)
    (hv0 : (minimaxNB 9 (b.set mv Cell.X) 1 false Cell.X Cell.O
      XInt.negInf XInt.posInf).1 = XInt.num n0)
    (hrest : ∀ m ∈ rest, XInt.ble
      (minimaxNB 9 (b.set m Cell.X) 1 false Cell.X Cell.O
        XInt.negInf XInt.posInf).1 (XInt.num n0) = true) :
    maxLoopNB (fun b1 a bt => minimaxNB 9 b1 1 false Cell.X Cell.O a bt)
      Cell.X (mv :: rest) b alpha beta XInt.negInf none =
      (XInt.num n0, some mv, b) :=
  maxLoopNB_first
    (fun b1 a bt => minimaxNB_board 9 b1 1 false Cell.X Cell.O a bt)
    (fun b1 a bt a' bt' => minimaxNB_window 9 b1 1 false Cell.X Cell.O a bt a' bt')
    hleg hv0 hrest

theorem gbm_empty : get_best_move new_board Cell.X Cell.O = (some 0, new_board) := by
  have hcp : Cell.X ≠ Cell.O := by decide
  have hcE : Cell.X ≠ Cell.E := by decide
  have hpE : Cell.O ≠ Cell.E := by decide
  have hmarks : marksOnly new_board Cell.X Cell.O :=
    marksOnly_of_forall (by decide)
  have havail : ∀ m' ∈ available_moves new_board, cell new_board m' = Cell.E :=
    fun m hm => (mem_available.mp hm).2
  have hnc : ¬(cell new_board 4 = Cell.E ∧
      check_winner (new_board.set 4 Cell.X) = some Cell.X) := by decide
  have hsc : (winScan Cell.X new_board (available_moves new_board)).1 = none := by
    decide!
  have hsp : (winScan Cell.O new_board (available_moves new_board)).1 = none := by
    decide!
  have hpre := gbm_tier4 havail hnc hsc hsp
  have hw : check_winner new_board = none := by decide
  have hdraw : is_draw new_board = false := by decide
  have hFNB : minimaxF 10 new_board 0 true Cell.X Cell.O
      XInt.negInf XInt.posInf =
      minimaxNB 10 new_board 0 true Cell.X Cell.O XInt.negInf XInt.posInf :=
    @minimaxF_eq_NB_root 9 0 new_board Cell.X Cell.O hmarks
  have hroot : minimaxNB 10 new_board 0 true Cell.X Cell.O
      XInt.negInf XInt.posInf =
      maxLoopNB (fun b1 a bt => minimaxNB 9 b1 1 false Cell.X Cell.O a bt)
        Cell.X (available_moves new_board) new_board XInt.negInf XInt.posInf
        XInt.negInf none := by
    show minimaxNB (9 + 1) new_board 0 true Cell.X Cell.O
      XInt.negInf XInt.posInf = _
    rw [minimaxNB_succ, if_neg (by simp [hw]), if_neg (by simp [hw]),
      if_neg (by simp [hdraw]), if_pos rfl]
  have hm0 : marksOnly (new_board.set 0 Cell.X) Cell.X Cell.O :=
    marksOnly_set hmarks 0 (Or.inl rfl)
  have hge := (noLose_ge0 hcp hcE hpE 9 (new_board.set 0 Cell.X) 1 false hm0
    (by decide) (by decide)).mp nl_x0_keep
  have hle0 := (noLose_le0 hcp hcE hpE 9 (new_board.set 0 Cell.X) 1 false hm0
    (by decide) (by decide)).mp nl_x0_opp
  rw [nbVal_eq] at hge hle0
  have hch0 : (minimaxNB 9 (new_board.set 0 Cell.X) 1 false Cell.X Cell.O
      XInt.negInf XInt.posInf).1 = XInt.num 0 := (ble_antisymm hge hle0).symm
  have h9 : emptyCount new_board = 9 := by decide
  have hav : available_moves new_board = 0 :: [1, 2, 3, 4, 5, 6, 7, 8] := by
    decide
  have hchle : ∀ m ∈ available_moves new_board,
      XInt.ble (minimaxNB 9 (new_board.set m Cell.X) 1 false Cell.X Cell.O
        XInt.negInf XInt.posInf).1 (XInt.num 0) = true := by
    intro m hm
    have hmm : marksOnly (new_board.set m Cell.X) Cell.X Cell.O :=
      marksOnly_set hmarks m (Or.inl rfl)
    have hstep := avail_step hm hcE
    have hfact : noLose 9 (new_board.set m Cell.X) true Cell.O Cell.X = true := by
      rw [hav] at hm
      fin_cases hm
      · exact nl_x0_opp
      · exact nl_x1_opp
      · exact nl_x2_opp
      · exact nl_x3_opp
      · exact nl_x4_opp
      · exact nl_x5_opp
      · exact nl_x6_opp
      · exact nl_x7_opp
      · exact nl_x8_opp
    have hble := (noLose_le0 hcp hcE hpE 9 (new_board.set m Cell.X) 1 false hmm
      (by omega) (by omega)).mp hfact
    rw [nbVal_eq] at hble
    exact hble
  have hfirst : maxLoopNB
      (fun b1 a bt => minimaxNB 9 b1 1 false Cell.X Cell.O a bt)
      Cell.X (available_moves new_board) new_board XInt.negInf XInt.posInf
      XInt.negInf none = (XInt.num 0, some 0, new_board) := by
    rw [hav]
    refine maxLoopNB_first_minimax ?_ hch0 ?_
    · rw [← hav]
      exact havail
    · intro m hm
      refine hchle m ?_
      rw [hav]
      exact List.mem_cons_of_mem _ hm
  have hmv : (minimaxF 10 new_board 0 true Cell.X Cell.O
      XInt.negInf XInt.posInf).2.1 = some 0 := by
    rw [hFNB, hroot, hfirst]
  have hbd : (minimaxF 10 new_board 0 true Cell.X Cell.O
      XInt.negInf XInt.posInf).2.2 = new_board :=
    minimaxF_board 10 new_board 0 true Cell.X Cell.O XInt.negInf XInt.posInf
  rw [hpre, hmv, hbd]

/-!
### The claims
-/

/-- C1: Unbeatability.  From the empty board, with either mark assignment
(`X`/`O`) and either side moving first, no sequence of legal opponent moves
makes `runGame` end with the opponent's mark winning: the computer, whose
moves come from `get_best_move`, wins or draws every finished game. -/
theorem unbeatable_from_empty_board :
    ∀ (computer player : Cell) (fuel : Nat) (moves : List Nat)
      (compTurn : Bool),
      (computer = Cell.X ∧ player = Cell.O) ∨
        (computer = Cell.O ∧ player = Cell.X) →
      runGame fuel moves compTurn new_board computer player ≠
        GOutcome.pWin := by
  intro computer player fuel moves compTurn h
  rcases h with ⟨hc, hp⟩ | ⟨hc, hp⟩
  · subst hc
    subst hp
    refine neverLose_invariant (by decide) (by decide) (by decide) fuel moves
      compTurn new_board rfl (marksOnly_of_forall (by decide)) (by decide) ?_
    cases compTurn
    · exact nl_empty_X_wait
    · exact nl_empty_X_move
  · subst hc
    subst hp
    refine neverLose_invariant (by decide) (by decide) (by decide) fuel moves
      compTurn new_board rfl (marksOnly_of_forall (by decide)) (by decide) ?_
    cases compTurn
    · exact nl_empty_O_wait
    · exact nl_empty_O_move

/-- Witness for C1 at a concrete game: the computer plays `X` first and the
opponent answers at 1 and 8; the game cannot end in a win for `O`. -/
theorem unbeatable_from_empty_board_witness :
    runGame 9 [1, 8] true new_board Cell.X Cell.O ≠ GOutcome.pWin :=
  unbeatable_from_empty_board Cell.X Cell.O 9 [1, 8] true (Or.inl ⟨rfl, rfl⟩)

/-- C2 (amended): on the all-empty board with computer mark `X` and opponent
mark `O`, `get_best_move` deterministically returns position 0 — the first
empty cell — and restores the board.  (The Tier-1 fast paths never fire on
the empty board, every opening move scores 0, and the minimax loop keeps the
first of equal-scoring moves in ascending index order.) -/
theorem get_best_move_empty_board :
    get_best_move new_board Cell.X Cell.O = (some 0, new_board) := gbm_empty

/-- C2 counterexample: on the empty board `get_best_move` does not return
position 4 (the centre); it returns position 0. -/
theorem get_best_move_empty_not_center :
    (get_best_move new_board Cell.X Cell.O).1 ≠ some 4 := by
  rw [gbm_empty]
  simp

/-- C3: pruning equivalence.  On every non-terminal board holding only the
two marks in play, `minimax` called at the root with the full window
(`-inf`, `inf`) returns the same root score and the same chosen root move as
the exhaustive search `minimaxNB`, which is `minimax` with the pruning break
deleted. -/
theorem pruning_preserves_root_result :
    ∀ (b : Board) (computer player : Cell),
      marksOnly b computer player → check_winner b = none →
      is_draw b = false →
      (minimax b 0 true computer player XInt.negInf XInt.posInf).1 =
        (minimaxNB 10 b 0 true computer player XInt.negInf XInt.posInf).1 ∧
      (minimax b 0 true computer player XInt.negInf XInt.posInf).2.1 =
        (minimaxNB 10 b 0 true computer player XInt.negInf XInt.posInf).2.1 := by
  intro b computer player hmarks _ _
  have h : minimax b 0 true computer player XInt.negInf XInt.posInf =
      minimaxNB 10 b 0 true computer player XInt.negInf XInt.posInf :=
    @minimaxF_eq_NB_root 9 0 b computer player hmarks
  exact ⟨congrArg Prod.fst h, congrArg (fun t => t.2.1) h⟩

/-- Witness for C3 at a concrete non-terminal board with three empty cells. -/
theorem pruning_preserves_root_result_witness :
    marksOnly [Cell.X, Cell.O, Cell.X, Cell.O, Cell.X, Cell.O, Cell.E, Cell.E,
      Cell.E] Cell.X Cell.O ∧
    check_winner [Cell.X, Cell.O, Cell.X, Cell.O, Cell.X, Cell.O, Cell.E,
      Cell.E, Cell.E] = none ∧
    is_draw [Cell.X, Cell.O, Cell.X, Cell.O, Cell.X, Cell.O, Cell.E, Cell.E,
      Cell.E] = false ∧
    ((minimax [Cell.X, Cell.O, Cell.X, Cell.O, Cell.X, Cell.O, Cell.E, Cell.E,
        Cell.E] 0 true Cell.X Cell.O XInt.negInf XInt.posInf).1 =
      (minimaxNB 10 [Cell.X, Cell.O, Cell.X, Cell.O, Cell.X, Cell.O, Cell.E,
        Cell.E, Cell.E] 0 true Cell.X Cell.O XInt.negInf XInt.posInf).1 ∧
     (minimax [Cell.X, Cell.O, Cell.X, Cell.O, Cell.X, Cell.O, Cell.E, Cell.E,
        Cell.E] 0 true Cell.X Cell.O XInt.negInf XInt.posInf).2.1 =
      (minimaxNB 10 [Cell.X, Cell.O, Cell.X, Cell.O, Cell.X, Cell.O, Cell.E,
        Cell.E, Cell.E] 0 true Cell.X Cell.O XInt.negInf XInt.posInf).2.1) :=
  ⟨marksOnly_of_forall (by decide), by decide, by decide,
    pruning_preserves_root_result _ Cell.X Cell.O
      (marksOnly_of_forall (by decide)) (by decide) (by decide)⟩

/-- C4: no mutation leakage.  For every board and pair of marks, the board
`get_best_move` hands back is exactly the board it was given: every
speculative placement of the centre fast path, the two win scans and the
recursive minimax is undone. -/
theorem no_mutation_leakage :
    ∀ (b : Board) (computer player : Cell),
      (get_best_move b computer player).2 = b :=
  get_best_move_board

/-- C5: depth-aware scoring and depth preference.  `minimax` scores a
terminal position at depth `d` as `10 - d` when the computer's mark has won,
`d - 10` when the opponent's mark has won (the computer's line is checked
first), and 0 for a draw; and whenever the computer can win in one move,
`get_best_move` returns a move that wins immediately — the shallowest win. -/
theorem minimax_depth_scoring :
    ∀ (b : Board) (depth : Nat) (is_max : Bool) (computer player : Cell)
      (alpha beta : XInt),
      (check_winner b = some computer →
        (minimax b depth is_max computer player alpha beta).1 =
          XInt.num (10 - (depth : Int))) ∧
      (check_winner b ≠ some computer → check_winner b = some player →
        (minimax b depth is_max computer player alpha beta).1 =
          XInt.num ((depth : Int) - 10)) ∧
      (check_winner b = none → is_draw b = true →
        (minimax b depth is_max computer player alpha beta).1 = XInt.num 0) ∧
      ((∃ m ∈ available_moves b,
          check_winner (b.set m computer) = some computer) →
        ∃ m, (get_best_move b computer player).1 = some m ∧
          check_winner (b.set m computer) = some computer) := by
  intro b depth is_max computer player alpha beta
  refine ⟨?_, ?_, ?_, ?_⟩
  · intro h
    show (minimaxF (9 + 1) b depth is_max computer player alpha beta).1 = _
    rw [minimaxF_succ, if_pos h]
  · intro h1 h2
    show (minimaxF (9 + 1) b depth is_max computer player alpha beta).1 = _
    rw [minimaxF_succ, if_neg h1, if_pos h2]
  · intro h1 h2
    show (minimaxF (9 + 1) b depth is_max computer player alpha beta).1 = _
    rw [minimaxF_succ, if_neg (by simp [h1]), if_neg (by simp [h1]),
      if_pos h2]
  · intro hex
    obtain ⟨m, hgm, hwin⟩ := gbm_wins hex
    exact ⟨m, by rw [hgm], hwin⟩

/-- C6: Tier-1 priority.  On a nine-cell board, if the computer has a legal
move completing one of its own lines, `get_best_move` returns such a winning
move; and if it has none but the opponent has an immediately winning move,
`get_best_move` returns a position where the opponent would have won — a
block. -/
theorem tier_one_priority :
    ∀ (b : Board) (computer player : Cell),
      b.length = 9 →
      ((∃ m ∈ available_moves b,
          check_winner (b.set m computer) = some computer) →
        ∃ m, (get_best_move b computer player).1 = some m ∧
          check_winner (b.set m computer) = some computer) ∧
      ((∀ m ∈ available_moves b,
          check_winner (b.set m computer) ≠ some computer) →
        (∃ m ∈ available_moves b,
          check_winner (b.set m player) = some player) →
        ∃ m, (get_best_move b computer player).1 = some m ∧
          check_winner (b.set m player) = some player) := by
  intro b computer player hlen
  constructor
  · intro hex
    obtain ⟨m, hgm, hwin⟩ := gbm_wins hex
    exact ⟨m, by rw [hgm], hwin⟩
  · intro hnow hex
    obtain ⟨m, hgm, hwin⟩ := gbm_blocks hlen hnow hex
    exact ⟨m, by rw [hgm], hwin⟩

/-- Witness for C6 at a concrete board where `X` can win at 2 and `O`
threatens at 5. -/
theorem tier_one_priority_witness :
    ([Cell.X, Cell.X, Cell.E, Cell.O, Cell.O, Cell.E, Cell.E, Cell.E, Cell.E] :
      Board).length = 9 ∧
    (((∃ m ∈ available_moves [Cell.X, Cell.X, Cell.E, Cell.O, Cell.O, Cell.E,
          Cell.E, Cell.E, Cell.E],
        check_winner (List.set [Cell.X, Cell.X, Cell.E, Cell.O, Cell.O, Cell.E,
          Cell.E, Cell.E, Cell.E] m Cell.X) = some Cell.X) →
      ∃ m, (get_best_move [Cell.X, Cell.X, Cell.E, Cell.O, Cell.O, Cell.E,
          Cell.E, Cell.E, Cell.E] Cell.X Cell.O).1 = some m ∧
        check_winner (List.set [Cell.X, Cell.X, Cell.E, Cell.O, Cell.O, Cell.E,
          Cell.E, Cell.E, Cell.E] m Cell.X) = some Cell.X) ∧
     ((∀ m ∈ available_moves [Cell.X, Cell.X, Cell.E, Cell.O, Cell.O, Cell.E,
          Cell.E, Cell.E, Cell.E],
        check_winner (List.set [Cell.X, Cell.X, Cell.E, Cell.O, Cell.O, Cell.E,
          Cell.E, Cell.E, Cell.E] m Cell.X) ≠ some Cell.X) →
      (∃ m ∈ available_moves [Cell.X, Cell.X, Cell.E, Cell.O, Cell.O, Cell.E,
          Cell.E, Cell.E, Cell.E],
        check_winner (List.set [Cell.X, Cell.X, Cell.E, Cell.O, Cell.O, Cell.E,
          Cell.E, Cell.E, Cell.E] m Cell.O) = some Cell.O) →
      ∃ m, (get_best_move [Cell.X, Cell.X, Cell.E, Cell.O, Cell.O, Cell.E,
          Cell.E, Cell.E, Cell.E] Cell.X Cell.O).1 = some m ∧
        check_winner (List.set [Cell.X, Cell.X, Cell.E, Cell.O, Cell.O, Cell.E,
          Cell.E, Cell.E, Cell.E] m Cell.O) = some Cell.O)) :=
  ⟨rfl, tier_one_priority _ Cell.X Cell.O rfl⟩

/-- C7 (amended): the assert fails exactly on full boards.  On a nine-cell
board holding only the two marks in play, `get_best_move` signals the assert
failure (returns no position) iff the board has no empty cell; on every
non-full board — including already-won, terminal ones — it returns a
position. -/
theorem assert_fires_iff_full :
    ∀ (b : Board) (computer player : Cell),
      b.length = 9 → marksOnly b computer player →
      ((get_best_move b computer player).1 = none ↔
        available_moves b = []) := by
  intro b computer player hlen hmarks
  exact gbm_none_iff hlen hmarks

/-- Witness for C7 at a concrete full drawn board. -/
theorem assert_fires_iff_full_witness :
    ([Cell.X, Cell.O, Cell.X, Cell.X, Cell.O, Cell.O, Cell.O, Cell.X, Cell.X] :
      Board).length = 9 ∧
    marksOnly [Cell.X, Cell.O, Cell.X, Cell.X, Cell.O, Cell.O, Cell.O, Cell.X,
      Cell.X] Cell.X Cell.O ∧
    ((get_best_move [Cell.X, Cell.O, Cell.X, Cell.X, Cell.O, Cell.O, Cell.O,
        Cell.X, Cell.X] Cell.X Cell.O).1 = none ↔
      available_moves [Cell.X, Cell.O, Cell.X, Cell.X, Cell.O, Cell.O, Cell.O,
        Cell.X, Cell.X] = []) :=
  ⟨rfl, marksOnly_of_forall (by decide),
    assert_fires_iff_full _ Cell.X Cell.O rfl (marksOnly_of_forall (by decide))⟩

/-- C7 counterexample: a terminal board (`X` already won the top row) that is
not full.  `get_best_move` does not fail the assert: it returns position 4. -/
theorem terminal_board_returns_move :
    check_winner [Cell.X, Cell.X, Cell.X, Cell.E, Cell.E, Cell.E, Cell.E,
      Cell.E, Cell.E] = some Cell.X ∧
    (get_best_move [Cell.X, Cell.X, Cell.X, Cell.E, Cell.E, Cell.E, Cell.E,
      Cell.E, Cell.E] Cell.X Cell.O).1 = some 4 := by
  constructor
  · decide
  · decide!

/-- C8 (amended): `check_winner` returns `none` iff no line is fully owned
by one mark; when at least one line is full and every full line is owned by
the same mark `m`, it returns `m` (so single-winner boards are detected
correctly); and the empty board has no winner.  When two different marks
each own a full line, it returns the mark of the first such line in the
fixed line order, which need not be the queried mark. -/
theorem check_winner_spec :
    ∀ (b : Board),
      (check_winner b = none ↔ ∀ l ∈ lines, ¬ lineFull b l.1 l.2.1 l.2.2) ∧
      (∀ m : Cell, (∃ l ∈ lines, lineFull b l.1 l.2.1 l.2.2) →
        (∀ l ∈ lines, lineFull b l.1 l.2.1 l.2.2 → cell b l.1 = m) →
        check_winner b = some m) ∧
      check_winner new_board = none := by
  intro b
  refine ⟨winnerAux_eq_none_iff, ?_, by decide⟩
  intro m hex hall
  exact winnerAux_some_of hex hall

/-- C8 counterexample: on `[X,X,X,_,_,_,O,O,O]` the line (6,7,8) is fully
owned by `O`, yet `check_winner` does not return `O` (it returns `X`, the
owner of the earlier line (0,1,2)). -/
theorem two_line_board_winner :
    lineFull [Cell.X, Cell.X, Cell.X, Cell.E, Cell.E, Cell.E, Cell.O, Cell.O,
      Cell.O] 6 7 8 ∧
    check_winner [Cell.X, Cell.X, Cell.X, Cell.E, Cell.E, Cell.E, Cell.O,
      Cell.O, Cell.O] ≠ some Cell.O := by
  constructor
  · exact ⟨by decide, by decide, by decide⟩
  · decide

/-- C9: draw detection.  `is_draw` is true exactly when there is no winner
and no cell is empty; in particular it is false whenever some cell is empty,
even with no winner. -/
theorem is_draw_spec :
    ∀ (b : Board),
      is_draw b = true ↔ (check_winner b = none ∧ ∀ v ∈ b, v ≠ Cell.E) := by
  intro b
  rw [is_draw_iff, ← all_nonE_iff, List.all_eq_true]
  simp

/-- C10: legal-move result.  On every non-terminal nine-cell board holding
only the two marks in play, `get_best_move` returns a position in `[0, 8]`
whose cell is empty, hands the board back unchanged, and never fails the
assert. -/
theorem legal_move_result :
    ∀ (b : Board) (computer player : Cell),
      b.length = 9 → marksOnly b computer player → check_winner b = none →
      available_moves b ≠ [] →
      ∃ m, get_best_move b computer player = (some m, b) ∧ m < 9 ∧
        cell b m = Cell.E := by
  intro b computer player hlen hmarks hw hne
  exact gbm_legal hlen hmarks hw hne

/-- Witness for C10 at the empty board. -/
theorem legal_move_result_witness :
    (new_board : Board).length = 9 ∧ marksOnly new_board Cell.X Cell.O ∧
    check_winner new_board = none ∧ available_moves new_board ≠ [] ∧
    ∃ m, get_best_move new_board Cell.X Cell.O = (some m, new_board) ∧
      m < 9 ∧ cell new_board m = Cell.E :=
  ⟨rfl, marksOnly_of_forall (by decide), by decide, by decide,
    legal_move_result new_board Cell.X Cell.O rfl
      (marksOnly_of_forall (by decide)) (by decide) (by decide)⟩
